import Mathlib

/-!
Verification of the git-sheet-work repository core logic against its
specification.

The TypeScript sources are shallowly embedded in Lean:

* JavaScript strings are modelled as `List Char` (named `JStr`); `charAt`,
  `substring`, `trim`, `split` become list operations.
* `String.prototype.localeCompare` is modelled as code-point lexicographic
  comparison (`lexCmp`), which is what the specification asserts
  ("case-sensitive alphabetical").
* `Array.prototype.sort` with a comparator is modelled as the stable
  `List.insertionSort` over the relation "comparator result is ≤ 0".
* The external `git diff --numstat` calls made while parsing status lines are
  abstracted as a function `ExecEnv`; a thrown exception is `Except.error`.
* The runtime date parser (`new Date(...)` in the sheets aggregator) is
  abstracted as a parameter `parseDate : JStr → Option Int`; an invalid date
  is `none`, and comparisons on invalid dates are false, matching `NaN`
  comparison semantics.
* Mutable tree nodes linked through a path-keyed map are modelled as an
  association list from path to node data, with children stored as a list of
  child paths; the final tree is materialised from that flat state with a
  fuel argument that provably never runs out (paths strictly lengthen along
  child edges).

The repository contains two variant implementations of the status-line
parser and of `buildFileTree`: one in `src/app/routes/_index.tsx`
(namespace `IndexR` below) and one in `src/unnamed/part_003` (namespace
`Part3` below).  Both are embedded; claims that mention `buildFileTree` or
the parser are settled against both where they differ.
-/

/-- A JavaScript string, modelled as its list of characters. -/
abbrev JStr := List Char

/-- Whitespace as trimmed by `String.prototype.trim` (common cases). -/
def isWS (c : Char) : Bool := c == ' ' || c == '\t' || c == '\n' || c == '\r'

/-- `String.prototype.trim`: drop whitespace from both ends. -/
def jsTrim (l : JStr) : JStr := ((l.dropWhile isWS).reverse.dropWhile isWS).reverse

/-- Code-point lexicographic comparison of two strings; model of
`localeCompare` (the spec reads it as case-sensitive alphabetical order). -/
def lexCmp : JStr → JStr → Ordering
  | [], [] => .eq
  | [], _ :: _ => .lt
  | _ :: _, [] => .gt
  | a :: as, b :: bs =>
    if a < b then .lt else if b < a then .gt else lexCmp as bs

/-- Value of a nonempty run of decimal digits, `none` if there are no digits
(`parseInt` returning `NaN`). -/
def digitsVal (l : JStr) : Option Nat :=
  let ds := l.takeWhile (·.isDigit)
  if ds = [] then none
  else some (ds.foldl (fun a c => a * 10 + (c.toNat - 48)) 0)

/-- JavaScript `parseInt` on decimal input: skip leading whitespace, optional
sign, then a digit run; `none` models `NaN`.  (The hexadecimal `0x` form of
`parseInt` is not modelled; the numstat output parsed here is decimal.) -/
def jsParseInt (l : JStr) : Option Int :=
  match l.dropWhile isWS with
  | '-' :: rest => (digitsVal rest).map (fun n => -(n : Int))
  | '+' :: rest => (digitsVal rest).map (fun n => (n : Int))
  | rest => (digitsVal rest).map (fun n => (n : Int))

/-- `parseInt(s) || 0` as used on numstat columns. -/
def jsParseIntOr0 (l : JStr) : Int := (jsParseInt l).getD 0

/-- One parsed change record (`GitChange` in the sources).  `additions` /
`deletions` are `none` when the corresponding property is absent from the
pushed object (the `catch` branch, or a missing destructuring component). -/
structure GitChange where
  status : Char
  file : JStr
  additions : Option Int
  deletions : Option Int
  isStaged : Bool
  isUntracked : Bool
deriving DecidableEq

/-- The external per-file diff-stat call: `true` selects
`git diff --cached --numstat` (staged), `false` selects `git diff --numstat`
(unstaged).  `Except.error` models a thrown exception. -/
def ExecEnv : Type := Bool → JStr → Except Unit JStr

/-- Parse the stdout of `git diff --numstat "<file>"` as the pair
`[additions, deletions]`: on blank output both stay `0`; otherwise the
trimmed output is split on tabs and the first two columns are taken
(`deletions` is absent when there is no second column). -/
def parseNumstatPair (s : JStr) : Option Int × Option Int :=
  let t := jsTrim s
  if t = [] then (some 0, some 0)
  else
    let ns := (t.splitOn '\t').map jsParseIntOr0
    (some (ns.getD 0 0), ns[1]?)

/-- Fetch line counts for one record, mirroring the `if (isStaged) ... else if
(hasWorkingChanges && !isUntracked) ...` ladder inside the `try` block. -/
def fetchCounts (ed : ExecEnv) (stg hasW unt : Bool) (file : JStr) :
    Except Unit (Option Int × Option Int) :=
  if stg then (ed true file).map parseNumstatPair
  else if hasW && !unt then (ed false file).map parseNumstatPair
  else .ok (some 0, some 0)

/-- Build the pushed record: the `try` branch pushes the record with the
computed counts; the `catch` branch pushes it without count fields. -/
def assembleChange (status : Char) (file : JStr) (stg unt : Bool) :
    Except Unit (Option Int × Option Int) → GitChange
  | .ok (a, d) =>
    { status := status, file := file, additions := a, deletions := d,
      isStaged := stg, isUntracked := unt }
  | .error _ =>
    { status := status, file := file, additions := none, deletions := none,
      isStaged := stg, isUntracked := unt }

namespace IndexR

/-- Embedding of the status-line loop body of `action` in
`src/app/routes/_index.tsx` (lines 177–247): one line in, at most one
`GitChange` out.  This variant always takes the file name as
`line.substring(3).trim()`. -/
def parseLine (ed : ExecEnv) (line : JStr) : Option GitChange :=
  if line.length < 3 then none
  else
    let indexStatus := line.getD 0 ' '
    let workingStatus := line.getD 1 ' '
    let file := jsTrim (line.drop 3)
    let isUntracked := indexStatus == '?' && workingStatus == '?'
    let isStaged := !isUntracked && indexStatus != ' ' && indexStatus != '?'
    let hasWorkingChanges := workingStatus != ' ' && workingStatus != '?'
    if isStaged || hasWorkingChanges || isUntracked then
      some (assembleChange (if isStaged then indexStatus else workingStatus)
        file isStaged isUntracked
        (fetchCounts ed isStaged hasWorkingChanges isUntracked file))
    else none

end IndexR

namespace Part3

/-- Embedding of the status-line loop body of `action` in
`src/unnamed/part_003` (lines 161–236).  This variant handles both status
widths (`line.charAt(2) === ' '` selects `substring(3)`, otherwise
`substring(2)`), and its `isStaged` does not exclude a `?` index column. -/
def parseLine (ed : ExecEnv) (line : JStr) : Option GitChange :=
  if line.length < 3 then none
  else
    let indexStatus := line.getD 0 ' '
    let workingStatus := line.getD 1 ' '
    let file :=
      if line.getD 2 ' ' == ' ' then jsTrim (line.drop 3)
      else jsTrim (line.drop 2)
    let isUntracked := indexStatus == '?' && workingStatus == '?'
    let isStaged := !isUntracked && indexStatus != ' '
    let hasWorkingChanges := workingStatus != ' ' && workingStatus != '?'
    if isStaged || hasWorkingChanges || isUntracked then
      some (assembleChange (if isStaged then indexStatus else workingStatus)
        file isStaged isUntracked
        (fetchCounts ed isStaged hasWorkingChanges isUntracked file))
    else none

end Part3

/-- The four count-independent fields of a record. -/
def proj4 (c : GitChange) : Char × JStr × Bool × Bool :=
  (c.status, c.file, c.isStaged, c.isUntracked)

/-- An `ExecEnv` whose calls all fail; used to instantiate claims at concrete
inputs. -/
def edErr : ExecEnv := fun _ _ => .error ()

/-! ### Sheets aggregator (src/unnamed/part_005) -/

/-- The sentinel stored in the file column when a commit touched no files. -/
def sentinelFile : JStr := "(sin archivos)".toList

/-- `row[i] || ''` on a raw spreadsheet row. -/
def rowField (row : List JStr) (i : Nat) : JStr := row.getD i []

/-- `row[6] || 'Aplicación'`: the repository label column with its default. -/
def rowRepo (row : List JStr) : JStr :=
  let v := row.getD 6 []
  if v = [] then "Aplicación".toList else v

/-- A row is skipped by the by-file aggregation when its file column is empty
or the sentinel. -/
def rowFileValid (row : List JStr) : Bool :=
  rowField row 4 != [] && rowField row 4 != sentinelFile

/-- The runtime date parser (`new Date(...)`), abstracted: `none` is an
invalid date. -/
def DateParser : Type := JStr → Option Int

/-- `new Date(a) > new Date(b)`: false whenever either side is `NaN`. -/
def jsDateGt (pd : DateParser) (a b : JStr) : Bool :=
  match pd a, pd b with
  | some x, some y => decide (x > y)
  | _, _ => false

/-- `new Date(a) < new Date(b)`: false whenever either side is `NaN`. -/
def jsDateLt (pd : DateParser) (a b : JStr) : Bool :=
  match pd a, pd b with
  | some x, some y => decide (x < y)
  | _, _ => false

/-- One entry of the unique-files map in `createUniqueFilesSheet`. -/
structure UFRec where
  file : JStr
  fileType : JStr
  repositoryType : JStr
  lastCommitHash : JStr
  lastCommitMessage : JStr
  lastCommitAuthor : JStr
  lastCommitDate : JStr
  commitCount : Nat
  firstCommitDate : JStr
deriving DecidableEq

/-- First-match association-list lookup (model of `Map.get` and of property
access on a plain object). -/
def alGet {B : Type} : List (JStr × B) → JStr → Option B
  | [], _ => none
  | e :: m, k => if e.1 = k then some e.2 else alGet m k

/-- Replace the value at an existing key in place (model of mutating the
object returned by `Map.get`). -/
def alSet {B : Type} (m : List (JStr × B)) (k : JStr) (v : B) :
    List (JStr × B) :=
  m.map (fun e => if e.1 = k then (k, v) else e)

/-- The grouping key computed for one row by the by-file aggregation:
`file + "|" + repositoryLabel`. -/
def rowKeyOf (row : List JStr) : JStr := rowField row 4 ++ '|' :: rowRepo row

/-- The in-place update of an existing unique-files entry by one row
(`createUniqueFilesSheet`, part_005 lines 467–489): take over the last-commit
fields when the row's date parses greater, always increment the counter, and
take over the first date when the row's date parses smaller. -/
def ufUpdated (pd : DateParser) (row : List JStr) (existing : UFRec) : UFRec :=
  let e1 :=
    if jsDateGt pd (rowField row 3) existing.lastCommitDate then
      { existing with
        lastCommitHash := rowField row 0
        lastCommitMessage := rowField row 1
        lastCommitAuthor := rowField row 2
        lastCommitDate := rowField row 3 }
    else existing
  let e2 := { e1 with commitCount := e1.commitCount + 1 }
  if jsDateLt pd (rowField row 3) e2.firstCommitDate then
    { e2 with firstCommitDate := rowField row 3 }
  else e2

/-- The fresh unique-files entry created from one row (part_005
lines 490–503). -/
def ufNew (row : List JStr) : UFRec :=
  { file := rowField row 4
    fileType := rowField row 5
    repositoryType := rowRepo row
    lastCommitHash := rowField row 0
    lastCommitMessage := rowField row 1
    lastCommitAuthor := rowField row 2
    lastCommitDate := rowField row 3
    commitCount := 1
    firstCommitDate := rowField row 3 }

/-- The per-row body of the unique-files aggregation loop
(`createUniqueFilesSheet`, part_005 lines 450–504): skip empty/sentinel
files, then update the entry under the `file + "|" + label` key in place, or
append a fresh one. -/
def uniqueStep (pd : DateParser) (m : List (JStr × UFRec)) (row : List JStr) :
    List (JStr × UFRec) :=
  let file := rowField row 4
  if file = [] ∨ file = sentinelFile then m
  else
    match alGet m (rowKeyOf row) with
    | some existing => alSet m (rowKeyOf row) (ufUpdated pd row existing)
    | none => m ++ [(rowKeyOf row, ufNew row)]

/-- Comparator of the output rows, as a boolean ≤ test: by repository label,
then by file name (both via `localeCompare`). -/
def ufLeB (a b : UFRec) : Bool :=
  if a.repositoryType = b.repositoryType then
    if lexCmp a.file b.file = .gt then false else true
  else
    if lexCmp a.repositoryType b.repositoryType = .gt then false else true

/-- The comparator order as a relation, for `insertionSort`. -/
def ufLe (a b : UFRec) : Prop := ufLeB a b = true

instance : DecidableRel ufLe := fun a b => Bool.decEq (ufLeB a b) true

/-- The by-file aggregation of `createUniqueFilesSheet`: fold all rows into
the path-keyed map, then sort the records by repository label and file. -/
def createUniqueFiles (pd : DateParser) (rows : List (List JStr)) :
    List UFRec :=
  (((rows.foldl (uniqueStep pd) []).map (fun e => e.2)).insertionSort ufLe)

/-- The repository-kind tag reconstructed by `getCommits`. -/
inductive RepoKind where
  | app
  | bd
deriving DecidableEq

/-- One reconstructed commit group (`CommitData` in part_005). -/
structure CommitData where
  hash : JStr
  message : JStr
  author : JStr
  date : JStr
  files : List JStr
  repositoryType : RepoKind
deriving DecidableEq

/-- The per-row body of the by-commit grouping loop (`getCommits`, part_005
lines 379–408). -/
def getCommitsStep (m : List (JStr × CommitData)) (row : List JStr) :
    List (JStr × CommitData) :=
  let hash := rowField row 0
  let message := rowField row 1
  let author := rowField row 2
  let date := rowField row 3
  let file := rowField row 4
  let repositoryTypeText := rowRepo row
  let kind : RepoKind :=
    if repositoryTypeText = "Base de Datos".toList then .bd else .app
  match alGet m hash with
  | some existing =>
    if file ≠ [] ∧ file ≠ sentinelFile then
      alSet m hash { existing with files := existing.files ++ [file] }
    else m
  | none =>
    m ++ [(hash,
      { hash := hash, message := message, author := author, date := date,
        files := if file ≠ [] ∧ file ≠ sentinelFile then [file] else [],
        repositoryType := kind })]

/-- The by-commit grouping of `getCommits`: group rows by commit hash,
collecting the valid file values per hash in row order. -/
def getCommits (rows : List (List JStr)) : List CommitData :=
  (rows.foldl getCommitsStep []).map (fun e => e.2)

/-! ### File-tree construction (`buildFileTree` in both variants) -/

/-- A materialised tree node (`FileTreeNode` in the sources; the UI-only
`isExpanded` flag is omitted, `change` is `none` when the property is
absent). -/
inductive FNode where
  | mk (name : JStr) (path : JStr) (isDirectory : Bool)
      (change : Option GitChange) (children : List FNode)

def FNode.name : FNode → JStr
  | .mk n _ _ _ _ => n

def FNode.path : FNode → JStr
  | .mk _ p _ _ _ => p

def FNode.isDirectory : FNode → Bool
  | .mk _ _ d _ _ => d

def FNode.change : FNode → Option GitChange
  | .mk _ _ _ c _ => c

def FNode.children : FNode → List FNode
  | .mk _ _ _ _ ch => ch

mutual
/-- Number of leaf nodes (no children) carrying a `change`, over a node. -/
def cntN : FNode → Nat
  | .mk _ _ _ c [] => if c.isSome then 1 else 0
  | .mk _ _ _ _ (x :: xs) => cntL (x :: xs)
/-- Number of leaf nodes carrying a `change`, over a forest. -/
def cntL : List FNode → Nat
  | [] => 0
  | x :: xs => cntN x + cntL xs
end

mutual
/-- All node paths in a subtree, in preorder. -/
def pathsN : FNode → List JStr
  | .mk _ p _ _ ch => p :: pathsL ch
/-- All node paths in a forest, in preorder. -/
def pathsL : List FNode → List JStr
  | [] => []
  | x :: xs => pathsN x ++ pathsL xs
end

/-- The sort comparator of `sortTree` as a boolean ≤ test: directories
first, then `localeCompare` on names. -/
def nodeLeB (a b : FNode) : Bool :=
  if a.isDirectory && !b.isDirectory then true
  else if !a.isDirectory && b.isDirectory then false
  else if lexCmp a.name b.name = .gt then false else true

/-- The comparator order as a relation, for `insertionSort`. -/
def nodeLe (a b : FNode) : Prop := nodeLeB a b = true

instance : DecidableRel nodeLe := fun a b => Bool.decEq (nodeLeB a b) true

/-- Each consecutive pair of a level respects the comparator: equivalently,
directories precede files and names are non-decreasing within each group. -/
def adjSorted : List FNode → Bool
  | [] => true
  | [_] => true
  | a :: b :: rest => nodeLeB a b && adjSorted (b :: rest)

mutual
/-- Every level below a node is `adjSorted`. -/
def nodeOrdered : FNode → Bool
  | .mk _ _ _ _ ch => adjSorted ch && forestOrderedAux ch
/-- Every level strictly below the top of a forest is `adjSorted`. -/
def forestOrderedAux : List FNode → Bool
  | [] => true
  | x :: xs => nodeOrdered x && forestOrderedAux xs
end

/-- Every level of a forest (including the top) is `adjSorted`: the ordering
property claimed for `buildFileTree` output. -/
def forestOrdered (l : List FNode) : Bool := adjSorted l && forestOrderedAux l

mutual
/-- Height of a node (a childless node has height 1). -/
def heightN : FNode → Nat
  | .mk _ _ _ _ ch => heightL ch + 1
/-- Height of a forest. -/
def heightL : List FNode → Nat
  | [] => 0
  | x :: xs => max (heightN x) (heightL xs)
end

/-- `sortTree`: sort one level with the comparator, then rebuild each node
with recursively sorted children.  The recursion is driven by a fuel
argument; `buildFileTree` supplies fuel exceeding the forest height, so the
zero-fuel branch is never taken there. -/
def sortTreeF : Nat → List FNode → List FNode
  | 0, l => l
  | fuel + 1, l =>
    (l.insertionSort nodeLe).map fun n =>
      match n with
      | .mk a p d c ch => .mk a p d c (sortTreeF fuel ch)

/-- The data of one un-materialised tree node: the node fields plus the paths
of its children, in insertion order.  The path-keyed node map of the sources
becomes an association list from path to this record. -/
structure EInfo where
  name : JStr
  isDirectory : Bool
  change : Option GitChange
  children : List JStr
deriving DecidableEq

/-- The path-keyed map of nodes under construction. -/
abbrev St := List (JStr × EInfo)

/-- Append a child path to the entry at key `k` (mutating
`parent.children.push(...)`). -/
def alPushChild (st : St) (k q : JStr) : St :=
  st.map fun e =>
    if e.1 = k then (e.1, { e.2 with children := e.2.children ++ [q] }) else e

/-- Overwrite the `change` of the entry at key `k` (mutating
`existingNode.change = change`). -/
def alSetChange (st : St) (k : JStr) (c : GitChange) : St :=
  st.map fun e =>
    if e.1 = k then (e.1, { e.2 with change := some c }) else e

/-- Materialise the tree rooted at a map entry: children paths are resolved
through the map.  Fuel decreases with each level; along every child edge the
path strictly lengthens, so fuel chosen above the longest key never runs
out. -/
def matNode (st : St) : Nat → JStr → EInfo → FNode
  | 0, p, e => .mk e.name p e.isDirectory e.change []
  | fuel + 1, p, e =>
    .mk e.name p e.isDirectory e.change
      (e.children.filterMap fun q => (alGet st q).map (matNode st fuel q))

/-- Length of the longest key in the map. -/
def maxKeyLen (st : St) : Nat := (st.map (fun e => e.1.length)).foldr max 0

/-- Fuel that provably suffices for `matNode` and `sortTreeF`. -/
def fuelOf (st : St) : Nat := maxKeyLen st + 2

/-- The node created for a path segment: a directory for a non-final
segment, a change-carrying file node for a final one (`createNode` plus the
immediate field assignments in both variants). -/
def mkNode (part : JStr) (isLast : Bool) (c : GitChange) : EInfo :=
  { name := part
    isDirectory := !isLast
    change := if isLast then some c else none
    children := [] }

namespace IndexR

/-- Attach the node at `cur2` to its parent, mirroring the
`if (previousPath && tree[previousPath])` connect step of the `_index.tsx`
variant: nothing happens for an empty parent path or a missing parent, and
an already-linked child is not linked twice. -/
def connectIdx (st1 : St) (prev cur2 : JStr) : St :=
  if prev = [] then st1
  else
    match alGet st1 prev with
    | some pe =>
      if cur2 ∈ pe.children then st1 else alPushChild st1 prev cur2
    | none => st1

/-- Walk the path segments of one record, mirroring the `parts.forEach` body
of `buildFileTree` in `src/app/routes/_index.tsx` (lines 286–311): create a
missing node for the cumulative path (directory for a non-final segment, a
change-carrying file node for the final one), then link it to the parent
node when one exists and the link is not already present. -/
def walkIdx (c : GitChange) : St → List JStr → JStr → St
  | st, [], _ => st
  | st, part :: rest, cur =>
    let cur2 := if cur = [] then part else cur ++ '/' :: part
    let st1 :=
      match alGet st cur2 with
      | some _ => st
      | none => st ++ [(cur2, mkNode part rest.isEmpty c)]
    walkIdx c (connectIdx st1 cur cur2) rest cur2

/-- Process one record: walk its raw `/`-split segments (this variant does
not normalise separators or filter empty segments). -/
def stepIdx (st : St) (c : GitChange) : St :=
  walkIdx c st (c.file.splitOn '/') []

/-- `path.substring(0, path.lastIndexOf('/'))`: everything before the last
slash, empty when there is none. -/
def parentPathOf (p : JStr) : JStr :=
  ((p.reverse.dropWhile (fun ch => ch != '/')).drop 1).reverse

/-- The root nodes: entries whose parent path is empty or not a key
(`Object.values(tree).filter(...)`). -/
def rootsIdx (st : St) : List JStr :=
  (st.map (fun e => e.1)).filter fun p =>
    (parentPathOf p).isEmpty || (alGet st (parentPathOf p)).isNone

/-- `buildFileTree` of `src/app/routes/_index.tsx` (lines 264–336): build the
path-keyed node map from all records, materialise the root nodes, and sort
every level. -/
def buildFileTree (changes : List GitChange) : List FNode :=
  let st := changes.foldl stepIdx []
  sortTreeF (fuelOf st)
    ((rootsIdx st).filterMap fun p => (alGet st p).map (matNode st (fuelOf st) p))

end IndexR

namespace Part3

/-- Normalise Windows separators: `file.replace(/\\/g, '/')`. -/
def normSlash (f : JStr) : JStr := f.map fun ch => if ch = '\\' then '/' else ch

/-- The builder state of the part_003 variant: the path-keyed map (seeded
with an implicit root at the empty path) plus the `root` fallback array. -/
structure St3 where
  entries : St
  rootArr : List JStr
deriving DecidableEq

/-- The seeded initial state: `pathMap.set('', { ... root ... })`. -/
def st3Init : St3 :=
  ⟨[([], { name := [], isDirectory := true, change := none, children := [] })], []⟩

/-- Attach a freshly created node to its parent, or push it to the `root`
array when the parent is missing (`const parent = pathMap.get(parentPath);
if (parent) ... else root.push(node)` in part_003). -/
def attachP3 (ents : St) (rootArr : List JStr) (prev cur2 : JStr) : St3 :=
  match alGet ents prev with
  | some _ => { entries := alPushChild ents prev cur2, rootArr := rootArr }
  | none => { entries := ents, rootArr := rootArr ++ [cur2] }

/-- Walk the filtered path segments of one record, mirroring the
`parts.forEach` body of `buildFileTree` in `src/unnamed/part_003`
(lines 291–322): a missing node is created and attached to its parent (or to
the `root` array when the parent is missing); an existing node reached as
the final segment has its `change` overwritten. -/
def walkP3 (c : GitChange) : St3 → List JStr → JStr → St3
  | s, [], _ => s
  | s, part :: rest, cur =>
    let cur2 := if cur = [] then part else cur ++ '/' :: part
    let s2 :=
      match alGet s.entries cur2 with
      | none =>
        attachP3 (s.entries ++ [(cur2, mkNode part rest.isEmpty c)])
          s.rootArr cur cur2
      | some _ =>
        if rest.isEmpty then { s with entries := alSetChange s.entries cur2 c }
        else s
    walkP3 c s2 rest cur2

/-- Process one record: normalise separators, split, drop empty segments,
and skip the record entirely when nothing remains. -/
def stepP3 (s : St3) (c : GitChange) : St3 :=
  let parts := ((normSlash c.file).splitOn '/').filter fun part => part.length > 0
  if parts = [] then s else walkP3 c s parts []

/-- `buildFileTree` of `src/unnamed/part_003` (lines 253–348): only the first
50 records are processed; the forest is the `root` array if non-empty, else
the children of the implicit root; every level is then sorted. -/
def buildFileTree (changes : List GitChange) : List FNode :=
  let s := (changes.take 50).foldl stepP3 st3Init
  let finalPaths :=
    if s.rootArr ≠ [] then s.rootArr
    else
      match alGet s.entries [] with
      | some e => e.children
      | none => []
  sortTreeF (fuelOf s.entries)
    (finalPaths.filterMap fun p =>
      (alGet s.entries p).map (matNode s.entries (fuelOf s.entries) p))

end Part3

/-- A minimal staged-modification record for a given file, used to state
claims at concrete inputs. -/
def mkc (f : String) : GitChange :=
  { status := 'M', file := f.toList, additions := none, deletions := none,
    isStaged := true, isUntracked := false }

/-- The counts recorded from one diff-stat call: parsed columns on success,
absent on failure (the `catch` push). -/
def countsOf : Except Unit JStr → Option Int × Option Int
  | .ok s => parseNumstatPair s
  | .error _ => (none, none)

/-- An `ExecEnv` always answering `"3\t4"`; used to instantiate claims. -/
def edOk : ExecEnv := fun _ _ => .ok "3\t4".toList

/-- A minimal staged-addition record for a given file (differs from `mkc`),
used to state claims at concrete inputs. -/
def mka (f : String) : GitChange :=
  { status := 'A', file := f.toList, additions := none, deletions := none,
    isStaged := true, isUntracked := false }

/-- The record parsed from `"A  a.ts"` when the diff lookup answers
`"3\t4"`; used to instantiate claims. -/
def c7rec : GitChange :=
  { status := 'A', file := "a.ts".toList, additions := some 3,
    deletions := some 4, isStaged := true, isUntracked := false }

/-- Rows exhibiting the `file|repositoryLabel` key collision: the file name
of the first row contains the separator `|`. -/
def exRows8 : List (List JStr) :=
  [["h1".toList, [], [], "d1".toList, "a|x".toList, [], "r".toList],
   ["h2".toList, [], [], "d2".toList, "a".toList, [], "x|r".toList]]

/-- Generic in-place update of every entry at a key (model of mutating the
object retrieved from the map). -/
def alUpdate {B : Type} (m : List (JStr × B)) (k : JStr) (g : B → B) :
    List (JStr × B) :=
  m.map fun e => if e.1 = k then (e.1, g e.2) else e

/-- Induction invariant of the by-file aggregation: after folding the rows
`done` into the map `m`, keys are distinct, every valid processed row has an
entry under its key, and every entry records its own key, a valid file taken
from some processed row, and a hit count equal to the number of valid
processed rows with its key. -/
def UInv (done : List (List JStr)) (m : List (JStr × UFRec)) : Prop :=
  (m.map Prod.fst).Nodup
  ∧ (∀ row ∈ done, rowFileValid row = true → (alGet m (rowKeyOf row)).isSome)
  ∧ ∀ e ∈ m,
      e.1 = e.2.file ++ '|' :: e.2.repositoryType
      ∧ e.2.file ≠ [] ∧ e.2.file ≠ sentinelFile
      ∧ (∃ row ∈ done, e.2.file = rowField row 4)
      ∧ e.2.commitCount
          = done.countP (fun row => rowFileValid row && (rowKeyOf row == e.1))

/-- Induction invariant of the by-commit grouping: every processed row's
hash has an entry, every entry's stored hash is its key, and every stored
file value is non-empty and not the sentinel. -/
def GInv (done : List (List JStr)) (m : List (JStr × CommitData)) : Prop :=
  (∀ row ∈ done, (alGet m (rowField row 0)).isSome)
  ∧ (∀ e ∈ m, e.2.hash = e.1)
  ∧ (∀ e ∈ m, ∀ f ∈ e.2.files, f ≠ [] ∧ f ≠ sentinelFile)

/-- A right-bounded date parser assigning every string the timestamp 5;
used to instantiate claims. -/
def pdConst : DateParser := fun _ => some 5

/-- A sample spreadsheet row. -/
def exRow9 : List JStr := ["h".toList, [], [], "2024".toList, "f.sql".toList]

/-- A sample sentinel row: the commit touched no files. -/
def exRowS : List JStr :=
  ["h1".toList, "m".toList, "a".toList, "d".toList, sentinelFile]

/-- Shape of a child edge in the node map: the child key appends one
slash-free segment to the parent key (a segment alone under the part_003
implicit root, whose key is empty). -/
def ChildExt (p q : JStr) : Prop :=
  ∃ s : JStr, '/' ∉ s ∧ ((p = [] ∧ s ≠ [] ∧ q = s) ∨ (p ≠ [] ∧ q = p ++ '/' :: s))

/-- Well-formedness of the node map: keys are distinct, children lists are
duplicate-free, and every recorded child is itself a key extending its
parent by one slash-free segment. -/
def StWF (st : St) : Prop :=
  (st.map Prod.fst).Nodup
  ∧ ∀ e ∈ st, e.2.children.Nodup
      ∧ ∀ q ∈ e.2.children, (alGet st q).isSome ∧ ChildExt e.1 q

/-- `x` lies in the path subtree of `q`: it is `q` itself or extends it
past a slash boundary. -/
def isExtOf (q x : JStr) : Prop := x = q ∨ ∃ t, x = q ++ '/' :: t

/-- No two nodes of the forest share a `path`. -/
def nodupPaths (l : List FNode) : Prop := (pathsL l).Nodup

/-- Additional invariants of the `_index.tsx` builder state: every key
containing a slash decomposes as an existing parent key plus one slash-free
segment (so the root filter selects exactly the slash-free keys), and the
empty key never has children. -/
def IdxWF (st : St) : Prop :=
  StWF st
  ∧ (∀ p, (alGet st p).isSome → '/' ∈ p →
      ∃ pr s, p = pr ++ '/' :: s ∧ '/' ∉ s ∧ pr ≠ [] ∧ (alGet st pr).isSome)
  ∧ (∀ e ∈ st, e.1 = [] → e.2.children = [])

/-- The successive values of `currentPath` along a `parts.forEach` walk
(`currentPath = currentPath ? currentPath + '/' + part : part`). -/
def cums : List JStr → JStr → List JStr
  | [], _ => []
  | part :: rest, cur =>
    (if cur = [] then part else cur ++ '/' :: part)
      :: cums rest (if cur = [] then part else cur ++ '/' :: part)

/-- The final cumulative path of a walk (`cur` when no segments remain): the
path of the node that carries the record's change. -/
def finCum : List JStr → JStr → JStr
  | [], cur => cur
  | part :: rest, cur => finCum rest (if cur = [] then part else cur ++ '/' :: part)

/-- The non-final cumulative paths of a walk: the paths whose nodes are
created as directories. -/
def propCums : List JStr → JStr → List JStr
  | [], _ => []
  | part :: rest, cur =>
    if rest.isEmpty then []
    else (if cur = [] then part else cur ++ '/' :: part)
      :: propCums rest (if cur = [] then part else cur ++ '/' :: part)

/-- Cumulative / final / proper cumulative paths of one record's raw
`/`-split file. -/
def cumsOf (f : JStr) : List JStr := cums (f.splitOn '/') []

/-- The final cumulative path of a file's walk. -/
def finOf (f : JStr) : JStr := finCum (f.splitOn '/') []

/-- The proper (directory) cumulative paths of a file's walk. -/
def propsOf (f : JStr) : List JStr := propCums (f.splitOn '/') []

/-- The last `/`-separated segment of a path: the `name` its node receives. -/
def lastSeg (p : JStr) : JStr := (p.reverse.takeWhile (fun ch => ch != '/')).reverse

/-- Boolean leaf-with-change test for a path, read off the builder state. -/
def pxB (st : St) (x : JStr) : Bool :=
  match alGet st x with
  | some e => e.children.isEmpty && e.change.isSome
  | none => false

/-- Soundness of a chain start: an empty `currentPath` is allowed only when
the first of several segments is nonempty (true for the raw split of a file
not beginning with `/`). -/
def okStart (parts : List JStr) (cur : JStr) : Prop :=
  cur ≠ [] ∨ (∀ h t, parts = h :: t → t ≠ [] → h ≠ [])

/-- The realistic-input hypotheses of the amended counting claims: no file
begins with a separator, and no record's file equals a proper cumulative
(directory) path of another record's file — a file is never also a folder. -/
def PrefixFree (changes : List GitChange) : Prop :=
  (∀ r ∈ changes, r.file.head? ≠ some '/')
  ∧ ∀ r1 ∈ changes, ∀ r2 ∈ changes, r1.file ∉ propsOf r2.file

/-- Input hypotheses specific to the part_003 variant: at most 50 records
(the variant slices the input), no backslashes (the variant rewrites them to
`/`) and no empty path segments (the variant filters them out). -/
def P3Clean (changes : List GitChange) : Prop :=
  changes.length ≤ 50
  ∧ ∀ r ∈ changes, '\\' ∉ r.file ∧ [] ∉ r.file.splitOn '/'

/-- No two distinct records carry the same file path. -/
def FileUnique (changes : List GitChange) : Prop :=
  ∀ r1 ∈ changes, ∀ r2 ∈ changes, r1.file = r2.file → r1 = r2

/-- Link completeness of the `_index.tsx` builder state: every key containing
a slash is recorded as a child of its (present) parent key. -/
def LinkWF (st : St) : Prop :=
  ∀ p, (alGet st p).isSome → '/' ∈ p →
    ∃ pr s pe, p = pr ++ '/' :: s ∧ '/' ∉ s ∧ pr ≠ []
      ∧ alGet st pr = some pe ∧ p ∈ pe.children

/-- Link completeness of the part_003 builder state: slash-containing keys
are children of their parent key, and other nonempty keys are children of
the implicit root at the empty key. -/
def LinkWF3 (st : St) : Prop :=
  (∀ p, (alGet st p).isSome → '/' ∈ p →
    ∃ pr s pe, p = pr ++ '/' :: s ∧ '/' ∉ s
      ∧ alGet st pr = some pe ∧ p ∈ pe.children)
  ∧ (∀ p, (alGet st p).isSome → '/' ∉ p → p ≠ [] →
    ∃ pe, alGet st [] = some pe ∧ p ∈ pe.children)

/-- The implicit part_003 root entry never carries a change. -/
def RootEnt (st : St) : Prop := ∀ pe, alGet st [] = some pe → pe.change = none

/-- Full characterization of the `_index.tsx` builder state after a set of
records `done`: keys are exactly the cumulative walk paths, node names are
the last path segment, changes sit exactly on final paths (carrying a record
with that file), and directory flags distinguish proper from final paths. -/
def IdxInvFull (done : List GitChange) (st : St) : Prop :=
  (∀ p, (alGet st p).isSome ↔ ∃ r ∈ done, p ∈ cumsOf r.file)
  ∧ (∀ p e, alGet st p = some e →
      e.name = lastSeg p
      ∧ (e.change.isSome → ∃ r ∈ done, p = finOf r.file)
      ∧ (e.isDirectory = true → ∃ r ∈ done, p ∈ propsOf r.file)
      ∧ (e.isDirectory = false → ∃ r ∈ done, p = finOf r.file)
      ∧ (∀ r ∈ done, p = finOf r.file →
          ∃ rc ∈ done, rc.file = r.file ∧ e.change = some rc))

/-- The part_003 analogue of `IdxInvFull`, with the implicit root entry at
the empty key. -/
def P3InvFull (done : List GitChange) (st : St) : Prop :=
  (∀ p, (alGet st p).isSome ↔ (p = [] ∨ ∃ r ∈ done, p ∈ cumsOf r.file))
  ∧ (∀ p e, alGet st p = some e → p ≠ [] →
      e.name = lastSeg p
      ∧ (e.change.isSome → ∃ r ∈ done, p = finOf r.file)
      ∧ (e.isDirectory = true → ∃ r ∈ done, p ∈ propsOf r.file)
      ∧ (e.isDirectory = false → ∃ r ∈ done, p = finOf r.file)
      ∧ (∀ r ∈ done, p = finOf r.file →
          ∃ rc ∈ done, rc.file = r.file ∧ e.change = some rc))
  ∧ RootEnt st

/-- Total materialisation of a map key: the looked-up entry's subtree, or
an inert placeholder for an absent key (never reached on well-formed
inputs). -/
def gmat (st : St) (f : Nat) (q : JStr) : FNode :=
  match alGet st q with
  | some e => matNode st f q e
  | none => .mk [] q false none []

/-- The `sortTree` comparator pulled back to map keys through `gmat`. -/
def keyLe (st : St) (q1 q2 : JStr) : Prop := nodeLe (gmat st 0 q1) (gmat st 0 q2)

instance (st : St) : DecidableRel (keyLe st) :=
  fun q1 q2 => (inferInstance : Decidable (nodeLe (gmat st 0 q1) (gmat st 0 q2)))

/-- Observational equivalence of two builder states: the same keys are
present, and matching entries agree on name, directory flag and change,
with children lists equal as sets. -/
def StEq (st1 st2 : St) : Prop :=
  (∀ p, (alGet st1 p).isSome ↔ (alGet st2 p).isSome)
  ∧ (∀ p e1 e2, alGet st1 p = some e1 → alGet st2 p = some e2 →
      e1.name = e2.name ∧ e1.isDirectory = e2.isDirectory
        ∧ e1.change = e2.change ∧ (∀ q, q ∈ e1.children ↔ q ∈ e2.children))

-- ===================== THEOREMS =====================

theorem assembleChange_proj4 (s : Char) (f : JStr) (stg unt : Bool)
    (r : Except Unit (Option Int × Option Int)) :
    proj4 (assembleChange s f stg unt r) = (s, f, stg, unt) := by
  cases r with
  | ok v => cases v; rfl
  | error e => rfl

theorem assembleChange_file (s : Char) (f : JStr) (stg unt : Bool)
    (r : Except Unit (Option Int × Option Int)) :
    (assembleChange s f stg unt r).file = f := by
  cases r with
  | ok v => cases v; rfl
  | error e => rfl

theorem mapProj4_ite (b : Bool) (s : Char) (f : JStr) (stg unt : Bool)
    (r₁ r₂ : Except Unit (Option Int × Option Int)) :
    Option.map proj4 (if b = true then some (assembleChange s f stg unt r₁) else none)
      = Option.map proj4 (if b = true then some (assembleChange s f stg unt r₂) else none) := by
  cases b <;> simp [assembleChange_proj4]

theorem parseLineIdx_proj4_indep (ed₁ ed₂ : ExecEnv) (line : JStr) :
    (IndexR.parseLine ed₁ line).map proj4 = (IndexR.parseLine ed₂ line).map proj4 := by
  unfold IndexR.parseLine
  split
  · rfl
  · dsimp only
    exact mapProj4_ite _ _ _ _ _ _ _

theorem parseLineP3_proj4_indep (ed₁ ed₂ : ExecEnv) (line : JStr) :
    (Part3.parseLine ed₁ line).map proj4 = (Part3.parseLine ed₂ line).map proj4 := by
  unfold Part3.parseLine
  split
  · rfl
  · dsimp only
    exact mapProj4_ite _ _ _ _ _ _ _

theorem assembleChange_isStaged (s : Char) (f : JStr) (stg unt : Bool)
    (r : Except Unit (Option Int × Option Int)) :
    (assembleChange s f stg unt r).isStaged = stg := by
  cases r with
  | ok v => cases v; rfl
  | error e => rfl

theorem assembleChange_isUntracked (s : Char) (f : JStr) (stg unt : Bool)
    (r : Except Unit (Option Int × Option Int)) :
    (assembleChange s f stg unt r).isUntracked = unt := by
  cases r with
  | ok v => cases v; rfl
  | error e => rfl

theorem assembleChange_counts (s : Char) (f : JStr) (stg unt : Bool)
    (e : Except Unit JStr) :
    ((assembleChange s f stg unt (e.map parseNumstatPair)).additions,
      (assembleChange s f stg unt (e.map parseNumstatPair)).deletions)
      = countsOf e := by
  cases e with
  | error u => rfl
  | ok str =>
    rcases h : parseNumstatPair str with ⟨a, d⟩
    simp only [Except.map, assembleChange, countsOf, h]

theorem assembleChange_counts_const (s : Char) (f : JStr) (stg unt : Bool)
    (a d : Option Int) :
    ((assembleChange s f stg unt (.ok (a, d))).additions,
      (assembleChange s f stg unt (.ok (a, d))).deletions) = (a, d) := rfl

/-- Claim C5 (corrected: this is the part_003 parser's behaviour; the
`_index.tsx` parser always takes the remainder from position 3): whenever the
part_003 parser produces a record, its `file` is the remainder after the
status prefix, trimmed, with the prefix width chosen by whether position 2
is a blank; whenever the `_index.tsx` parser produces a record, its `file`
is the remainder after position 3, trimmed. -/
theorem claimC5_prefix_widths :
    (∀ (ed : ExecEnv) (line : JStr) (c : GitChange),
      Part3.parseLine ed line = some c →
        c.file = (if line.getD 2 ' ' == ' ' then jsTrim (line.drop 3)
          else jsTrim (line.drop 2)))
    ∧ (∀ (ed : ExecEnv) (line : JStr) (c : GitChange),
      IndexR.parseLine ed line = some c → c.file = jsTrim (line.drop 3)) := by
  constructor
  · intro ed line c h
    unfold Part3.parseLine at h
    split at h
    · exact absurd h (by simp)
    · dsimp only at h
      split at h
      · have h2 := Option.some.inj h
        rw [← h2]
        exact assembleChange_file _ _ _ _ _
      · exact absurd h (by simp)
  · intro ed line c h
    unfold IndexR.parseLine at h
    split at h
    · exact absurd h (by simp)
    · dsimp only at h
      split at h
      · have h2 := Option.some.inj h
        rw [← h2]
        exact assembleChange_file _ _ _ _ _
      · exact absurd h (by simp)

/-- Claim C5, counterexample: on the line `"MMfile.txt"` (position 2 is not
a blank) the `_index.tsx` parser does not return the remainder from
position 2; it returns `"ile.txt"` instead of `"file.txt"`. -/
theorem claimC5_counterexample :
    (IndexR.parseLine edErr ("MMfile.txt".toList)).map GitChange.file
      ≠ some (if ("MMfile.txt".toList).getD 2 ' ' == ' '
          then jsTrim (("MMfile.txt".toList).drop 3)
          else jsTrim (("MMfile.txt".toList).drop 2)) := by decide

theorem claimC5_witness :
    ({ status := 'M', file := "file.txt".toList, additions := none,
       deletions := none, isStaged := true, isUntracked := false } :
        GitChange).file
      = (if ("MMfile.txt".toList).getD 2 ' ' == ' '
          then jsTrim (("MMfile.txt".toList).drop 3)
          else jsTrim (("MMfile.txt".toList).drop 2)) :=
  claimC5_prefix_widths.1 edErr ("MMfile.txt".toList) _ (by decide)

/-- Claim C6: the concrete parser cases behave as listed, in both parser
variants: `"A  src/app.ts"` is a staged addition, `" M src/app.ts"` an
unstaged modification, `"?? newfile.txt"` untracked, `"MM src/app.ts"`
staged with the index column winning, and lines shorter than 3 characters
produce no record. -/
theorem claimC6_parser_cases (ed : ExecEnv) :
    ((IndexR.parseLine ed ("A  src/app.ts".toList)).map proj4
        = some ('A', "src/app.ts".toList, true, false)
      ∧ (Part3.parseLine ed ("A  src/app.ts".toList)).map proj4
        = some ('A', "src/app.ts".toList, true, false))
    ∧ ((IndexR.parseLine ed (" M src/app.ts".toList)).map proj4
        = some ('M', "src/app.ts".toList, false, false)
      ∧ (Part3.parseLine ed (" M src/app.ts".toList)).map proj4
        = some ('M', "src/app.ts".toList, false, false))
    ∧ ((IndexR.parseLine ed ("?? newfile.txt".toList)).map proj4
        = some ('?', "newfile.txt".toList, false, true)
      ∧ (Part3.parseLine ed ("?? newfile.txt".toList)).map proj4
        = some ('?', "newfile.txt".toList, false, true))
    ∧ ((IndexR.parseLine ed ("MM src/app.ts".toList)).map proj4
        = some ('M', "src/app.ts".toList, true, false)
      ∧ (Part3.parseLine ed ("MM src/app.ts".toList)).map proj4
        = some ('M', "src/app.ts".toList, true, false))
    ∧ (∀ line : JStr, line.length < 3 →
        IndexR.parseLine ed line = none ∧ Part3.parseLine ed line = none) := by
  refine ⟨⟨?_, ?_⟩, ⟨?_, ?_⟩, ⟨?_, ?_⟩, ⟨?_, ?_⟩, ?_⟩
  · rw [parseLineIdx_proj4_indep ed edErr]; decide
  · rw [parseLineP3_proj4_indep ed edErr]; decide
  · rw [parseLineIdx_proj4_indep ed edErr]; decide
  · rw [parseLineP3_proj4_indep ed edErr]; decide
  · rw [parseLineIdx_proj4_indep ed edErr]; decide
  · rw [parseLineP3_proj4_indep ed edErr]; decide
  · rw [parseLineIdx_proj4_indep ed edErr]; decide
  · rw [parseLineP3_proj4_indep ed edErr]; decide
  · intro line h
    constructor
    · unfold IndexR.parseLine
      rw [if_pos h]
    · unfold Part3.parseLine
      rw [if_pos h]

theorem claimC6_witness :
    IndexR.parseLine edErr ['M'] = none ∧ Part3.parseLine edErr ['M'] = none :=
  (claimC6_parser_cases edErr).2.2.2.2 ['M'] (by decide)

/-- Claim C7 (corrected: for records that are neither staged nor carrying
working-tree changes — in particular untracked files — the counts are
present with value `0`, not absent): when the parser produces a record, its
counts come from the staged diff if the record is staged, else from the
unstaged diff if the worktree column shows a change, else they are `0`;
a failed lookup yields absent counts (`countsOf` of an error) and the
parse itself is a total function. -/
theorem claimC7_count_sources :
    ∀ (ed : ExecEnv) (line : JStr) (c : GitChange),
      IndexR.parseLine ed line = some c →
      (c.isStaged = true → (c.additions, c.deletions) = countsOf (ed true c.file))
      ∧ (c.isStaged = false →
          (line.getD 1 ' ' != ' ' && line.getD 1 ' ' != '?') = true →
          (c.additions, c.deletions) = countsOf (ed false c.file))
      ∧ (c.isStaged = false →
          (line.getD 1 ' ' != ' ' && line.getD 1 ' ' != '?') = false →
          (c.additions, c.deletions) = (some 0, some 0)) := by
  intro ed line c h
  unfold IndexR.parseLine at h
  split at h
  · exact absurd h (by simp)
  · dsimp only at h
    split at h
    · have h2 := Option.some.inj h
      subst h2
      simp only [assembleChange_isStaged, assembleChange_file]
      refine ⟨?_, ?_, ?_⟩
      · intro hstg
        rw [hstg]
        exact assembleChange_counts _ _ _ _ (ed true _)
      · intro hstg hw
        have hq : line.getD 1 ' ' ≠ '?' := by
          intro hq
          rw [hq] at hw
          simp at hw
        have hunt : (line.getD 0 ' ' == '?' && line.getD 1 ' ' == '?') = false := by
          simp only [Bool.and_eq_false_iff, beq_eq_false_iff_ne, ne_eq]
          right
          exact hq
        rw [hstg, hw, hunt]
        exact assembleChange_counts _ _ _ _ (ed false _)
      · intro hstg hw
        rw [hstg, hw]
        exact assembleChange_counts_const _ _ _ _ _ _
    · exact absurd h (by simp)

/-- Claim C7, counterexample: an untracked file produces a record whose
counts are present and zero, not absent. -/
theorem claimC7_counterexample :
    (IndexR.parseLine edErr ("?? newfile.txt".toList)).map GitChange.additions
      = some (some 0)
    ∧ (IndexR.parseLine edErr ("?? newfile.txt".toList)).map GitChange.additions
      ≠ some none := by decide

theorem claimC7_witness :
    (c7rec.additions, c7rec.deletions) = countsOf (edOk true ("a.ts".toList)) :=
  (claimC7_count_sources edOk ("A  a.ts".toList) c7rec (by decide)).1 (by decide)

section AssocLemmas

variable {B : Type}

theorem alGet_nil (k : JStr) : alGet ([] : List (JStr × B)) k = none := rfl

theorem alGet_cons (k0 : JStr) (v : B) (m : List (JStr × B)) (k : JStr) :
    alGet ((k0, v) :: m) k = if k0 = k then some v else alGet m k := rfl

theorem alGet_append (m1 m2 : List (JStr × B)) (k : JStr) :
    alGet (m1 ++ m2) k
      = match alGet m1 k with
        | some v => some v
        | none => alGet m2 k := by
  induction m1 with
  | nil => simp [alGet_nil]
  | cons e m ih =>
    rcases e with ⟨k0, v⟩
    by_cases h : k0 = k
    · simp [alGet_cons, h]
    · simpa [alGet_cons, h] using ih

theorem alGet_isSome_of_mem (m : List (JStr × B)) (e : JStr × B)
    (h : e ∈ m) : (alGet m e.1).isSome := by
  induction m with
  | nil => cases h
  | cons x m ih =>
    rcases x with ⟨k0, v0⟩
    rcases List.mem_cons.mp h with h1 | h1
    · subst h1
      rw [alGet_cons, if_pos rfl]
      rfl
    · by_cases hk : k0 = e.1
      · rw [alGet_cons, if_pos hk]
        rfl
      · rw [alGet_cons, if_neg hk]
        exact ih h1

theorem alGet_mem (m : List (JStr × B)) (k : JStr) (v : B)
    (h : alGet m k = some v) : (k, v) ∈ m := by
  induction m with
  | nil => simp [alGet_nil] at h
  | cons x m ih =>
    rcases x with ⟨k0, v0⟩
    by_cases hk : k0 = k
    · rw [alGet_cons, if_pos hk] at h
      subst hk
      exact List.mem_cons.mpr (Or.inl (by rw [Option.some.inj h]))
    · rw [alGet_cons, if_neg hk] at h
      exact List.mem_cons.mpr (Or.inr (ih h))

theorem mem_of_alGet_nodup (m : List (JStr × B)) (k : JStr) (v : B)
    (hnd : (m.map Prod.fst).Nodup) (h : (k, v) ∈ m) : alGet m k = some v := by
  induction m with
  | nil => cases h
  | cons x m ih =>
    rcases x with ⟨k0, v0⟩
    rw [List.map_cons, List.nodup_cons] at hnd
    rcases List.mem_cons.mp h with h1 | h1
    · rw [Prod.mk.injEq] at h1
      rw [alGet_cons, if_pos h1.1.symm, h1.2]
    · have hk : k0 ≠ k := by
        intro he
        subst he
        have hmem : k0 ∈ List.map Prod.fst m := List.mem_map_of_mem Prod.fst h1
        exact hnd.1 hmem
      rw [alGet_cons, if_neg hk]
      exact ih hnd.2 h1

theorem keys_alUpdate (m : List (JStr × B)) (k : JStr) (g : B → B) :
    (alUpdate m k g).map Prod.fst = m.map Prod.fst := by
  induction m with
  | nil => rfl
  | cons x m ih =>
    simp only [alUpdate, List.map_cons] at ih ⊢
    by_cases h : x.1 = k
    · rw [if_pos h]
      exact congrArg (List.cons x.1) ih
    · rw [if_neg h]
      exact congrArg (List.cons x.1) ih

theorem alGet_alUpdate (m : List (JStr × B)) (k : JStr) (g : B → B)
    (k' : JStr) :
    alGet (alUpdate m k g) k'
      = if k' = k then (alGet m k).map g else alGet m k' := by
  induction m with
  | nil => by_cases h : k' = k <;> simp [alUpdate, alGet_nil, h]
  | cons x m ih =>
    rcases x with ⟨k0, v0⟩
    simp only [alUpdate, List.map_cons] at ih ⊢
    by_cases h0 : k0 = k
    · rw [if_pos h0]
      subst h0
      by_cases h1 : k' = k0
      · subst h1
        rw [alGet_cons, if_pos rfl, alGet_cons, if_pos rfl, if_pos rfl]
        rfl
      · rw [alGet_cons, if_neg (fun he => h1 he.symm), if_neg h1]
        rw [if_neg h1] at ih
        rw [ih, alGet_cons, if_neg (fun he => h1 he.symm)]
    · rw [if_neg h0]
      by_cases h1 : k' = k0
      · subst h1
        have hk : ¬ k' = k := fun he => h0 (he ▸ rfl)
        rw [alGet_cons, if_pos rfl, if_neg hk, alGet_cons, if_pos rfl]
      · rw [alGet_cons, if_neg (fun he => h1 he.symm), ih]
        by_cases h2 : k' = k
        · rw [if_pos h2, if_pos h2, alGet_cons]
          rw [if_neg (fun he => h1 (h2.trans he.symm))]
        · rw [if_neg h2, if_neg h2, alGet_cons, if_neg (fun he => h1 he.symm)]

theorem mem_alUpdate (m : List (JStr × B)) (k : JStr) (g : B → B)
    (e : JStr × B) (h : e ∈ alUpdate m k g) :
    (e ∈ m ∧ e.1 ≠ k) ∨ (e.1 = k ∧ ∃ v, (k, v) ∈ m ∧ e = (k, g v)) := by
  rcases List.mem_map.mp h with ⟨x, hx, hfx⟩
  rcases x with ⟨k0, v0⟩
  by_cases h0 : k0 = k
  · subst h0
    rw [if_pos rfl] at hfx
    right
    refine ⟨by rw [← hfx], v0, hx, by rw [← hfx]⟩
  · rw [if_neg h0] at hfx
    left
    subst hfx
    exact ⟨hx, h0⟩

theorem alSet_eq_alUpdate (m : List (JStr × B)) (k : JStr) (v : B) :
    alSet m k v = alUpdate m k (fun _ => v) := by
  unfold alSet alUpdate
  apply List.map_congr_left
  intro e _
  by_cases h : e.1 = k
  · rw [if_pos h, if_pos h, h]
  · rw [if_neg h, if_neg h]

end AssocLemmas

theorem pipeKey_inj (f1 r1 f2 r2 : JStr) (h1 : '|' ∉ f1) (h2 : '|' ∉ f2)
    (h : f1 ++ '|' :: r1 = f2 ++ '|' :: r2) : f1 = f2 ∧ r1 = r2 := by
  induction f1 generalizing f2 with
  | nil =>
    cases f2 with
    | nil => simpa using h
    | cons b u =>
      exfalso
      rw [List.nil_append, List.cons_append, List.cons.injEq] at h
      refine h2 ?_
      rw [← h.1]
      exact List.mem_cons_self '|' u
  | cons a t ih =>
    cases f2 with
    | nil =>
      exfalso
      rw [List.nil_append, List.cons_append, List.cons.injEq] at h
      refine h1 ?_
      rw [h.1]
      exact List.mem_cons_self '|' t
    | cons b u =>
      rw [List.cons_append, List.cons_append, List.cons.injEq] at h
      have ht1 : '|' ∉ t := fun hm => h1 (List.mem_cons_of_mem a hm)
      have ht2 : '|' ∉ u := fun hm => h2 (List.mem_cons_of_mem b hm)
      rcases ih u ht1 ht2 h.2 with ⟨he1, he2⟩
      exact ⟨by rw [h.1, he1], he2⟩

theorem ufUpdated_file (pd : DateParser) (row : List JStr) (e : UFRec) :
    (ufUpdated pd row e).file = e.file := by
  unfold ufUpdated
  dsimp only
  split <;> split <;> rfl

theorem ufUpdated_repo (pd : DateParser) (row : List JStr) (e : UFRec) :
    (ufUpdated pd row e).repositoryType = e.repositoryType := by
  unfold ufUpdated
  dsimp only
  split <;> split <;> rfl

theorem ufUpdated_count (pd : DateParser) (row : List JStr) (e : UFRec) :
    (ufUpdated pd row e).commitCount = e.commitCount + 1 := by
  unfold ufUpdated
  dsimp only
  split <;> split <;> rfl

theorem uniqueStep_inv (pd : DateParser) (done : List (List JStr))
    (row : List JStr) (m : List (JStr × UFRec)) (h : UInv done m) :
    UInv (done ++ [row]) (uniqueStep pd m row) := by
  rcases h with ⟨hnd, hcomp, hent⟩
  unfold uniqueStep
  dsimp only
  by_cases hval : rowField row 4 = [] ∨ rowField row 4 = sentinelFile
  · rw [if_pos hval]
    have hvb : rowFileValid row = false := by
      unfold rowFileValid
      rcases hval with hv | hv <;> simp [hv]
    refine ⟨hnd, ?_, ?_⟩
    · intro row2 hr2 hr2v
      rcases List.mem_append.mp hr2 with hr2 | hr2
      · exact hcomp row2 hr2 hr2v
      · rw [List.mem_singleton.mp hr2] at hr2v
        rw [hvb] at hr2v
        cases hr2v
    · intro e he
      rcases hent e he with ⟨h1, h2, h3, h4, h5⟩
      refine ⟨h1, h2, h3, ?_, ?_⟩
      · rcases h4 with ⟨row0, hr0, hf0⟩
        exact ⟨row0, List.mem_append.mpr (Or.inl hr0), hf0⟩
      · rw [List.countP_append, h5]
        simp [hvb]
  · rw [if_neg hval]
    push_neg at hval
    have hvb : rowFileValid row = true := by
      unfold rowFileValid
      simp [hval.1, hval.2]
    cases hget : alGet m (rowKeyOf row) with
    | none =>
      refine ⟨?_, ?_, ?_⟩
      · rw [List.map_append, List.nodup_append]
        refine ⟨hnd, by simp, ?_⟩
        intro a ha hb
        simp only [List.map_cons, List.map_nil, List.mem_singleton] at hb
        subst hb
        rcases List.mem_map.mp ha with ⟨e, hem, hfe⟩
        have hs := alGet_isSome_of_mem m e hem
        rw [hfe, hget] at hs
        cases hs
      · intro row2 hr2 hr2v
        rw [alGet_append]
        rcases List.mem_append.mp hr2 with hr2 | hr2
        · have hs := hcomp row2 hr2 hr2v
          cases hx : alGet m (rowKeyOf row2) with
          | none => rw [hx] at hs; cases hs
          | some v => rfl
        · rw [List.mem_singleton.mp hr2, hget]
          show (alGet [(rowKeyOf row, ufNew row)] (rowKeyOf row)).isSome = true
          rw [alGet_cons, if_pos rfl]
          rfl
      · intro e he
        rcases List.mem_append.mp he with he | he
        · rcases hent e he with ⟨h1, h2, h3, h4, h5⟩
          have hne : rowKeyOf row ≠ e.1 := by
            intro hq
            have hs := alGet_isSome_of_mem m e he
            rw [← hq, hget] at hs
            cases hs
          refine ⟨h1, h2, h3, ?_, ?_⟩
          · rcases h4 with ⟨row0, hr0, hf0⟩
            exact ⟨row0, List.mem_append.mpr (Or.inl hr0), hf0⟩
          · rw [List.countP_append, h5]
            have hbe : (rowKeyOf row == e.1) = false := beq_eq_false_iff_ne.mpr hne
            simp [hbe]
        · rw [List.mem_singleton.mp he]
          refine ⟨rfl, hval.1, hval.2,
            ⟨row, List.mem_append.mpr (Or.inr (List.mem_singleton.mpr rfl)), rfl⟩, ?_⟩
          show (1 : Nat) = _
          rw [List.countP_append]
          have hz : done.countP
              (fun r2 => rowFileValid r2 && (rowKeyOf r2 == rowKeyOf row)) = 0 := by
            rw [List.countP_eq_zero]
            intro r2 hr2 hp
            rw [Bool.and_eq_true, beq_iff_eq] at hp
            have hs := hcomp r2 hr2 hp.1
            rw [hp.2, hget] at hs
            cases hs
          rw [hz]
          simp [hvb]
    | some existing =>
      show UInv (done ++ [row]) (alSet m (rowKeyOf row) (ufUpdated pd row existing))
      rw [alSet_eq_alUpdate]
      have hmem : (rowKeyOf row, existing) ∈ m := alGet_mem m _ existing hget
      have hentk := hent (rowKeyOf row, existing) hmem
      refine ⟨?_, ?_, ?_⟩
      · rw [keys_alUpdate]
        exact hnd
      · intro row2 hr2 hr2v
        rw [alGet_alUpdate]
        by_cases hk2 : rowKeyOf row2 = rowKeyOf row
        · rw [if_pos hk2, hget]
          rfl
        · rw [if_neg hk2]
          rcases List.mem_append.mp hr2 with hr2 | hr2
          · exact hcomp row2 hr2 hr2v
          · have hkk : rowKeyOf row2 = rowKeyOf row := by
              rw [List.mem_singleton.mp hr2]
            exact absurd hkk hk2
      · intro e he
        rcases mem_alUpdate m _ _ e he with ⟨hem, hne⟩ | ⟨hek, v, hv, hev⟩
        · rcases hent e hem with ⟨h1, h2, h3, h4, h5⟩
          refine ⟨h1, h2, h3, ?_, ?_⟩
          · rcases h4 with ⟨row0, hr0, hf0⟩
            exact ⟨row0, List.mem_append.mpr (Or.inl hr0), hf0⟩
          · rw [List.countP_append, h5]
            have hbe : (rowKeyOf row == e.1) = false :=
              beq_eq_false_iff_ne.mpr (fun hq => hne hq.symm)
            simp [hbe]
        · have hvex : v = existing := by
            have hs := mem_of_alGet_nodup m _ v hnd hv
            rw [hget] at hs
            exact (Option.some.inj hs).symm
          subst hvex
          rw [hev]
          rcases hentk with ⟨h1, h2, h3, h4, h5⟩
          dsimp only at h1 h2 h3 h4 h5 ⊢
          refine ⟨?_, ?_, ?_, ?_, ?_⟩
          · rw [ufUpdated_file, ufUpdated_repo]
            exact h1
          · rw [ufUpdated_file]
            exact h2
          · rw [ufUpdated_file]
            exact h3
          · rcases h4 with ⟨row0, hr0, hf0⟩
            refine ⟨row0, List.mem_append.mpr (Or.inl hr0), ?_⟩
            rw [ufUpdated_file]
            exact hf0
          · rw [ufUpdated_count, h5, List.countP_append]
            have hp : (rowFileValid row && (rowKeyOf row == rowKeyOf row)) = true := by
              rw [hvb]
              simp
            simp [List.countP_cons, hp, hvb]

theorem uniqueFold_inv (pd : DateParser) (rows : List (List JStr)) :
    ∀ (done : List (List JStr)) (m : List (JStr × UFRec)),
      UInv done m → UInv (done ++ rows) (rows.foldl (uniqueStep pd) m) := by
  induction rows with
  | nil =>
    intro done m h
    simpa using h
  | cons row rows ih =>
    intro done m h
    have h2 := ih (done ++ [row]) (uniqueStep pd m row) (uniqueStep_inv pd done row m h)
    rw [List.append_assoc] at h2
    simpa using h2

/-- Claim C8 (corrected: the grouping key is the string
`file + "|" + repositoryLabel`, so when a file name contains the separator
`|`, rows of two different (file, label) pairs can share a key and the count
conflates them; for pipe-free file values the claim holds): every record
produced by the by-file grouping has `commitCount` equal to the number of
source rows whose (file, repositoryLabel) pair equals the record's key,
provided no row's file value contains `|`. -/
theorem claimC8_commit_count (pd : DateParser) (rows : List (List JStr))
    (hpipe : ∀ row ∈ rows, '|' ∉ rowField row 4) :
    ∀ rec ∈ createUniqueFiles pd rows,
      rec.commitCount = rows.countP
        (fun row => (rowField row 4 == rec.file)
          && (rowRepo row == rec.repositoryType)) := by
  intro rec hrec
  have hinv := uniqueFold_inv pd rows [] [] ⟨List.nodup_nil, by simp, by simp⟩
  rw [List.nil_append] at hinv
  rcases hinv with ⟨hnd, hcomp, hent⟩
  unfold createUniqueFiles at hrec
  rw [(List.perm_insertionSort ufLe _).mem_iff] at hrec
  rcases List.mem_map.mp hrec with ⟨e, he, hee⟩
  rcases hent e he with ⟨h1, h2, h3, h4, h5⟩
  rcases h4 with ⟨row0, hr0, hf0⟩
  subst hee
  rw [h5]
  apply List.countP_congr
  intro row hrow
  rw [Bool.and_eq_true, Bool.and_eq_true, beq_iff_eq, beq_iff_eq, beq_iff_eq]
  constructor
  · intro hp
    have hkeq : rowField row 4 ++ '|' :: rowRepo row
        = e.2.file ++ '|' :: e.2.repositoryType := by
      have := hp.2
      rw [h1] at this
      exact this
    have hpf : '|' ∉ rowField row 4 := hpipe row hrow
    have hpe : '|' ∉ e.2.file := by
      rw [hf0]
      exact hpipe row0 hr0
    exact pipeKey_inj _ _ _ _ hpf hpe hkeq
  · intro hp
    constructor
    · unfold rowFileValid
      rw [hp.1]
      simp [h2, h3]
    · rw [h1]
      unfold rowKeyOf
      rw [hp.1, hp.2]

/-- Claim C8, counterexample: with a `|` in a file name, two rows with
different (file, repositoryLabel) pairs share the key `a|x|r`; the resulting
record has `commitCount = 2` although only one row matches its pair. -/
theorem claimC8_counterexample :
    ¬ (∀ rec ∈ createUniqueFiles (fun _ => none) exRows8,
        rec.commitCount = exRows8.countP
          (fun row => (rowField row 4 == rec.file)
            && (rowRepo row == rec.repositoryType))) := by decide

theorem claimC8_witness :
    (⟨"x.sql".toList, [], "r".toList, "h1".toList, [], [], [], 1, []⟩ : UFRec)
        ∈ createUniqueFiles (fun _ => none)
          [["h1".toList, [], [], [], "x.sql".toList, [], "r".toList]]
    ∧ (⟨"x.sql".toList, [], "r".toList, "h1".toList, [], [], [], 1, []⟩
        : UFRec).commitCount
      = [["h1".toList, [], [], [], "x.sql".toList, [], "r".toList]].countP
        (fun row =>
          (rowField row 4
              == (⟨"x.sql".toList, [], "r".toList, "h1".toList, [], [], [], 1, []⟩
                : UFRec).file)
            && (rowRepo row
              == (⟨"x.sql".toList, [], "r".toList, "h1".toList, [], [], [], 1, []⟩
                : UFRec).repositoryType)) :=
  ⟨by decide,
   claimC8_commit_count (fun _ => none)
     [["h1".toList, [], [], [], "x.sql".toList, [], "r".toList]] (by decide)
     ⟨"x.sql".toList, [], "r".toList, "h1".toList, [], [], [], 1, []⟩
     (by decide)⟩

theorem ufUpdated_dates (pd : DateParser) (row : List JStr) (v : UFRec)
    (hrow : (pd (rowField row 3)).isSome = true)
    (hv : ∃ a b : Int, pd v.firstCommitDate = some a
      ∧ pd v.lastCommitDate = some b ∧ a ≤ b) :
    ∃ a b : Int, pd (ufUpdated pd row v).firstCommitDate = some a
      ∧ pd (ufUpdated pd row v).lastCommitDate = some b ∧ a ≤ b := by
  obtain ⟨a, b, hfa, hlb, hab⟩ := hv
  obtain ⟨d, hd⟩ := Option.isSome_iff_exists.mp hrow
  unfold ufUpdated
  try dsimp only
  split
  · rename_i hgt
    have hdb : b < d := by
      unfold jsDateGt at hgt
      rw [hd, hlb] at hgt
      simpa using hgt
    split
    · exact ⟨d, d, hd, hd, le_refl d⟩
    · exact ⟨a, d, hfa, hd, le_of_lt (lt_of_le_of_lt hab hdb)⟩
  · rename_i hgt
    split
    · rename_i hlt
      have hda : d < a := by
        unfold jsDateLt at hlt
        rw [hd] at hlt
        try dsimp only at hlt
        rw [hfa] at hlt
        simpa using hlt
      exact ⟨d, b, hd, hlb, le_of_lt (lt_of_lt_of_le hda (le_trans hab (le_refl b)))⟩
    · exact ⟨a, b, hfa, hlb, hab⟩

theorem uniqueStep_dinv (pd : DateParser) (row : List JStr)
    (m : List (JStr × UFRec)) (hrow : (pd (rowField row 3)).isSome = true)
    (h : ∀ e ∈ m, ∃ a b : Int, pd e.2.firstCommitDate = some a
      ∧ pd e.2.lastCommitDate = some b ∧ a ≤ b) :
    ∀ e ∈ uniqueStep pd m row, ∃ a b : Int,
      pd e.2.firstCommitDate = some a ∧ pd e.2.lastCommitDate = some b
      ∧ a ≤ b := by
  unfold uniqueStep
  dsimp only
  by_cases hval : rowField row 4 = [] ∨ rowField row 4 = sentinelFile
  · rw [if_pos hval]
    exact h
  · rw [if_neg hval]
    cases hget : alGet m (rowKeyOf row) with
    | none =>
      intro e he
      rcases List.mem_append.mp he with he | he
      · exact h e he
      · rw [List.mem_singleton.mp he]
        obtain ⟨d, hd⟩ := Option.isSome_iff_exists.mp hrow
        exact ⟨d, d, hd, hd, le_refl d⟩
    | some existing =>
      show ∀ e ∈ alSet m (rowKeyOf row) (ufUpdated pd row existing), _
      intro e he
      rw [alSet_eq_alUpdate] at he
      rcases mem_alUpdate m _ _ e he with ⟨hem, _⟩ | ⟨_, v, hv, hev⟩
      · exact h e hem
      · rw [hev]
        exact ufUpdated_dates pd row existing hrow
          (h (rowKeyOf row, existing) (alGet_mem m _ existing hget))

/-- Claim C9: for every record produced by the by-file grouping,
`firstCommitDate ≤ lastCommitDate` under timestamp comparison, provided
every source row's date parses to a timestamp. -/
theorem claimC9_date_bounds (pd : DateParser) (rows : List (List JStr))
    (hdates : ∀ row ∈ rows, (pd (rowField row 3)).isSome = true) :
    ∀ rec ∈ createUniqueFiles pd rows, ∃ a b : Int,
      pd rec.firstCommitDate = some a ∧ pd rec.lastCommitDate = some b
      ∧ a ≤ b := by
  intro rec hrec
  unfold createUniqueFiles at hrec
  rw [(List.perm_insertionSort ufLe _).mem_iff] at hrec
  rcases List.mem_map.mp hrec with ⟨e, he, hee⟩
  have hfold : ∀ (rs : List (List JStr)), (∀ row ∈ rs, (pd (rowField row 3)).isSome = true) →
      ∀ (m : List (JStr × UFRec)),
      (∀ x ∈ m, ∃ a b : Int, pd x.2.firstCommitDate = some a
        ∧ pd x.2.lastCommitDate = some b ∧ a ≤ b) →
      ∀ x ∈ rs.foldl (uniqueStep pd) m, ∃ a b : Int,
        pd x.2.firstCommitDate = some a ∧ pd x.2.lastCommitDate = some b
        ∧ a ≤ b := by
    intro rs
    induction rs with
    | nil => intro _ m hm; exact hm
    | cons r rs ih =>
      intro hrs m hm
      exact ih (fun x hx => hrs x (List.mem_cons_of_mem r hx))
        (uniqueStep pd m r)
        (uniqueStep_dinv pd r m (hrs r (List.mem_cons_self r rs)) hm)
  have := hfold rows hdates [] (by simp) e he
  rw [hee] at this
  exact this

theorem claimC9_witness :
    ∃ a b : Int, pdConst (ufNew exRow9).firstCommitDate = some a
      ∧ pdConst (ufNew exRow9).lastCommitDate = some b ∧ a ≤ b :=
  claimC9_date_bounds pdConst [exRow9] (by decide) (ufNew exRow9) (by decide)

theorem uniqueStep_skip (pd : DateParser) (m : List (JStr × UFRec))
    (row : List JStr) (h : rowFileValid row = false) :
    uniqueStep pd m row = m := by
  unfold uniqueStep
  dsimp only
  rw [if_pos ?_]
  unfold rowFileValid at h
  rcases Bool.and_eq_false_iff.mp h with h1 | h1
  · left
    simpa using h1
  · right
    simpa using h1

theorem uniqueFold_filter (pd : DateParser) (rows : List (List JStr)) :
    ∀ m : List (JStr × UFRec),
      rows.foldl (uniqueStep pd) m
        = (rows.filter rowFileValid).foldl (uniqueStep pd) m := by
  induction rows with
  | nil => intro m; rfl
  | cons row rows ih =>
    intro m
    cases hv : rowFileValid row with
    | true =>
      rw [List.foldl_cons, List.filter_cons_of_pos hv, List.foldl_cons]
      exact ih (uniqueStep pd m row)
    | false =>
      rw [List.foldl_cons, List.filter_cons_of_neg (by simp [hv]),
        uniqueStep_skip pd m row hv]
      exact ih m

theorem getCommitsStep_inv (done : List (List JStr)) (row : List JStr)
    (m : List (JStr × CommitData)) (h : GInv done m) :
    GInv (done ++ [row]) (getCommitsStep m row) := by
  rcases h with ⟨hcomp, hhash, hfiles⟩
  unfold getCommitsStep
  dsimp only
  cases hget : alGet m (rowField row 0) with
  | none =>
    refine ⟨?_, ?_, ?_⟩
    · intro row2 hr2
      rw [alGet_append]
      rcases List.mem_append.mp hr2 with hr2 | hr2
      · have hs := hcomp row2 hr2
        cases hx : alGet m (rowField row2 0) with
        | none => rw [hx] at hs; cases hs
        | some v => rfl
      · rw [List.mem_singleton.mp hr2, hget]
        rw [alGet_cons, if_pos rfl]
        rfl
    · intro e he
      rcases List.mem_append.mp he with he | he
      · exact hhash e he
      · rw [List.mem_singleton.mp he]
    · intro e he f hf
      rcases List.mem_append.mp he with he | he
      · exact hfiles e he f hf
      · rw [List.mem_singleton.mp he] at hf
        dsimp only at hf
        split at hf
        · rename_i hcond
          rw [List.mem_singleton.mp hf]
          exact hcond
        · cases hf
  | some existing =>
    have hmem : (rowField row 0, existing) ∈ m := alGet_mem m _ existing hget
    show GInv (done ++ [row])
      (if rowField row 4 ≠ [] ∧ rowField row 4 ≠ sentinelFile then
        alSet m (rowField row 0)
          { existing with files := existing.files ++ [rowField row 4] }
      else m)
    split
    · rename_i hcond
      rw [alSet_eq_alUpdate]
      refine ⟨?_, ?_, ?_⟩
      · intro row2 hr2
        rw [alGet_alUpdate]
        by_cases hk2 : rowField row2 0 = rowField row 0
        · rw [if_pos hk2, hget]
          rfl
        · rw [if_neg hk2]
          rcases List.mem_append.mp hr2 with hr2 | hr2
          · exact hcomp row2 hr2
          · have : rowField row2 0 = rowField row 0 := by
              rw [List.mem_singleton.mp hr2]
            exact absurd this hk2
      · intro e he
        rcases mem_alUpdate m _ _ e he with ⟨hem, _⟩ | ⟨_, v, hv, hev⟩
        · exact hhash e hem
        · rw [hev]
          exact hhash (rowField row 0, existing) hmem
      · intro e he f hf
        rcases mem_alUpdate m _ _ e he with ⟨hem, _⟩ | ⟨_, v, hv, hev⟩
        · exact hfiles e hem f hf
        · rw [hev] at hf
          dsimp only at hf
          rcases List.mem_append.mp hf with hf | hf
          · exact hfiles (rowField row 0, existing) hmem f hf
          · rw [List.mem_singleton.mp hf]
            exact hcond
    · refine ⟨?_, hhash, hfiles⟩
      intro row2 hr2
      rcases List.mem_append.mp hr2 with hr2 | hr2
      · exact hcomp row2 hr2
      · rw [List.mem_singleton.mp hr2, hget]
        rfl

theorem getCommitsFold_inv (rows : List (List JStr)) :
    ∀ (done : List (List JStr)) (m : List (JStr × CommitData)),
      GInv done m → GInv (done ++ rows) (rows.foldl getCommitsStep m) := by
  induction rows with
  | nil =>
    intro done m h
    simpa using h
  | cons row rows ih =>
    intro done m h
    have h2 := ih (done ++ [row]) (getCommitsStep m row)
      (getCommitsStep_inv done row m h)
    rw [List.append_assoc] at h2
    simpa using h2

/-- Claim C10: a row whose file value is empty or the "no files" sentinel
produces no by-file record (filtering such rows out does not change the
unique-files output), such a file value never appears in the `files` list of
any by-commit group, and the commit of every row — sentinel rows included —
is represented as a group in the by-commit result. -/
theorem claimC10_sentinel :
    (∀ (pd : DateParser) (rows : List (List JStr)),
      createUniqueFiles pd rows
        = createUniqueFiles pd (rows.filter rowFileValid))
    ∧ (∀ rows : List (List JStr), ∀ g ∈ getCommits rows, ∀ f ∈ g.files,
        f ≠ [] ∧ f ≠ sentinelFile)
    ∧ (∀ rows : List (List JStr), ∀ row ∈ rows, ∃ g ∈ getCommits rows,
        g.hash = rowField row 0) := by
  refine ⟨?_, ?_, ?_⟩
  · intro pd rows
    unfold createUniqueFiles
    rw [uniqueFold_filter]
  · intro rows g hg f hf
    have hinv := getCommitsFold_inv rows [] [] ⟨by simp, by simp, by simp⟩
    rcases List.mem_map.mp hg with ⟨e, he, hee⟩
    have := hinv.2.2 e he f (by rw [hee]; exact hf)
    exact this
  · intro rows row hrow
    have hinv := getCommitsFold_inv rows [] [] ⟨by simp, by simp, by simp⟩
    rw [List.nil_append] at hinv
    have hs := hinv.1 row hrow
    obtain ⟨g, hgget⟩ := Option.isSome_iff_exists.mp hs
    have hmem := alGet_mem _ _ g hgget
    refine ⟨g, List.mem_map_of_mem Prod.snd hmem, ?_⟩
    exact hinv.2.1 (rowField row 0, g) hmem

theorem claimC10_witness :
    ∃ g ∈ getCommits [exRowS], g.hash = rowField exRowS 0 :=
  claimC10_sentinel.2.2 [exRowS] exRowS (by decide)

section LexLemmas

theorem lexCmp_eq_iff (a b : JStr) : lexCmp a b = .eq ↔ a = b := by
  induction a generalizing b with
  | nil => cases b <;> simp [lexCmp]
  | cons x t ih =>
    cases b with
    | nil => simp [lexCmp]
    | cons y u =>
      unfold lexCmp
      by_cases h1 : x < y
      · simp only [if_pos h1]
        constructor
        · intro h; cases h
        · intro h
          rw [List.cons.injEq] at h
          exact absurd (h.1 ▸ h1) (lt_irrefl y)
      · rw [if_neg h1]
        by_cases h2 : y < x
        · simp only [if_pos h2]
          constructor
          · intro h; cases h
          · intro h
            rw [List.cons.injEq] at h
            exact absurd (h.1 ▸ h2) (lt_irrefl y)
        · rw [if_neg h2]
          have hxy : x = y := le_antisymm (not_lt.mp h2) (not_lt.mp h1)
          rw [ih u, hxy]
          simp

theorem lexCmp_gt_iff (a b : JStr) : lexCmp a b = .gt ↔ lexCmp b a = .lt := by
  induction a generalizing b with
  | nil => cases b <;> simp [lexCmp]
  | cons x t ih =>
    cases b with
    | nil => simp [lexCmp]
    | cons y u =>
      unfold lexCmp
      by_cases h1 : x < y
      · have h2 : ¬ y < x := fun h => absurd (lt_trans h1 h) (lt_irrefl x)
        rw [if_pos h1, if_neg h2, if_pos h1]
        simp
      · rw [if_neg h1]
        by_cases h2 : y < x
        · rw [if_pos h2, if_pos h2]
          simp
        · rw [if_neg h2, if_neg h2, if_neg h1, ih u]

theorem lexCmp_le_trans (a b c : JStr) (hab : lexCmp a b ≠ .gt)
    (hbc : lexCmp b c ≠ .gt) : lexCmp a c ≠ .gt := by
  induction a generalizing b c with
  | nil =>
    cases c with
    | nil => simp [lexCmp]
    | cons z w => simp [lexCmp]
  | cons x t ih =>
    cases b with
    | nil => exact absurd rfl hab
    | cons y u =>
      cases c with
      | nil => exact absurd rfl hbc
      | cons z w =>
        unfold lexCmp at hab hbc ⊢
        by_cases h1 : x < y
        · by_cases h2 : y < z
          · rw [if_pos (lt_trans h1 h2)]
            simp
          · rw [if_neg h2] at hbc
            by_cases h3 : z < y
            · rw [if_pos h3] at hbc
              exact absurd rfl hbc
            · have hyz : y = z := le_antisymm (not_lt.mp h3) (not_lt.mp h2)
              rw [if_pos (hyz ▸ h1)]
              simp
        · rw [if_neg h1] at hab
          by_cases h4 : y < x
          · rw [if_pos h4] at hab
            exact absurd rfl hab
          · rw [if_neg h4] at hab
            have hxy : x = y := le_antisymm (not_lt.mp h4) (not_lt.mp h1)
            subst hxy
            by_cases h2 : x < z
            · rw [if_pos h2]
              simp
            · rw [if_neg h2] at hbc ⊢
              by_cases h3 : z < x
              · rw [if_pos h3] at hbc
                exact absurd rfl hbc
              · rw [if_neg h3] at hbc ⊢
                exact ih u w hab hbc

theorem ifGt_true_iff (o : Ordering) :
    (if o = Ordering.gt then false else true) = true ↔ o ≠ Ordering.gt := by
  cases o <;> simp

theorem lexNotGt_total (x y : JStr) :
    ¬ lexCmp x y = Ordering.gt ∨ ¬ lexCmp y x = Ordering.gt := by
  rcases hc : lexCmp x y
  · left
    simp [hc]
  · left
    simp [hc]
  · right
    rw [(lexCmp_gt_iff x y).mp hc]
    simp

theorem lexNotGt_antisymm (x y : JStr) (h1 : ¬ lexCmp x y = Ordering.gt)
    (h2 : ¬ lexCmp y x = Ordering.gt) : x = y := by
  rcases hc : lexCmp x y
  · exact absurd ((lexCmp_gt_iff y x).mpr hc) h2
  · exact (lexCmp_eq_iff x y).mp hc
  · exact absurd hc h1

theorem nodeLe_total (a b : FNode) : nodeLe a b ∨ nodeLe b a := by
  unfold nodeLe nodeLeB
  cases ha : a.isDirectory <;> cases hb : b.isDirectory <;> simp
  · exact lexNotGt_total a.name b.name
  · exact lexNotGt_total a.name b.name

theorem nodeLe_trans (a b c : FNode) (hab : nodeLe a b) (hbc : nodeLe b c) :
    nodeLe a c := by
  unfold nodeLe nodeLeB at hab hbc ⊢
  cases ha : a.isDirectory <;> cases hb : b.isDirectory <;>
    cases hc : c.isDirectory
  all_goals rw [ha, hb] at hab
  all_goals rw [hb, hc] at hbc
  all_goals try simp at hab
  all_goals try simp at hbc
  all_goals try simp
  · exact lexCmp_le_trans _ _ _ hab hbc
  · exact lexCmp_le_trans _ _ _ hab hbc

theorem nodeLe_antisymm_names (a b : FNode) (hab : nodeLe a b)
    (hba : nodeLe b a) : a.name = b.name := by
  unfold nodeLe nodeLeB at hab hba
  cases ha : a.isDirectory <;> cases hb : b.isDirectory
  all_goals rw [ha, hb] at hab
  all_goals rw [hb, ha] at hba
  all_goals try simp at hab
  all_goals try simp at hba
  · exact lexNotGt_antisymm _ _ hab hba
  · exact lexNotGt_antisymm _ _ hab hba

theorem perm_sorted_unique {A : Type} (r : A → A → Prop) :
    ∀ (l1 l2 : List A), l1.Perm l2 →
      List.Pairwise r l1 → List.Pairwise r l2 →
      (∀ a ∈ l1, ∀ b ∈ l1, r a b → r b a → a = b) → l1 = l2 := by
  intro l1
  induction l1 with
  | nil =>
    intro l2 hp _ _ _
    exact List.Perm.nil_eq hp
  | cons x t ih =>
    intro l2 hp hs1 hs2 hanti
    cases l2 with
    | nil => exact absurd hp.symm (by simp)
    | cons y u =>
      have hxy : x = y := by
        by_cases hq : x = y
        · exact hq
        · have hyl1 : y ∈ x :: t := hp.mem_iff.mpr (List.mem_cons_self y u)
          have hxl2 : x ∈ y :: u := hp.mem_iff.mp (List.mem_cons_self x t)
          have hy : y ∈ t := by
            rcases List.mem_cons.mp hyl1 with h | h
            · exact absurd h.symm hq
            · exact h
          have hx : x ∈ u := by
            rcases List.mem_cons.mp hxl2 with h | h
            · exact absurd h hq
            · exact h
          have hr1 : r x y := (List.pairwise_cons.mp hs1).1 y hy
          have hr2 : r y x := (List.pairwise_cons.mp hs2).1 x hx
          exact hanti x (List.mem_cons_self x t) y hyl1 hr1 hr2
      subst hxy
      have hpt : t.Perm u := hp.cons_inv
      have ht := ih u hpt (List.pairwise_cons.mp hs1).2 (List.pairwise_cons.mp hs2).2
        (fun a ha b hb hab hba =>
          hanti a (List.mem_cons_of_mem x ha) b (List.mem_cons_of_mem x hb) hab hba)
      rw [ht]

theorem slash_not_mem_splitOn (xs : JStr) :
    ∀ part ∈ xs.splitOn '/', '/' ∉ part := by
  induction xs with
  | nil =>
    intro part hp
    rw [List.splitOn, List.splitOnP_nil] at hp
    rw [List.mem_singleton.mp hp]
    simp
  | cons x t ih =>
    intro part hp
    rw [List.splitOn, List.splitOnP_cons] at hp
    by_cases hx : x = '/'
    · rw [if_pos (by simp [hx])] at hp
      rcases List.mem_cons.mp hp with h | h
      · rw [h]; simp
      · exact ih part h
    · rw [if_neg (by simp [hx])] at hp
      cases hsp : List.splitOnP (fun a => a == '/') t with
      | nil => exact absurd hsp (List.splitOnP_ne_nil _ t)
      | cons hd tl =>
        rw [hsp] at hp
        simp only [List.modifyHead] at hp
        rcases List.mem_cons.mp hp with h | h
        · rw [h]
          intro hm
          rcases List.mem_cons.mp hm with h2 | h2
          · exact hx h2.symm
          · have := ih hd (by rw [List.splitOn, hsp]; exact List.mem_cons_self hd tl)
            exact this h2
        · exact ih part (by rw [List.splitOn, hsp]; exact List.mem_cons_of_mem hd h)

section TreeWF

theorem alPushChild_eq_alUpdate (st : St) (k q : JStr) :
    alPushChild st k q
      = alUpdate st k (fun v => { v with children := v.children ++ [q] }) := rfl

theorem alSetChange_eq_alUpdate (st : St) (k : JStr) (c : GitChange) :
    alSetChange st k c = alUpdate st k (fun v => { v with change := some c }) := rfl

theorem alGet_isSome_alUpdate (m : St) (k : JStr) (g : EInfo → EInfo)
    (k' : JStr) :
    (alGet (alUpdate m k g) k').isSome = (alGet m k').isSome := by
  rw [alGet_alUpdate]
  by_cases h : k' = k
  · rw [if_pos h, h]
    cases alGet m k <;> rfl
  · rw [if_neg h]

theorem StWF_append (st : St) (k : JStr) (v : EInfo) (h : StWF st)
    (hk : alGet st k = none) (hv : v.children = []) :
    StWF (st ++ [(k, v)]) := by
  rcases h with ⟨hnd, hent⟩
  constructor
  · rw [List.map_append, List.nodup_append]
    refine ⟨hnd, by simp, ?_⟩
    intro a ha hb
    simp only [List.map_cons, List.map_nil, List.mem_singleton] at hb
    subst hb
    rcases List.mem_map.mp ha with ⟨e, hem, hfe⟩
    have hs := alGet_isSome_of_mem st e hem
    rw [hfe, hk] at hs
    cases hs
  · intro e he
    rcases List.mem_append.mp he with he | he
    · rcases hent e he with ⟨hcn, hch⟩
      refine ⟨hcn, ?_⟩
      intro q hq
      rcases hch q hq with ⟨hs, hx⟩
      refine ⟨?_, hx⟩
      rw [alGet_append]
      cases hy : alGet st q with
      | none => rw [hy] at hs; cases hs
      | some w => rfl
    · rw [List.mem_singleton.mp he]
      refine ⟨?_, ?_⟩
      · dsimp only
        rw [hv]
        exact List.nodup_nil
      · intro q hq
        dsimp only at hq
        rw [hv] at hq
        cases hq

theorem StWF_push (st : St) (p q : JStr) (h : StWF st)
    (hq : (alGet st q).isSome) (hext : ChildExt p q)
    (hnotin : ∀ pe, alGet st p = some pe → q ∉ pe.children) :
    StWF (alPushChild st p q) := by
  rcases h with ⟨hnd, hent⟩
  rw [alPushChild_eq_alUpdate]
  constructor
  · rw [keys_alUpdate]
    exact hnd
  · intro e he
    rcases mem_alUpdate st _ _ e he with ⟨hem, _⟩ | ⟨hek, v, hv, hev⟩
    · rcases hent e hem with ⟨hcn, hch⟩
      refine ⟨hcn, ?_⟩
      intro q2 hq2
      rcases hch q2 hq2 with ⟨hs, hx⟩
      refine ⟨?_, hx⟩
      rw [alGet_isSome_alUpdate]
      exact hs
    · rcases hent (p, v) hv with ⟨hcn, hch⟩
      rw [hev]
      dsimp only
      have hpv : alGet st p = some v := mem_of_alGet_nodup st p v hnd hv
      constructor
      · rw [List.nodup_append]
        exact ⟨hcn, by simp, by
          intro a ha hb
          rw [List.mem_singleton.mp hb] at ha
          exact hnotin v hpv ha⟩
      · intro q2 hq2
        rcases List.mem_append.mp hq2 with hq2 | hq2
        · rcases hch q2 hq2 with ⟨hs, hx⟩
          refine ⟨?_, hx⟩
          rw [alGet_isSome_alUpdate]
          exact hs
        · rw [List.mem_singleton.mp hq2]
          refine ⟨?_, hext⟩
          rw [alGet_isSome_alUpdate]
          exact hq

theorem StWF_setChange (st : St) (k : JStr) (c : GitChange) (h : StWF st) :
    StWF (alSetChange st k c) := by
  rcases h with ⟨hnd, hent⟩
  rw [alSetChange_eq_alUpdate]
  constructor
  · rw [keys_alUpdate]
    exact hnd
  · intro e he
    rcases mem_alUpdate st _ _ e he with ⟨hem, _⟩ | ⟨hek, v, hv, hev⟩
    · rcases hent e hem with ⟨hcn, hch⟩
      refine ⟨hcn, ?_⟩
      intro q2 hq2
      rcases hch q2 hq2 with ⟨hs, hx⟩
      refine ⟨?_, hx⟩
      rw [alGet_isSome_alUpdate]
      exact hs
    · rcases hent (k, v) hv with ⟨hcn, hch⟩
      rw [hev]
      dsimp only
      refine ⟨hcn, ?_⟩
      intro q2 hq2
      rcases hch q2 hq2 with ⟨hs, hx⟩
      refine ⟨?_, hx⟩
      rw [alGet_isSome_alUpdate]
      exact hs

theorem connectIdx_WF (st1 : St) (cur cur2 : JStr) (h : StWF st1)
    (hq : (alGet st1 cur2).isSome) (hext : cur ≠ [] → ChildExt cur cur2) :
    StWF (IndexR.connectIdx st1 cur cur2) := by
  unfold IndexR.connectIdx
  by_cases hprev : cur = []
  · rw [if_pos hprev]
    exact h
  · rw [if_neg hprev]
    cases hp : alGet st1 cur with
    | none => exact h
    | some pe =>
      show StWF (if cur2 ∈ pe.children then st1 else alPushChild st1 cur cur2)
      by_cases hin : cur2 ∈ pe.children
      · rw [if_pos hin]
        exact h
      · rw [if_neg hin]
        refine StWF_push st1 cur cur2 h hq (hext hprev) ?_
        intro pe2 hpe2
        rw [hp] at hpe2
        rw [← Option.some.inj hpe2]
        exact hin

theorem walkIdx_WF (c : GitChange) :
    ∀ (parts : List JStr) (st : St) (cur : JStr), StWF st →
      (∀ part ∈ parts, '/' ∉ part) →
      StWF (IndexR.walkIdx c st parts cur) := by
  intro parts
  induction parts with
  | nil =>
    intro st cur h _
    exact h
  | cons part rest ih =>
    intro st cur h hparts
    have hpart : '/' ∉ part := hparts part (List.mem_cons_self part rest)
    unfold IndexR.walkIdx
    dsimp only
    apply ih _ _ ?_ (fun x hx => hparts x (List.mem_cons_of_mem part hx))
    cases hg : alGet st (if cur = [] then part else cur ++ '/' :: part) with
    | some v =>
      refine connectIdx_WF st cur _ h ?_ ?_
      · rw [hg]
        rfl
      · intro hprev
        exact ⟨part, hpart, Or.inr ⟨hprev, by rw [if_neg hprev]⟩⟩
    | none =>
      refine connectIdx_WF _ cur _
        (StWF_append st _ (mkNode part rest.isEmpty c) h hg rfl) ?_ ?_
      · rw [alGet_append, hg, alGet_cons, if_pos rfl]
        rfl
      · intro hprev
        exact ⟨part, hpart, Or.inr ⟨hprev, by rw [if_neg hprev]⟩⟩

theorem stepIdx_WF (st : St) (c : GitChange) (h : StWF st) :
    StWF (IndexR.stepIdx st c) := by
  unfold IndexR.stepIdx
  exact walkIdx_WF c _ st [] h (slash_not_mem_splitOn c.file)

theorem foldIdx_WF (changes : List GitChange) :
    StWF (changes.foldl IndexR.stepIdx []) := by
  have h : ∀ (l : List GitChange) (st : St), StWF st →
      StWF (l.foldl IndexR.stepIdx st) := by
    intro l
    induction l with
    | nil => intro st h; exact h
    | cons x xs ih => intro st h; exact ih (IndexR.stepIdx st x) (stepIdx_WF st x h)
  exact h changes [] ⟨List.nodup_nil, by intro e he; cases he⟩

theorem cur2_ne_cur (cur part : JStr) (hpne : part ≠ []) :
    (if cur = [] then part else cur ++ '/' :: part) ≠ cur := by
  by_cases hprev : cur = []
  · rw [if_pos hprev, hprev]
    exact hpne
  · rw [if_neg hprev]
    intro he
    have hlen := congrArg List.length he
    rw [List.length_append] at hlen
    simp at hlen

theorem attachP3_WF (ents : St) (rootArr : List JStr) (cur cur2 : JStr)
    (h : StWF ents) (hq : (alGet ents cur2).isSome) (hext : ChildExt cur cur2)
    (hnotin : ∀ pe, alGet ents cur = some pe → cur2 ∉ pe.children) :
    StWF (Part3.attachP3 ents rootArr cur cur2).entries := by
  unfold Part3.attachP3
  cases hp : alGet ents cur with
  | none => exact h
  | some pe =>
    show StWF (alPushChild ents cur cur2)
    exact StWF_push ents cur cur2 h hq hext hnotin

theorem walkP3_WF (c : GitChange) :
    ∀ (parts : List JStr) (s : Part3.St3) (cur : JStr), StWF s.entries →
      (∀ part ∈ parts, '/' ∉ part ∧ part ≠ []) →
      StWF (Part3.walkP3 c s parts cur).entries := by
  intro parts
  induction parts with
  | nil =>
    intro s cur h _
    exact h
  | cons part rest ih =>
    intro s cur h hparts
    rcases hparts part (List.mem_cons_self part rest) with ⟨hpart, hpne⟩
    unfold Part3.walkP3
    dsimp only
    apply ih _ _ ?_ (fun x hx => hparts x (List.mem_cons_of_mem part hx))
    cases hg : alGet s.entries (if cur = [] then part else cur ++ '/' :: part) with
    | some v =>
      by_cases hl : rest.isEmpty
      · rw [if_pos hl]
        exact StWF_setChange s.entries _ c h
      · rw [if_neg hl]
        exact h
    | none =>
      refine attachP3_WF _ s.rootArr cur _
        (StWF_append s.entries _ (mkNode part rest.isEmpty c) h hg rfl) ?_ ?_ ?_
      · rw [alGet_append, hg, alGet_cons, if_pos rfl]
        rfl
      · by_cases hprev : cur = []
        · refine ⟨part, hpart, Or.inl ⟨hprev, hpne, ?_⟩⟩
          rw [if_pos hprev]
        · refine ⟨part, hpart, Or.inr ⟨hprev, ?_⟩⟩
          rw [if_neg hprev]
      · intro pe hpe hmem
        have hne := cur2_ne_cur cur part hpne
        rw [alGet_append] at hpe
        cases hp0 : alGet s.entries cur with
        | none =>
          rw [hp0] at hpe
          rw [alGet_cons] at hpe
          rw [if_neg hne] at hpe
          rw [alGet_nil] at hpe
          cases hpe
        | some pe0 =>
          rw [hp0] at hpe
          have hpe0 : pe = pe0 := (Option.some.inj hpe).symm
          subst hpe0
          have hc := (h.2 (cur, pe) (alGet_mem _ cur pe hp0)).2 _ hmem
          have hs := hc.1
          rw [hg] at hs
          cases hs

theorem stepP3_WF (s : Part3.St3) (c : GitChange) (h : StWF s.entries) :
    StWF (Part3.stepP3 s c).entries := by
  unfold Part3.stepP3
  dsimp only
  split
  · exact h
  · apply walkP3_WF c _ s [] h
    intro part hpm
    rcases List.mem_filter.mp hpm with ⟨hm, hlen⟩
    refine ⟨slash_not_mem_splitOn _ part hm, ?_⟩
    intro he
    rw [he] at hlen
    simp at hlen

theorem foldP3_WF (changes : List GitChange) :
    StWF ((changes.take 50).foldl Part3.stepP3 Part3.st3Init).entries := by
  have h : ∀ (l : List GitChange) (s : Part3.St3), StWF s.entries →
      StWF ((l.foldl Part3.stepP3 s).entries) := by
    intro l
    induction l with
    | nil => intro s h; exact h
    | cons x xs ih => intro s h; exact ih (Part3.stepP3 s x) (stepP3_WF s x h)
  apply h (changes.take 50) Part3.st3Init
  constructor
  · simp [Part3.st3Init]
  · intro e he
    rcases List.mem_singleton.mp he with rfl
    exact ⟨List.nodup_nil, by intro q hq; cases hq⟩

end TreeWF

section PathLemmas

theorem sepExt_inj (s1 s2 u1 u2 : JStr) (h1 : '/' ∉ s1) (h2 : '/' ∉ s2)
    (hu1 : u1 = [] ∨ ∃ t, u1 = '/' :: t) (hu2 : u2 = [] ∨ ∃ t, u2 = '/' :: t)
    (h : s1 ++ u1 = s2 ++ u2) : s1 = s2 := by
  induction s1 generalizing s2 with
  | nil =>
    cases s2 with
    | nil => rfl
    | cons b v =>
      exfalso
      rw [List.nil_append, List.cons_append] at h
      rcases hu1 with hu1 | ⟨t, hu1⟩
      · rw [hu1] at h
        cases h
      · rw [hu1] at h
        rw [List.cons.injEq] at h
        exact h2 (by rw [← h.1]; exact List.mem_cons_self '/' v)
  | cons a t ih =>
    cases s2 with
    | nil =>
      exfalso
      rw [List.nil_append, List.cons_append] at h
      rcases hu2 with hu2 | ⟨w, hu2⟩
      · rw [hu2] at h
        cases h
      · rw [hu2] at h
        rw [List.cons.injEq] at h
        exact h1 (by rw [h.1]; exact List.mem_cons_self '/' t)
    | cons b v =>
      rw [List.cons_append, List.cons_append, List.cons.injEq] at h
      have ht1 : '/' ∉ t := fun hm => h1 (List.mem_cons_of_mem a hm)
      have ht2 : '/' ∉ v := fun hm => h2 (List.mem_cons_of_mem b hm)
      rw [h.1, ih v ht1 ht2 h.2]

theorem ChildExt.len_lt {p q : JStr} (h : ChildExt p q) : p.length < q.length := by
  rcases h with ⟨s, hs, ⟨hp, hsne, hq⟩ | ⟨hp, hq⟩⟩
  · rw [hp, hq]
    simp only [List.length_nil]
    cases s with
    | nil => exact absurd rfl hsne
    | cons x t => simp
  · rw [hq]
    rw [List.length_append, List.length_cons]
    omega

theorem ChildExt.ne_nil {p q : JStr} (h : ChildExt p q) : q ≠ [] := by
  intro he
  have := h.len_lt
  rw [he] at this
  simp at this

theorem isExtOf_len {q x : JStr} (h : isExtOf q x) : q.length ≤ x.length := by
  rcases h with h | ⟨t, h⟩
  · rw [h]
  · rw [h, List.length_append, List.length_cons]
    omega

theorem ChildExt_ext_disjoint {p q1 q2 x : JStr} (h1 : ChildExt p q1)
    (h2 : ChildExt p q2) (hne : q1 ≠ q2) (hx1 : isExtOf q1 x)
    (hx2 : isExtOf q2 x) : False := by
  rcases h1 with ⟨s1, hs1, hd1⟩
  rcases h2 with ⟨s2, hs2, hd2⟩
  have hq1 : q1 = (if p = [] then [] else p ++ ['/']) ++ s1 := by
    rcases hd1 with ⟨hp, _, hq⟩ | ⟨hp, hq⟩
    · rw [if_pos hp, hq, List.nil_append]
    · rw [if_neg hp, hq]
      simp
  have hq2 : q2 = (if p = [] then [] else p ++ ['/']) ++ s2 := by
    rcases hd2 with ⟨hp, _, hq⟩ | ⟨hp, hq⟩
    · rw [if_pos hp, hq, List.nil_append]
    · rw [if_neg hp, hq]
      simp
  have hu1 : ∃ u, (u = [] ∨ ∃ t, u = '/' :: t) ∧ x = q1 ++ u := by
    rcases hx1 with h | ⟨t, h⟩
    · exact ⟨[], Or.inl rfl, by rw [h]; simp⟩
    · exact ⟨'/' :: t, Or.inr ⟨t, rfl⟩, h⟩
  have hu2 : ∃ u, (u = [] ∨ ∃ t, u = '/' :: t) ∧ x = q2 ++ u := by
    rcases hx2 with h | ⟨t, h⟩
    · exact ⟨[], Or.inl rfl, by rw [h]; simp⟩
    · exact ⟨'/' :: t, Or.inr ⟨t, rfl⟩, h⟩
  rcases hu1 with ⟨u1, hu1s, hxu1⟩
  rcases hu2 with ⟨u2, hu2s, hxu2⟩
  have heq : s1 ++ u1 = s2 ++ u2 := by
    have h0 : q1 ++ u1 = q2 ++ u2 := by rw [← hxu1, ← hxu2]
    rw [hq1, hq2, List.append_assoc, List.append_assoc] at h0
    exact List.append_cancel_left h0
  have hss := sepExt_inj s1 s2 u1 u2 hs1 hs2 hu1s hu2s heq
  apply hne
  rw [hq1, hq2, hss]

theorem parentPathOf_append (pr s : JStr) (hs : '/' ∉ s) :
    IndexR.parentPathOf (pr ++ '/' :: s) = pr := by
  unfold IndexR.parentPathOf
  rw [List.reverse_append, List.reverse_cons, List.append_assoc]
  have hrev : ∀ x ∈ s.reverse, (x != '/') = true := by
    intro x hx
    have : x ∈ s := List.mem_reverse.mp hx
    simp only [bne_iff_ne, ne_eq]
    intro he
    exact hs (he ▸ this)
  rw [List.dropWhile_append]
  rw [List.dropWhile_eq_nil_iff.mpr (fun x hx => hrev x hx)]
  simp only [List.isEmpty_nil, if_true]
  rw [List.singleton_append, List.dropWhile_cons]
  simp only [bne_self_eq_false, Bool.false_eq_true, if_false]
  rw [List.drop_one, List.tail_cons, List.reverse_reverse]

theorem parentPathOf_no_slash (p : JStr) (h : '/' ∉ p) :
    IndexR.parentPathOf p = [] := by
  unfold IndexR.parentPathOf
  have hrev : ∀ x ∈ p.reverse, (x != '/') = true := by
    intro x hx
    have : x ∈ p := List.mem_reverse.mp hx
    simp only [bne_iff_ne, ne_eq]
    intro he
    exact h (he ▸ this)
  rw [List.dropWhile_eq_nil_iff.mpr (fun x hx => hrev x hx)]
  rfl

theorem le_foldr_max (l : List Nat) (a : Nat) (h : a ∈ l) :
    a ≤ l.foldr max 0 := by
  induction l with
  | nil => cases h
  | cons x t ih =>
    rcases List.mem_cons.mp h with h | h
    · rw [h]
      exact le_max_left x (t.foldr max 0)
    · exact le_trans (ih h) (le_max_right x (t.foldr max 0))

theorem maxKeyLen_ge (st : St) (p : JStr) (h : (alGet st p).isSome) :
    p.length ≤ maxKeyLen st := by
  obtain ⟨v, hv⟩ := Option.isSome_iff_exists.mp h
  have hmem := alGet_mem st p v hv
  unfold maxKeyLen
  apply le_foldr_max
  exact List.mem_map.mpr ⟨(p, v), hmem, rfl⟩

end PathLemmas

section MatLemmas

theorem heightL_le (l : List FNode) (k : Nat)
    (h : ∀ n ∈ l, heightN n ≤ k) : heightL l ≤ k := by
  induction l with
  | nil => simp [heightL]
  | cons x t ih =>
    simp only [heightL, max_le_iff]
    exact ⟨h x (List.mem_cons_self x t),
      ih fun n hn => h n (List.mem_cons_of_mem x hn)⟩

theorem mem_pathsL_filterMap (st : St) (f : Nat) (l : List JStr) (x : JStr)
    (h : x ∈ pathsL (l.filterMap fun q => (alGet st q).map (matNode st f q))) :
    ∃ q ∈ l, ∃ v, alGet st q = some v ∧ x ∈ pathsN (matNode st f q v) := by
  induction l with
  | nil => simp [pathsL] at h
  | cons a t ih =>
    rw [List.filterMap_cons] at h
    cases ha : alGet st a with
    | none =>
      rw [ha] at h
      simp only [Option.map_none'] at h
      obtain ⟨q, hq, v, hv, hx⟩ := ih h
      exact ⟨q, List.mem_cons_of_mem a hq, v, hv, hx⟩
    | some va =>
      rw [ha] at h
      simp only [Option.map_some'] at h
      rw [pathsL] at h
      rcases List.mem_append.mp h with h | h
      · exact ⟨a, List.mem_cons_self a t, va, ha, h⟩
      · obtain ⟨q, hq, v, hv, hx⟩ := ih h
        exact ⟨q, List.mem_cons_of_mem a hq, v, hv, hx⟩

theorem matNode_paths_len (st : St) (hWF : StWF st) :
    ∀ f p e, alGet st p = some e → ∀ x ∈ pathsN (matNode st f p e),
      p.length ≤ x.length := by
  intro f
  induction f with
  | zero =>
    intro p e _ x hx
    simp only [matNode, pathsN, pathsL, List.mem_singleton] at hx
    rw [hx]
  | succ f ih =>
    intro p e he x hx
    simp only [matNode, pathsN] at hx
    rcases List.mem_cons.mp hx with hx | hx
    · rw [hx]
    · obtain ⟨q, hq, v, hv, hxq⟩ := mem_pathsL_filterMap st f e.children x hx
      have hce := (hWF.2 (p, e) (alGet_mem st p e he)).2 q hq
      have hlt : p.length < q.length := hce.2.len_lt
      exact le_trans (le_of_lt hlt) (ih q v hv x hxq)

theorem matNode_paths_ext (st : St) (hWF : StWF st) :
    ∀ f p e, alGet st p = some e → p ≠ [] → ∀ x ∈ pathsN (matNode st f p e),
      isExtOf p x := by
  intro f
  induction f with
  | zero =>
    intro p e _ _ x hx
    simp only [matNode, pathsN, pathsL, List.mem_singleton] at hx
    exact Or.inl hx
  | succ f ih =>
    intro p e he hp x hx
    simp only [matNode, pathsN] at hx
    rcases List.mem_cons.mp hx with hx | hx
    · exact Or.inl hx
    · obtain ⟨q, hq, v, hv, hxq⟩ := mem_pathsL_filterMap st f e.children x hx
      have hce := (hWF.2 (p, e) (alGet_mem st p e he)).2 q hq
      obtain ⟨s, hs, hd⟩ := hce.2
      rcases hd with ⟨hpe, _, _⟩ | ⟨_, hqs⟩
      · exact absurd hpe hp
      · have hqx := ih q v hv (by rw [hqs]; simp) x hxq
        rcases hqx with hqx | ⟨t, hqx⟩
        · exact Or.inr ⟨s, by rw [hqx, hqs]⟩
        · refine Or.inr ⟨s ++ '/' :: t, ?_⟩
          rw [hqx, hqs]
          simp

theorem slashfree_ext_disjoint (r1 r2 x : JStr) (h1 : '/' ∉ r1)
    (h2 : '/' ∉ r2) (hne : r1 ≠ r2) (hx1 : isExtOf r1 x)
    (hx2 : isExtOf r2 x) : False := by
  have hu1 : ∃ u, (u = [] ∨ ∃ t, u = '/' :: t) ∧ x = r1 ++ u := by
    rcases hx1 with h | ⟨t, h⟩
    · exact ⟨[], Or.inl rfl, by rw [h]; simp⟩
    · exact ⟨'/' :: t, Or.inr ⟨t, rfl⟩, h⟩
  have hu2 : ∃ u, (u = [] ∨ ∃ t, u = '/' :: t) ∧ x = r2 ++ u := by
    rcases hx2 with h | ⟨t, h⟩
    · exact ⟨[], Or.inl rfl, by rw [h]; simp⟩
    · exact ⟨'/' :: t, Or.inr ⟨t, rfl⟩, h⟩
  obtain ⟨u1, hu1s, hxu1⟩ := hu1
  obtain ⟨u2, hu2s, hxu2⟩ := hu2
  exact hne (sepExt_inj r1 r2 u1 u2 h1 h2 hu1s hu2s (by rw [← hxu1, ← hxu2]))

theorem pathsL_filterMap_nodup (st : St) (f : Nat) (l : List JStr)
    (P : JStr → JStr → Prop)
    (hrec : ∀ p e, alGet st p = some e → (pathsN (matNode st f p e)).Nodup)
    (hP : ∀ q ∈ l, ∀ v, alGet st q = some v →
      ∀ x ∈ pathsN (matNode st f q v), P q x)
    (hnd : l.Nodup)
    (hdisj : ∀ q1 ∈ l, ∀ q2 ∈ l, q1 ≠ q2 → ∀ x, P q1 x → P q2 x → False) :
    (pathsL (l.filterMap fun q => (alGet st q).map (matNode st f q))).Nodup := by
  induction l with
  | nil => simp [pathsL]
  | cons a t ih =>
    rw [List.filterMap_cons]
    have hnd' := List.nodup_cons.mp hnd
    have ihap : (pathsL (t.filterMap fun q =>
        (alGet st q).map (matNode st f q))).Nodup := by
      apply ih
      · intro q hq v hv x hx
        exact hP q (List.mem_cons_of_mem a hq) v hv x hx
      · exact hnd'.2
      · intro q1 hq1 q2 hq2 hne x h1 h2
        exact hdisj q1 (List.mem_cons_of_mem a hq1) q2
          (List.mem_cons_of_mem a hq2) hne x h1 h2
    cases ha : alGet st a with
    | none =>
      simp only [Option.map_none']
      exact ihap
    | some va =>
      simp only [Option.map_some']
      rw [pathsL]
      apply List.Nodup.append (hrec a va ha) ihap
      intro x hx1 hx2
      obtain ⟨q, hq, v, hv, hxq⟩ := mem_pathsL_filterMap st f t x hx2
      have hax : P a x := hP a (List.mem_cons_self a t) va ha x hx1
      have hqx : P q x := hP q (List.mem_cons_of_mem a hq) v hv x hxq
      have hane : a ≠ q := fun he => hnd'.1 (he ▸ hq)
      exact hdisj a (List.mem_cons_self a t) q (List.mem_cons_of_mem a hq)
        hane x hax hqx

theorem matNode_paths_nodup (st : St) (hWF : StWF st) :
    ∀ f p e, alGet st p = some e → (pathsN (matNode st f p e)).Nodup := by
  intro f
  induction f with
  | zero =>
    intro p e _
    simp [matNode, pathsN, pathsL]
  | succ f ih =>
    intro p e he
    simp only [matNode, pathsN]
    rw [List.nodup_cons]
    have hcl := hWF.2 (p, e) (alGet_mem st p e he)
    constructor
    · intro hx
      obtain ⟨q, hq, v, hv, hxq⟩ := mem_pathsL_filterMap st f e.children p hx
      have hce := hcl.2 q hq
      have hlt : p.length < q.length := hce.2.len_lt
      have hle : q.length ≤ p.length := matNode_paths_len st hWF f q v hv p hxq
      omega
    · apply pathsL_filterMap_nodup st f e.children isExtOf ih
      · intro q hq v hv x hx
        have hce := hcl.2 q hq
        exact matNode_paths_ext st hWF f q v hv hce.2.ne_nil x hx
      · exact hcl.1
      · intro q1 hq1 q2 hq2 hne x h1 h2
        exact ChildExt_ext_disjoint (hcl.2 q1 hq1).2 (hcl.2 q2 hq2).2 hne h1 h2

theorem matNode_height (st : St) (hWF : StWF st) :
    ∀ f p e, alGet st p = some e →
      heightN (matNode st f p e) ≤ maxKeyLen st + 1 - p.length := by
  intro f
  induction f with
  | zero =>
    intro p e he
    have hp := maxKeyLen_ge st p (by rw [he]; rfl)
    simp only [matNode, heightN, heightL]
    omega
  | succ f ih =>
    intro p e he
    have hp := maxKeyLen_ge st p (by rw [he]; rfl)
    simp only [matNode, heightN]
    have hch : heightL (e.children.filterMap fun q =>
        (alGet st q).map (matNode st f q)) ≤ maxKeyLen st - p.length := by
      apply heightL_le
      intro n hn
      obtain ⟨q, hq, hgq⟩ := List.mem_filterMap.mp hn
      cases hv : alGet st q with
      | none => rw [hv] at hgq; cases hgq
      | some v =>
        rw [hv] at hgq
        simp only [Option.map_some'] at hgq
        have hce := (hWF.2 (p, e) (alGet_mem st p e he)).2 q hq
        have hlt : p.length < q.length := hce.2.len_lt
        have := ih q v hv
        rw [← Option.some.inj hgq]
        omega
    omega

end MatLemmas

section SortLemmas

theorem sortTreeF_succ (f : Nat) (l : List FNode) :
    sortTreeF (f + 1) l = (l.insertionSort nodeLe).map
      (fun n => match n with
        | .mk a p d c ch => FNode.mk a p d c (sortTreeF f ch)) := rfl

theorem pathsL_append_eq (l1 l2 : List FNode) :
    pathsL (l1 ++ l2) = pathsL l1 ++ pathsL l2 := by
  induction l1 with
  | nil => rfl
  | cons x t ih => rw [List.cons_append, pathsL, pathsL, ih, List.append_assoc]

theorem pathsL_perm {l1 l2 : List FNode} (h : l1.Perm l2) :
    (pathsL l1).Perm (pathsL l2) := by
  induction h with
  | nil => exact List.Perm.refl _
  | cons x h ih =>
    rw [pathsL, pathsL]
    exact List.Perm.append_left (pathsN x) ih
  | swap x y l =>
    rw [pathsL, pathsL, pathsL, pathsL, ← List.append_assoc, ← List.append_assoc]
    exact List.Perm.append_right _ List.perm_append_comm
  | trans h1 h2 ih1 ih2 => exact ih1.trans ih2

theorem pathsL_sortTreeF : ∀ (f : Nat) (l : List FNode),
    (pathsL (sortTreeF f l)).Perm (pathsL l) := by
  intro f
  induction f with
  | zero => intro l; exact List.Perm.refl _
  | succ f ih =>
    intro l
    rw [sortTreeF_succ]
    have hmap : ∀ m : List FNode,
        (pathsL (m.map (fun n => match n with
          | .mk a p d c ch => FNode.mk a p d c (sortTreeF f ch)))).Perm
          (pathsL m) := by
      intro m
      induction m with
      | nil => exact List.Perm.refl _
      | cons n t iht =>
        rw [List.map_cons, pathsL, pathsL]
        refine List.Perm.append ?_ iht
        rcases n with ⟨a, p, d, c, ch⟩
        show (pathsN (FNode.mk a p d c (sortTreeF f ch))).Perm _
        rw [pathsN, pathsN]
        exact List.Perm.cons p (ih ch)
    exact (hmap _).trans (pathsL_perm (List.perm_insertionSort nodeLe l))

theorem cntL_append_eq (l1 l2 : List FNode) :
    cntL (l1 ++ l2) = cntL l1 + cntL l2 := by
  induction l1 with
  | nil => rw [List.nil_append, cntL, Nat.zero_add]
  | cons x t ih => rw [List.cons_append, cntL, cntL, ih, Nat.add_assoc]

theorem cntL_perm {l1 l2 : List FNode} (h : l1.Perm l2) :
    cntL l1 = cntL l2 := by
  induction h with
  | nil => rfl
  | cons x h ih => rw [cntL, cntL, ih]
  | swap x y l => rw [cntL, cntL, cntL, cntL]; omega
  | trans h1 h2 ih1 ih2 => exact ih1.trans ih2

theorem length_sortTreeF (f : Nat) (l : List FNode) :
    (sortTreeF f l).length = l.length := by
  cases f with
  | zero => rfl
  | succ f => rw [sortTreeF_succ, List.length_map, List.length_insertionSort]

theorem cntL_sortTreeF : ∀ (f : Nat) (l : List FNode),
    cntL (sortTreeF f l) = cntL l := by
  intro f
  induction f with
  | zero => intro l; rfl
  | succ f ih =>
    intro l
    rw [sortTreeF_succ]
    have hmap : ∀ m : List FNode,
        cntL (m.map (fun n => match n with
          | .mk a p d c ch => FNode.mk a p d c (sortTreeF f ch))) = cntL m := by
      intro m
      induction m with
      | nil => rfl
      | cons n t iht =>
        rw [List.map_cons, cntL, cntL, iht]
        congr 1
        rcases n with ⟨a, p, d, c, ch⟩
        show cntN (FNode.mk a p d c (sortTreeF f ch)) = cntN (FNode.mk a p d c ch)
        cases hch : ch with
        | nil =>
          have hnil : sortTreeF f ([] : List FNode) = [] := by
            cases f with
            | zero => rfl
            | succ f => rfl
          rw [hnil]
        | cons x xs =>
          have hlen : (sortTreeF f (x :: xs)).length = xs.length + 1 := by
            rw [length_sortTreeF, List.length_cons]
          cases hs : sortTreeF f (x :: xs) with
          | nil => rw [hs] at hlen; simp at hlen
          | cons y ys =>
            rw [cntN, cntN, ← hs, ih]
    rw [hmap, cntL_perm (List.perm_insertionSort nodeLe l)]

theorem adjSorted_map_congr (g : FNode → FNode)
    (hg : ∀ a b, nodeLeB (g a) (g b) = nodeLeB a b) :
    ∀ m : List FNode, adjSorted (m.map g) = adjSorted m := by
  intro m
  induction m with
  | nil => rfl
  | cons x t ih =>
    cases t with
    | nil => rfl
    | cons y r =>
      rw [List.map_cons, List.map_cons]
      simp only [adjSorted]
      rw [← List.map_cons, ih, hg]

theorem adjSorted_of_pairwise :
    ∀ m : List FNode, List.Pairwise nodeLe m → adjSorted m = true := by
  intro m
  induction m with
  | nil => intro _; rfl
  | cons x t ih =>
    intro hp
    cases t with
    | nil => rfl
    | cons y r =>
      have hp1 := List.pairwise_cons.mp hp
      simp only [adjSorted, Bool.and_eq_true]
      exact ⟨hp1.1 y (List.mem_cons_self y r), ih hp1.2⟩

theorem heightN_le_heightL (n : FNode) (l : List FNode) (h : n ∈ l) :
    heightN n ≤ heightL l := by
  induction l with
  | nil => cases h
  | cons x t ih =>
    rw [heightL]
    rcases List.mem_cons.mp h with h | h
    · rw [h]
      exact le_max_left _ _
    · exact le_trans (ih h) (le_max_right _ _)

theorem heightL_zero {l : List FNode} (h : heightL l ≤ 0) : l = [] := by
  cases l with
  | nil => rfl
  | cons x t =>
    exfalso
    rcases x with ⟨a, p, d, c, ch⟩
    rw [heightL, heightN] at h
    omega

theorem forestOrderedAux_map (f : Nat)
    (hrec : ∀ l2 : List FNode, heightL l2 ≤ f →
      forestOrdered (sortTreeF f l2) = true) :
    ∀ m : List FNode, (∀ n ∈ m, heightN n ≤ f + 1) →
      forestOrderedAux (m.map (fun n => match n with
        | .mk a p d c ch => FNode.mk a p d c (sortTreeF f ch))) = true := by
  intro m
  induction m with
  | nil => intro _; rfl
  | cons x t ih =>
    intro hh
    rw [List.map_cons]
    simp only [forestOrderedAux, Bool.and_eq_true]
    constructor
    · rcases x with ⟨a, p, d, c, ch⟩
      have hch : heightL ch ≤ f := by
        have := hh _ (List.mem_cons_self _ t)
        rw [heightN] at this
        omega
      have hfo := hrec ch hch
      rw [forestOrdered, Bool.and_eq_true] at hfo
      show nodeOrdered (FNode.mk a p d c (sortTreeF f ch)) = true
      rw [nodeOrdered, Bool.and_eq_true]
      exact hfo
    · exact ih (fun n hn => hh n (List.mem_cons_of_mem x hn))

theorem sortTreeF_ordered : ∀ (f : Nat) (l : List FNode), heightL l ≤ f →
    forestOrdered (sortTreeF f l) = true := by
  intro f
  induction f with
  | zero =>
    intro l h
    rw [heightL_zero h]
    rfl
  | succ f ih =>
    intro l h
    rw [sortTreeF_succ, forestOrdered, Bool.and_eq_true]
    constructor
    · have hg : ∀ a b : FNode,
          nodeLeB ((fun n => match n with
            | .mk a2 p d c ch => FNode.mk a2 p d c (sortTreeF f ch)) a)
            ((fun n => match n with
            | .mk a2 p d c ch => FNode.mk a2 p d c (sortTreeF f ch)) b)
            = nodeLeB a b := by
        intro a b
        rcases a with ⟨a1, p1, d1, c1, ch1⟩
        rcases b with ⟨a2, p2, d2, c2, ch2⟩
        rfl
      rw [adjSorted_map_congr _ hg]
      exact adjSorted_of_pairwise _
        (@List.sorted_insertionSort FNode nodeLe _ ⟨nodeLe_total⟩
          ⟨nodeLe_trans⟩ l)
    · apply forestOrderedAux_map f ih
      intro n hn
      have hmem : n ∈ l := (List.perm_insertionSort nodeLe l).subset hn
      exact le_trans (heightN_le_heightL n l hmem) h

end SortLemmas

/-- C4: in every forest returned by either `buildFileTree` variant, every
level is sorted by the comparator: directories precede files and, within each
group, names are non-decreasing in the (case-sensitive, code-point) order
modelling `localeCompare`. -/
theorem claimC4_directory_first (changes : List GitChange) :
    forestOrdered (IndexR.buildFileTree changes) = true
    ∧ forestOrdered (Part3.buildFileTree changes) = true := by
  constructor
  · have hWF := foldIdx_WF changes
    simp only [IndexR.buildFileTree]
    apply sortTreeF_ordered
    apply heightL_le
    intro n hn
    obtain ⟨p, hp, hgp⟩ := List.mem_filterMap.mp hn
    cases hv : alGet (changes.foldl IndexR.stepIdx []) p with
    | none => rw [hv] at hgp; cases hgp
    | some v =>
      rw [hv] at hgp
      simp only [Option.map_some'] at hgp
      have hh := matNode_height _ hWF (fuelOf (changes.foldl IndexR.stepIdx []))
        p v hv
      have hpm := maxKeyLen_ge _ p (by rw [hv]; rfl)
      rw [← Option.some.inj hgp]
      unfold fuelOf
      unfold fuelOf at hh
      omega
  · have hWF := foldP3_WF changes
    simp only [Part3.buildFileTree]
    apply sortTreeF_ordered
    apply heightL_le
    intro n hn
    obtain ⟨p, hp, hgp⟩ := List.mem_filterMap.mp hn
    cases hv : alGet ((changes.take 50).foldl Part3.stepP3 Part3.st3Init).entries
        p with
    | none => rw [hv] at hgp; cases hgp
    | some v =>
      rw [hv] at hgp
      simp only [Option.map_some'] at hgp
      have hh := matNode_height _ hWF
        (fuelOf ((changes.take 50).foldl Part3.stepP3 Part3.st3Init).entries)
        p v hv
      have hpm := maxKeyLen_ge _ p (by rw [hv]; rfl)
      rw [← Option.some.inj hgp]
      unfold fuelOf
      unfold fuelOf at hh
      omega

section IdxInv

theorem alGet_isSome_append {B : Type} (m1 m2 : List (JStr × B)) (k : JStr)
    (h : (alGet m1 k).isSome) : (alGet (m1 ++ m2) k).isSome := by
  rw [alGet_append]
  cases hg : alGet m1 k with
  | none => rw [hg] at h; cases h
  | some v => rfl

theorem IdxWF_append (st : St) (k : JStr) (v : EInfo) (hI : IdxWF st)
    (hk : alGet st k = none) (hv : v.children = [])
    (hshape : '/' ∉ k ∨ ∃ pr s, k = pr ++ '/' :: s ∧ '/' ∉ s ∧ pr ≠ []
      ∧ (alGet st pr).isSome) :
    IdxWF (st ++ [(k, v)]) := by
  obtain ⟨hWF, h2, h3⟩ := hI
  refine ⟨StWF_append st k v hWF hk hv, ?_, ?_⟩
  · intro p hp hslash
    rw [alGet_append] at hp
    cases hg : alGet st p with
    | some w =>
      obtain ⟨pr, s, hd, hs, hprne, hprs⟩ := h2 p (by rw [hg]; rfl) hslash
      exact ⟨pr, s, hd, hs, hprne, alGet_isSome_append st _ pr hprs⟩
    | none =>
      rw [hg, alGet_cons] at hp
      by_cases hkp : k = p
      · subst hkp
        rcases hshape with hshape | ⟨pr, s, hd, hs, hprne, hprs⟩
        · exact absurd hslash hshape
        · exact ⟨pr, s, hd, hs, hprne, alGet_isSome_append st _ pr hprs⟩
      · rw [if_neg hkp, alGet_nil] at hp
        cases hp
  · intro e he
    rcases List.mem_append.mp he with he | he
    · exact h3 e he
    · rw [List.mem_singleton.mp he]
      intro _
      exact hv

theorem IdxWF_push (st : St) (p q : JStr) (hI : IdxWF st)
    (hq : (alGet st q).isSome) (hext : ChildExt p q)
    (hnotin : ∀ pe, alGet st p = some pe → q ∉ pe.children) (hpne : p ≠ []) :
    IdxWF (alPushChild st p q) := by
  obtain ⟨hWF, h2, h3⟩ := hI
  refine ⟨StWF_push st p q hWF hq hext hnotin, ?_, ?_⟩
  · intro p1 hp1 hslash
    rw [alPushChild_eq_alUpdate, alGet_isSome_alUpdate] at hp1
    obtain ⟨pr, s, hd, hs, hprne, hprs⟩ := h2 p1 hp1 hslash
    refine ⟨pr, s, hd, hs, hprne, ?_⟩
    rw [alPushChild_eq_alUpdate, alGet_isSome_alUpdate]
    exact hprs
  · intro e he
    rw [alPushChild_eq_alUpdate] at he
    rcases mem_alUpdate st _ _ e he with ⟨hem, _⟩ | ⟨hek, v, _, _⟩
    · exact h3 e hem
    · intro he0
      exact absurd (hek ▸ he0) hpne

theorem connectIdx_IWF (st1 : St) (cur cur2 : JStr) (hI : IdxWF st1)
    (hq : (alGet st1 cur2).isSome) (hext : cur ≠ [] → ChildExt cur cur2) :
    IdxWF (IndexR.connectIdx st1 cur cur2) := by
  unfold IndexR.connectIdx
  by_cases hprev : cur = []
  · rw [if_pos hprev]
    exact hI
  · rw [if_neg hprev]
    cases hp : alGet st1 cur with
    | none => exact hI
    | some pe =>
      show IdxWF (if cur2 ∈ pe.children then st1 else alPushChild st1 cur cur2)
      by_cases hin : cur2 ∈ pe.children
      · rw [if_pos hin]
        exact hI
      · rw [if_neg hin]
        refine IdxWF_push st1 cur cur2 hI hq (hext hprev) ?_ hprev
        intro pe2 hpe2
        rw [hp] at hpe2
        rw [← Option.some.inj hpe2]
        exact hin

theorem connectIdx_isSome (st1 : St) (cur cur2 k : JStr)
    (h : (alGet st1 k).isSome) :
    (alGet (IndexR.connectIdx st1 cur cur2) k).isSome := by
  unfold IndexR.connectIdx
  by_cases hprev : cur = []
  · rw [if_pos hprev]
    exact h
  · rw [if_neg hprev]
    cases hp : alGet st1 cur with
    | none => exact h
    | some pe =>
      show (alGet (if cur2 ∈ pe.children then st1
        else alPushChild st1 cur cur2) k).isSome
      by_cases hin : cur2 ∈ pe.children
      · rw [if_pos hin]
        exact h
      · rw [if_neg hin]
        rw [alPushChild_eq_alUpdate, alGet_isSome_alUpdate]
        exact h

theorem walkIdx_IWF (c : GitChange) :
    ∀ (parts : List JStr) (st : St) (cur : JStr), IdxWF st →
      (∀ part ∈ parts, '/' ∉ part) →
      (cur = [] ∨ (alGet st cur).isSome) →
      IdxWF (IndexR.walkIdx c st parts cur) := by
  intro parts
  induction parts with
  | nil =>
    intro st cur h _ _
    exact h
  | cons part rest ih =>
    intro st cur h hparts hcur
    have hpart : '/' ∉ part := hparts part (List.mem_cons_self part rest)
    unfold IndexR.walkIdx
    dsimp only
    have hq2 : ∀ st1 : St,
        (alGet st1 (if cur = [] then part else cur ++ '/' :: part)).isSome →
        (alGet (IndexR.connectIdx st1 cur
          (if cur = [] then part else cur ++ '/' :: part))
          (if cur = [] then part else cur ++ '/' :: part)).isSome :=
      fun st1 hst1 => connectIdx_isSome st1 cur _ _ hst1
    cases hg : alGet st (if cur = [] then part else cur ++ '/' :: part) with
    | some v =>
      refine ih _ _ ?_ (fun x hx => hparts x (List.mem_cons_of_mem part hx))
        (Or.inr (hq2 st (by rw [hg]; rfl)))
      exact connectIdx_IWF st cur _ h (by rw [hg]; rfl)
        (fun hprev => ⟨part, hpart, Or.inr ⟨hprev, by rw [if_neg hprev]⟩⟩)
    | none =>
      have hsome1 : (alGet (st ++ [((if cur = [] then part
          else cur ++ '/' :: part), mkNode part rest.isEmpty c)])
          (if cur = [] then part else cur ++ '/' :: part)).isSome := by
        rw [alGet_append, hg, alGet_cons, if_pos rfl]
        rfl
      refine ih _ _ ?_ (fun x hx => hparts x (List.mem_cons_of_mem part hx))
        (Or.inr (hq2 _ hsome1))
      refine connectIdx_IWF _ cur _ ?_ hsome1
        (fun hprev => ⟨part, hpart, Or.inr ⟨hprev, by rw [if_neg hprev]⟩⟩)
      refine IdxWF_append st _ (mkNode part rest.isEmpty c) h hg rfl ?_
      by_cases hprev : cur = []
      · rw [if_pos hprev]
        exact Or.inl hpart
      · rw [if_neg hprev]
        refine Or.inr ⟨cur, part, rfl, hpart, hprev, ?_⟩
        rcases hcur with hcur | hcur
        · exact absurd hcur hprev
        · exact hcur

theorem stepIdx_IWF (st : St) (c : GitChange) (h : IdxWF st) :
    IdxWF (IndexR.stepIdx st c) := by
  unfold IndexR.stepIdx
  exact walkIdx_IWF c _ st [] h (slash_not_mem_splitOn c.file) (Or.inl rfl)

theorem foldIdx_IWF (changes : List GitChange) :
    IdxWF (changes.foldl IndexR.stepIdx []) := by
  have h : ∀ (l : List GitChange) (st : St), IdxWF st →
      IdxWF (l.foldl IndexR.stepIdx st) := by
    intro l
    induction l with
    | nil => intro st h; exact h
    | cons x xs ih => intro st h; exact ih (IndexR.stepIdx st x) (stepIdx_IWF st x h)
  refine h changes [] ⟨⟨List.nodup_nil, by intro e he; cases he⟩, ?_, ?_⟩
  · intro p hp
    rw [alGet_nil] at hp
    cases hp
  · intro e he
    cases he

theorem rootsIdx_mem (st : St) (hI : IdxWF st) (r : JStr)
    (hr : r ∈ IndexR.rootsIdx st) : '/' ∉ r ∧ (alGet st r).isSome := by
  unfold IndexR.rootsIdx at hr
  obtain ⟨hrk, hcond⟩ := List.mem_filter.mp hr
  have hsome : (alGet st r).isSome := by
    obtain ⟨e, hem, hfe⟩ := List.mem_map.mp hrk
    have := alGet_isSome_of_mem st e hem
    rw [hfe] at this
    exact this
  refine ⟨?_, hsome⟩
  intro hslash
  obtain ⟨pr, s, hd, hs, hprne, hprs⟩ := hI.2.1 r hsome hslash
  rw [hd, parentPathOf_append pr s hs] at hcond
  rw [Bool.or_eq_true] at hcond
  rcases hcond with hcond | hcond
  · cases pr with
    | nil => exact hprne rfl
    | cons a t => simp at hcond
  · rw [Option.isNone_iff_eq_none] at hcond
    rw [hcond] at hprs
    cases hprs

theorem rootsIdx_nodup (st : St) (hWF : StWF st) :
    (IndexR.rootsIdx st).Nodup :=
  List.Nodup.filter _ hWF.1

theorem pathsN_matNode_noChildren (st : St) (f : Nat) (p : JStr) (v : EInfo)
    (hch : v.children = []) : pathsN (matNode st f p v) = [p] := by
  cases f with
  | zero => rw [matNode, pathsN, pathsL]
  | succ f =>
    rw [matNode, pathsN, hch]
    rw [List.filterMap_nil, pathsL]

theorem idx_forest_nodup (st : St) (hI : IdxWF st) (f : Nat) :
    (pathsL ((IndexR.rootsIdx st).filterMap fun p =>
      (alGet st p).map (matNode st f p))).Nodup := by
  apply pathsL_filterMap_nodup st f (IndexR.rootsIdx st)
    (fun r x => (r = [] ∧ x = r) ∨ (r ≠ [] ∧ isExtOf r x))
  · exact matNode_paths_nodup st hI.1 f
  · intro q hq v hv x hx
    by_cases hq0 : q = []
    · subst hq0
      have hch : v.children = [] := hI.2.2 ([], v) (alGet_mem st [] v hv) rfl
      rw [pathsN_matNode_noChildren st f [] v hch] at hx
      exact Or.inl ⟨rfl, List.mem_singleton.mp hx⟩
    · exact Or.inr ⟨hq0, matNode_paths_ext st hI.1 f q v hv hq0 x hx⟩
  · exact rootsIdx_nodup st hI.1
  · intro q1 hq1 q2 hq2 hne x h1 h2
    have hs1 := (rootsIdx_mem st hI q1 hq1).1
    have hs2 := (rootsIdx_mem st hI q2 hq2).1
    rcases h1 with ⟨hq10, hx1⟩ | ⟨hq10, hx1⟩
    · rcases h2 with ⟨hq20, hx2⟩ | ⟨hq20, hx2⟩
      · exact hne (hq10.trans hq20.symm)
      · have hlen := isExtOf_len hx2
        rw [hx1, hq10] at hlen
        rw [List.length_nil, Nat.le_zero, List.length_eq_zero] at hlen
        exact hq20 hlen
    · rcases h2 with ⟨hq20, hx2⟩ | ⟨hq20, hx2⟩
      · have hlen := isExtOf_len hx1
        rw [hx2, hq20] at hlen
        rw [List.length_nil, Nat.le_zero, List.length_eq_zero] at hlen
        exact hq10 hlen
      · exact slashfree_ext_disjoint q1 q2 x hs1 hs2 hne hx1 hx2

theorem idx_nodupPaths (changes : List GitChange) :
    nodupPaths (IndexR.buildFileTree changes) := by
  unfold nodupPaths
  simp only [IndexR.buildFileTree]
  exact (pathsL_sortTreeF _ _).nodup_iff.mpr
    (idx_forest_nodup _ (foldIdx_IWF changes) _)

end IdxInv

section P3Root

theorem walkP3_root (c : GitChange) :
    ∀ (parts : List JStr) (s : Part3.St3) (cur : JStr),
      (alGet s.entries []).isSome →
      (cur = [] ∨ (alGet s.entries cur).isSome) →
      (Part3.walkP3 c s parts cur).rootArr = s.rootArr
        ∧ (alGet (Part3.walkP3 c s parts cur).entries []).isSome := by
  intro parts
  induction parts with
  | nil =>
    intro s cur h0 _
    exact ⟨rfl, h0⟩
  | cons part rest ih =>
    intro s cur h0 hcur
    unfold Part3.walkP3
    dsimp only
    cases hg : alGet s.entries (if cur = [] then part else cur ++ '/' :: part) with
    | some v =>
      dsimp only
      by_cases hl : rest.isEmpty
      · rw [if_pos hl]
        have h0a : (alGet (alSetChange s.entries
            (if cur = [] then part else cur ++ '/' :: part) c) []).isSome := by
          rw [alSetChange_eq_alUpdate, alGet_isSome_alUpdate]
          exact h0
        have hc2 : (alGet (alSetChange s.entries
            (if cur = [] then part else cur ++ '/' :: part) c)
            (if cur = [] then part else cur ++ '/' :: part)).isSome := by
          rw [alSetChange_eq_alUpdate, alGet_isSome_alUpdate, hg]
          rfl
        obtain ⟨h1, h2⟩ := ih
          ⟨alSetChange s.entries
            (if cur = [] then part else cur ++ '/' :: part) c, s.rootArr⟩
          (if cur = [] then part else cur ++ '/' :: part) h0a (Or.inr hc2)
        exact ⟨h1, h2⟩
      · rw [if_neg hl]
        exact ih s _ h0 (Or.inr (by rw [hg]; rfl))
    | none =>
      dsimp only
      have hcs : (alGet (s.entries ++ [((if cur = [] then part
          else cur ++ '/' :: part), mkNode part rest.isEmpty c)]) cur).isSome := by
        rcases hcur with hcur | hcur
        · rw [hcur]
          exact alGet_isSome_append _ _ [] h0
        · exact alGet_isSome_append _ _ cur hcur
      obtain ⟨pv, hpv⟩ := Option.isSome_iff_exists.mp hcs
      unfold Part3.attachP3
      rw [hpv]
      dsimp only
      have h0a : (alGet (alPushChild (s.entries ++ [((if cur = [] then part
          else cur ++ '/' :: part), mkNode part rest.isEmpty c)]) cur
          (if cur = [] then part else cur ++ '/' :: part)) []).isSome := by
        rw [alPushChild_eq_alUpdate, alGet_isSome_alUpdate]
        exact alGet_isSome_append _ _ [] h0
      have hc2 : (alGet (alPushChild (s.entries ++ [((if cur = [] then part
          else cur ++ '/' :: part), mkNode part rest.isEmpty c)]) cur
          (if cur = [] then part else cur ++ '/' :: part))
          (if cur = [] then part else cur ++ '/' :: part)).isSome := by
        rw [alPushChild_eq_alUpdate, alGet_isSome_alUpdate]
        rw [alGet_append, hg, alGet_cons, if_pos rfl]
        rfl
      obtain ⟨h1, h2⟩ := ih
        ⟨alPushChild (s.entries ++ [((if cur = [] then part
            else cur ++ '/' :: part), mkNode part rest.isEmpty c)]) cur
          (if cur = [] then part else cur ++ '/' :: part), s.rootArr⟩
        (if cur = [] then part else cur ++ '/' :: part) h0a (Or.inr hc2)
      exact ⟨h1, h2⟩

theorem stepP3_root (s : Part3.St3) (c : GitChange)
    (h0 : (alGet s.entries []).isSome) :
    (Part3.stepP3 s c).rootArr = s.rootArr
      ∧ (alGet (Part3.stepP3 s c).entries []).isSome := by
  unfold Part3.stepP3
  dsimp only
  split
  · exact ⟨rfl, h0⟩
  · exact walkP3_root c _ s [] h0 (Or.inl rfl)

theorem foldP3_root (changes : List GitChange) :
    ((changes.take 50).foldl Part3.stepP3 Part3.st3Init).rootArr = []
      ∧ (alGet ((changes.take 50).foldl Part3.stepP3
          Part3.st3Init).entries []).isSome := by
  have h : ∀ (l : List GitChange) (s : Part3.St3),
      s.rootArr = [] → (alGet s.entries []).isSome →
      (l.foldl Part3.stepP3 s).rootArr = []
        ∧ (alGet (l.foldl Part3.stepP3 s).entries []).isSome := by
    intro l
    induction l with
    | nil => intro s h1 h2; exact ⟨h1, h2⟩
    | cons x xs ih =>
      intro s h1 h2
      obtain ⟨hra, hee⟩ := stepP3_root s x h2
      exact ih (Part3.stepP3 s x) (hra.trans h1) hee
  apply h (changes.take 50) Part3.st3Init rfl
  rw [Part3.st3Init, alGet_cons, if_pos rfl]
  rfl

theorem p3_nodupPaths (changes : List GitChange) :
    nodupPaths (Part3.buildFileTree changes) := by
  unfold nodupPaths
  simp only [Part3.buildFileTree]
  obtain ⟨hroot, hsome⟩ := foldP3_root changes
  rw [if_neg (fun h => h hroot)]
  obtain ⟨e0, he0⟩ := Option.isSome_iff_exists.mp hsome
  rw [he0]
  apply (pathsL_sortTreeF _ _).nodup_iff.mpr
  have hWF := foldP3_WF changes
  have hcl := hWF.2 ([], e0) (alGet_mem _ [] e0 he0)
  apply pathsL_filterMap_nodup _ _ e0.children isExtOf
  · exact matNode_paths_nodup _ hWF _
  · intro q hq v hv x hx
    exact matNode_paths_ext _ hWF _ q v hv (hcl.2 q hq).2.ne_nil x hx
  · exact hcl.1
  · intro q1 hq1 q2 hq2 hne x h1 h2
    exact ChildExt_ext_disjoint (hcl.2 q1 hq1).2 (hcl.2 q2 hq2).2 hne h1 h2

end P3Root

/-- C3 counterexample: in the `_index.tsx` variant, when the path `a` already
exists as a node (from the first record) and occurs again as the final
segment of a later record, the existing node keeps the FIRST record's
`change`; it is not updated with the later record as the claim states. -/
theorem claimC3_counterexample :
    (IndexR.buildFileTree [mkc "a", mka "a"]).map FNode.change
        = [some (mkc "a")]
    ∧ (IndexR.buildFileTree [mkc "a", mka "a"]).map FNode.change
        ≠ [some (mka "a")] := by
  exact ⟨by decide, by decide⟩

/-- C3 (amended): neither variant ever creates a duplicate node — for every
input, no two nodes of the returned forest share a `path`; on re-encounter of
an existing path as a final segment, the part_003 variant updates the
existing node's `change` with the later record, while the `_index.tsx`
variant keeps the first record's `change`. -/
theorem claimC3_no_duplicate_paths :
    (∀ changes, nodupPaths (IndexR.buildFileTree changes))
    ∧ (∀ changes, nodupPaths (Part3.buildFileTree changes))
    ∧ (Part3.buildFileTree [mkc "a", mka "a"]).map FNode.change
        = [some (mka "a")]
    ∧ (IndexR.buildFileTree [mka "a", mkc "a"]).map FNode.change
        = [some (mka "a")] := by
  exact ⟨idx_nodupPaths, p3_nodupPaths, by decide, by decide⟩

section CumLemmas

theorem cums_len_gt' : ∀ (parts : List JStr) (cur : JStr), cur ≠ [] →
    ∀ p ∈ cums parts cur, cur.length < p.length := by
  intro parts
  induction parts with
  | nil => intro cur _ p hp; cases hp
  | cons part rest ih =>
    intro cur hcur p hp
    rw [cums, if_neg hcur] at hp
    have hlen : cur.length < (cur ++ '/' :: part).length := by
      rw [List.length_append, List.length_cons]
      omega
    rcases List.mem_cons.mp hp with hp | hp
    · rw [hp]
      exact hlen
    · have hne : cur ++ '/' :: part ≠ [] := by
        intro he
        have := congrArg List.length he
        rw [List.length_append, List.length_cons] at this
        simp at this
      exact lt_trans hlen (ih _ hne p hp)

theorem cums_nodup : ∀ (parts : List JStr) (cur : JStr), okStart parts cur →
    (cums parts cur).Nodup := by
  intro parts
  induction parts with
  | nil => intro cur _; exact List.nodup_nil
  | cons part rest ih =>
    intro cur hok
    rw [cums]
    cases rest with
    | nil =>
      rw [cums]
      exact List.nodup_singleton _
    | cons p2 r2 =>
      have hc2 : (if cur = [] then part else cur ++ '/' :: part) ≠ [] := by
        rcases hok with hok | hok
        · rw [if_neg hok]
          intro he
          have := congrArg List.length he
          rw [List.length_append, List.length_cons] at this
          simp at this
        · by_cases hcur : cur = []
          · rw [if_pos hcur]
            exact hok part (p2 :: r2) rfl (by intro h; cases h)
          · rw [if_neg hcur]
            intro he
            have := congrArg List.length he
            rw [List.length_append, List.length_cons] at this
            simp at this
      rw [List.nodup_cons]
      constructor
      · intro hmem
        have := cums_len_gt' (p2 :: r2) _ hc2 _ hmem
        omega
      · exact ih _ (Or.inl hc2)

theorem cums_split : ∀ (parts : List JStr) (cur : JStr), parts ≠ [] →
    cums parts cur = propCums parts cur ++ [finCum parts cur] := by
  intro parts
  induction parts with
  | nil => intro cur h; exact absurd rfl h
  | cons part rest ih =>
    intro cur _
    rw [cums, propCums, finCum]
    cases rest with
    | nil =>
      rw [cums, finCum]
      rfl
    | cons p2 r2 =>
      rw [if_neg (show ¬ ((p2 :: r2).isEmpty = true) by
        intro h; simp [List.isEmpty] at h)]
      rw [List.cons_append]
      exact congrArg _ (ih _ (by intro h; cases h))

theorem finCum_mem (parts : List JStr) (cur : JStr) (h : parts ≠ []) :
    finCum parts cur ∈ cums parts cur := by
  rw [cums_split parts cur h]
  exact List.mem_append_right _ (List.mem_singleton_self _)

theorem propCums_subset (parts : List JStr) (cur : JStr) (p : JStr)
    (h : p ∈ propCums parts cur) : p ∈ cums parts cur := by
  have hne : parts ≠ [] := by
    intro he
    rw [he, propCums] at h
    cases h
  rw [cums_split parts cur hne]
  exact List.mem_append_left _ h

theorem fin_not_prop (parts : List JStr) (cur : JStr) (hok : okStart parts cur) :
    finCum parts cur ∉ propCums parts cur := by
  intro hmem
  have hne : parts ≠ [] := by
    intro he
    rw [he, propCums] at hmem
    cases hmem
  have hnd := cums_nodup parts cur hok
  rw [cums_split parts cur hne] at hnd
  rcases List.nodup_append.mp hnd with ⟨_, _, hdisj⟩
  exact hdisj hmem (List.mem_singleton_self _)

theorem propCums_succ : ∀ (parts : List JStr) (cur : JStr),
    (∀ part ∈ parts, '/' ∉ part) → okStart parts cur →
    ∀ p ∈ propCums parts cur,
      ∃ q ∈ cums parts cur, ∃ s, '/' ∉ s ∧ q = p ++ '/' :: s := by
  intro parts
  induction parts with
  | nil => intro cur _ _ p hp; cases hp
  | cons part rest ih =>
    intro cur hsl hok p hp
    rw [propCums] at hp
    cases rest with
    | nil => simp [List.isEmpty] at hp
    | cons p2 r2 =>
      rw [if_neg (by intro h; simp [List.isEmpty] at h)] at hp
      have hc2 : (if cur = [] then part else cur ++ '/' :: part) ≠ [] := by
        rcases hok with hok | hok
        · rw [if_neg hok]
          intro he
          have := congrArg List.length he
          rw [List.length_append, List.length_cons] at this
          simp at this
        · by_cases hcur : cur = []
          · rw [if_pos hcur]
            exact hok part (p2 :: r2) rfl (by intro h; cases h)
          · rw [if_neg hcur]
            intro he
            have := congrArg List.length he
            rw [List.length_append, List.length_cons] at this
            simp at this
      rcases List.mem_cons.mp hp with hp | hp
      · refine ⟨(if (if cur = [] then part else cur ++ '/' :: part) = []
            then p2
            else (if cur = [] then part else cur ++ '/' :: part) ++ '/' :: p2),
          ?_, ?_⟩
        · rw [cums]
          apply List.mem_cons_of_mem
          rw [cums]
          exact List.mem_cons_self _ _
        · rw [if_neg hc2, ← hp]
          exact ⟨p2, hsl p2 (List.mem_cons_of_mem part (List.mem_cons_self p2 r2)), rfl⟩
      · obtain ⟨q, hq, s, hs, hqs⟩ := ih _
          (fun x hx => hsl x (List.mem_cons_of_mem part hx)) (Or.inl hc2) p hp
        exact ⟨q, by rw [cums]; exact List.mem_cons_of_mem _ hq, s, hs, hqs⟩

theorem cums_parent : ∀ (parts : List JStr) (cur : JStr),
    (∀ part ∈ parts, '/' ∉ part) →
    ∀ q ∈ cums parts cur, ∀ p s, '/' ∉ s → q = p ++ '/' :: s →
      p = cur ∨ p ∈ propCums parts cur := by
  intro parts
  induction parts with
  | nil => intro cur _ q hq; cases hq
  | cons part rest ih =>
    intro cur hsl q hq p s hs hqs
    rw [cums] at hq
    rcases List.mem_cons.mp hq with hq | hq
    · by_cases hcur : cur = []
      · rw [if_pos hcur] at hq
        exfalso
        have hslash : '/' ∈ q := by
          rw [hqs]
          exact List.mem_append_right _ (List.mem_cons_self _ _)
        rw [hq] at hslash
        exact hsl part (List.mem_cons_self part rest) hslash
      · rw [if_neg hcur] at hq
        left
        have h1 : IndexR.parentPathOf q = cur := by
          rw [hq]
          exact parentPathOf_append cur part (hsl part (List.mem_cons_self part rest))
        have h2 : IndexR.parentPathOf q = p := by
          rw [hqs]
          exact parentPathOf_append p s hs
        rw [← h1, h2]
    · have hres : rest ≠ [] := by
        intro he
        rw [he, cums] at hq
        cases hq
      rcases ih _ (fun x hx => hsl x (List.mem_cons_of_mem part hx)) q hq p s hs hqs
          with hp | hp
      · right
        rw [propCums]
        cases rest with
        | nil => exact absurd rfl hres
        | cons p2 r2 =>
          rw [if_neg (by intro h; simp [List.isEmpty] at h)]
          exact hp ▸ List.mem_cons_self _ _
      · right
        rw [propCums]
        cases rest with
        | nil => exact absurd rfl hres
        | cons p2 r2 =>
          rw [if_neg (by intro h; simp [List.isEmpty] at h)]
          exact List.mem_cons_of_mem _ hp

theorem takeWhile_all_append (pr : Char → Bool) (l1 : JStr) (y : Char)
    (l2 : JStr) (h1 : ∀ x ∈ l1, pr x = true) (hy : pr y = false) :
    List.takeWhile pr (l1 ++ y :: l2) = l1 := by
  induction l1 with
  | nil =>
    rw [List.nil_append, List.takeWhile_cons, hy]
    rw [if_neg (by simp)]
  | cons a t ih =>
    rw [List.cons_append, List.takeWhile_cons, h1 a (List.mem_cons_self a t)]
    rw [if_pos rfl]
    rw [ih (fun x hx => h1 x (List.mem_cons_of_mem a hx))]

theorem lastSeg_no_slash (p : JStr) (h : '/' ∉ p) : lastSeg p = p := by
  unfold lastSeg
  rw [List.takeWhile_eq_self_iff.mpr, List.reverse_reverse]
  intro x hx
  simp only [bne_iff_ne, ne_eq]
  intro he
  exact h (he ▸ List.mem_reverse.mp hx)

theorem lastSeg_append (pr s : JStr) (hs : '/' ∉ s) :
    lastSeg (pr ++ '/' :: s) = s := by
  unfold lastSeg
  rw [List.reverse_append, List.reverse_cons, List.append_assoc,
    List.singleton_append]
  rw [takeWhile_all_append _ _ _ _ ?_ (by simp), List.reverse_reverse]
  intro x hx
  simp only [bne_iff_ne, ne_eq]
  intro he
  exact hs (he ▸ List.mem_reverse.mp hx)

theorem intercalate_single (sep a : JStr) : List.intercalate sep [a] = a := by
  rw [List.intercalate, List.intersperse_singleton, List.flatten,
    List.flatten, List.append_nil]

theorem intercalate_cons2 (sep a b : JStr) (t : List JStr) :
    List.intercalate sep (a :: b :: t) = a ++ sep ++ List.intercalate sep (b :: t) := by
  rw [List.intercalate, List.intercalate, List.intersperse_cons_cons,
    List.flatten, List.flatten, List.append_assoc]

theorem finCum_intercalate : ∀ (parts : List JStr) (cur : JStr), cur ≠ [] →
    parts ≠ [] →
    finCum parts cur = cur ++ '/' :: List.intercalate ['/'] parts := by
  intro parts
  induction parts with
  | nil => intro cur _ h; exact absurd rfl h
  | cons part rest ih =>
    intro cur hcur _
    rw [finCum, if_neg hcur]
    cases rest with
    | nil =>
      rw [finCum, intercalate_single]
    | cons p2 r2 =>
      rw [ih _ (by
          intro he
          have := congrArg List.length he
          rw [List.length_append, List.length_cons] at this
          simp at this) (by intro h; cases h)]
      rw [intercalate_cons2, List.append_assoc, List.append_assoc]
      rfl

theorem splitOn_head_shape (f : JStr) (hf : f ≠ [])
    (hh : f.head? ≠ some '/') :
    ∃ h t, f.splitOn '/' = h :: t ∧ h ≠ [] := by
  cases f with
  | nil => exact absurd rfl hf
  | cons x xs =>
    have hx : ¬ x = '/' := by
      intro he
      exact hh (by rw [List.head?, he])
    rw [List.splitOn, List.splitOnP_cons, if_neg (by simp [hx])]
    cases hsp : List.splitOnP (fun a => a == '/') xs with
    | nil => exact absurd hsp (List.splitOnP_ne_nil _ xs)
    | cons hd tl =>
      refine ⟨x :: hd, tl, ?_, by intro h; cases h⟩
      rw [List.modifyHead]

theorem finOf_eq_self (f : JStr) (hh : f.head? ≠ some '/') : finOf f = f := by
  by_cases hf : f = []
  · subst hf
    rfl
  · obtain ⟨h, t, hsp, hne⟩ := splitOn_head_shape f hf hh
    unfold finOf
    rw [hsp, finCum, if_pos rfl]
    cases t with
    | nil =>
      rw [finCum]
      have : List.intercalate ['/'] (f.splitOn '/') = f :=
        List.intercalate_splitOn f '/'
      rw [hsp, intercalate_single] at this
      exact this
    | cons p2 r2 =>
      rw [finCum_intercalate _ _ hne (by intro h2; cases h2)]
      have : List.intercalate ['/'] (f.splitOn '/') = f :=
        List.intercalate_splitOn f '/'
      rw [hsp, intercalate_cons2] at this
      rw [← this, List.append_assoc]
      rfl

theorem okStart_of_split (f : JStr) (hh : f.head? ≠ some '/') :
    okStart (f.splitOn '/') [] := by
  right
  intro h t hsp htne
  by_cases hf : f = []
  · subst hf
    rw [List.splitOn, List.splitOnP_nil] at hsp
    rw [List.cons.injEq] at hsp
    exact absurd hsp.2.symm htne
  · obtain ⟨h2, t2, hsp2, hne2⟩ := splitOn_head_shape f hf hh
    rw [hsp2] at hsp
    rw [List.cons.injEq] at hsp
    exact hsp.1 ▸ hne2

theorem cumsOf_mem_fin (f : JStr) : finOf f ∈ cumsOf f := by
  unfold finOf cumsOf
  exact finCum_mem _ _ (List.splitOnP_ne_nil _ f)

end CumLemmas

section LinkInv

theorem alGet_append_of_some (m : St) (x : JStr × EInfo) (p : JStr)
    (pe : EInfo) (h : alGet m p = some pe) : alGet (m ++ [x]) p = some pe := by
  rw [alGet_append, h]

theorem alGet_alUpdate_mono (m : St) (k : JStr) (g : EInfo → EInfo)
    (hg : ∀ v, ∀ q ∈ v.children, q ∈ (g v).children)
    (p : JStr) (pe : EInfo) (h : alGet m p = some pe) :
    ∃ pe2, alGet (alUpdate m k g) p = some pe2
      ∧ ∀ q ∈ pe.children, q ∈ pe2.children := by
  by_cases hp : p = k
  · subst hp
    rw [alGet_alUpdate, if_pos rfl, h]
    exact ⟨g pe, rfl, hg pe⟩
  · rw [alGet_alUpdate, if_neg hp, h]
    exact ⟨pe, rfl, fun q hq => hq⟩

theorem push_children_mono (v : EInfo) (q2 : JStr) :
    ∀ q ∈ v.children,
      q ∈ ({ v with children := v.children ++ [q2] } : EInfo).children :=
  fun q hq => List.mem_append_left _ hq

theorem alGet_append_singleton_isSome (m : St) (k : JStr) (v : EInfo)
    (p : JStr) (h : (alGet (m ++ [(k, v)]) p).isSome) :
    (alGet m p).isSome ∨ p = k := by
  rw [alGet_append] at h
  cases hq : alGet m p with
  | some w => exact Or.inl rfl
  | none =>
    simp only [hq] at h
    rw [alGet_cons] at h
    by_cases hk : k = p
    · exact Or.inr hk.symm
    · rw [if_neg hk, alGet_nil] at h
      cases h

theorem connectIdx_link (st1 : St) (cur cur2 p : JStr) (pe : EInfo)
    (h : alGet st1 p = some pe) :
    ∃ pe2, alGet (IndexR.connectIdx st1 cur cur2) p = some pe2
      ∧ ∀ q ∈ pe.children, q ∈ pe2.children := by
  unfold IndexR.connectIdx
  by_cases hprev : cur = []
  · rw [if_pos hprev]
    exact ⟨pe, h, fun q hq => hq⟩
  · rw [if_neg hprev]
    cases hp : alGet st1 cur with
    | none => exact ⟨pe, h, fun q hq => hq⟩
    | some pe0 =>
      show ∃ pe2, alGet (if cur2 ∈ pe0.children then st1
        else alPushChild st1 cur cur2) p = some pe2 ∧ _
      by_cases hin : cur2 ∈ pe0.children
      · rw [if_pos hin]
        exact ⟨pe, h, fun q hq => hq⟩
      · rw [if_neg hin, alPushChild_eq_alUpdate]
        exact alGet_alUpdate_mono st1 cur _ (fun v => push_children_mono v cur2)
          p pe h

theorem connectIdx_links_child (st1 : St) (cur cur2 : JStr) (pe0 : EInfo)
    (hcur : alGet st1 cur = some pe0) (hne : cur ≠ []) :
    ∃ pe2, alGet (IndexR.connectIdx st1 cur cur2) cur = some pe2
      ∧ cur2 ∈ pe2.children := by
  unfold IndexR.connectIdx
  rw [if_neg hne, hcur]
  show ∃ pe2, alGet (if cur2 ∈ pe0.children then st1
    else alPushChild st1 cur cur2) cur = some pe2 ∧ cur2 ∈ pe2.children
  by_cases hin : cur2 ∈ pe0.children
  · rw [if_pos hin]
    exact ⟨pe0, hcur, hin⟩
  · rw [if_neg hin, alPushChild_eq_alUpdate, alGet_alUpdate, if_pos rfl, hcur]
    exact ⟨_, rfl, List.mem_append_right _ (List.mem_singleton_self _)⟩

theorem connectIdx_isSome_iff (st1 : St) (cur cur2 p : JStr) :
    (alGet (IndexR.connectIdx st1 cur cur2) p).isSome
      = (alGet st1 p).isSome := by
  unfold IndexR.connectIdx
  by_cases hprev : cur = []
  · rw [if_pos hprev]
  · rw [if_neg hprev]
    cases hp : alGet st1 cur with
    | none => rfl
    | some pe0 =>
      show (alGet (if cur2 ∈ pe0.children then st1
        else alPushChild st1 cur cur2) p).isSome = _
      by_cases hin : cur2 ∈ pe0.children
      · rw [if_pos hin]
      · rw [if_neg hin, alPushChild_eq_alUpdate, alGet_isSome_alUpdate]

theorem walkIdx_link (c : GitChange) :
    ∀ (parts : List JStr) (st : St) (cur : JStr), LinkWF st →
      (∀ part ∈ parts, '/' ∉ part) →
      (cur = [] ∨ (alGet st cur).isSome) →
      LinkWF (IndexR.walkIdx c st parts cur) := by
  intro parts
  induction parts with
  | nil =>
    intro st cur h _ _
    exact h
  | cons part rest ih =>
    intro st cur h hparts hcur
    have hpart : '/' ∉ part := hparts part (List.mem_cons_self part rest)
    unfold IndexR.walkIdx
    dsimp only
    cases hg : alGet st (if cur = [] then part else cur ++ '/' :: part) with
    | some v =>
      refine ih _ _ ?_ (fun x hx => hparts x (List.mem_cons_of_mem part hx))
        (Or.inr (by rw [connectIdx_isSome_iff, hg]; rfl))
      intro p hp hslash
      rw [connectIdx_isSome_iff] at hp
      obtain ⟨pr, s, pe, hd, hs, hprne, hpe, hmem⟩ := h p hp hslash
      obtain ⟨pe2, hpe2, hmono⟩ := connectIdx_link st cur _ pr pe hpe
      exact ⟨pr, s, pe2, hd, hs, hprne, hpe2, hmono _ hmem⟩
    | none =>
      have hsome1 : alGet (st ++ [((if cur = [] then part
          else cur ++ '/' :: part), mkNode part rest.isEmpty c)])
          (if cur = [] then part else cur ++ '/' :: part)
          = some (mkNode part rest.isEmpty c) := by
        rw [alGet_append, hg, alGet_cons, if_pos rfl]
      refine ih _ _ ?_ (fun x hx => hparts x (List.mem_cons_of_mem part hx))
        (Or.inr (by rw [connectIdx_isSome_iff, hsome1]; rfl))
      intro p hp hslash
      rw [connectIdx_isSome_iff] at hp
      by_cases hpold : (alGet st p).isSome
      · obtain ⟨pr, s, pe, hd, hs, hprne, hpe, hmem⟩ := h p hpold hslash
        have hpe1 := alGet_append_of_some st ((if cur = [] then part
          else cur ++ '/' :: part), mkNode part rest.isEmpty c) pr pe hpe
        obtain ⟨pe2, hpe2, hmono⟩ := connectIdx_link _ cur
          (if cur = [] then part else cur ++ '/' :: part) pr pe hpe1
        exact ⟨pr, s, pe2, hd, hs, hprne, hpe2, hmono _ hmem⟩
      · rcases alGet_append_singleton_isSome st _ _ p hp with hps | hpc
        · exact absurd hps hpold
        · by_cases hprev : cur = []
          · exfalso
            rw [hpc, if_pos hprev] at hslash
            exact hpart hslash
          · have hcs : (alGet st cur).isSome := hcur.resolve_left hprev
            obtain ⟨pe0, hpe0⟩ := Option.isSome_iff_exists.mp hcs
            have hpe0a := alGet_append_of_some st ((if cur = [] then part
              else cur ++ '/' :: part), mkNode part rest.isEmpty c) cur pe0 hpe0
            obtain ⟨pe2, hpe2, hmem2⟩ := connectIdx_links_child _ cur
              (if cur = [] then part else cur ++ '/' :: part) pe0 hpe0a hprev
            refine ⟨cur, part, pe2, ?_, hpart, hprev, hpe2, ?_⟩
            · rw [hpc, if_neg hprev]
            · rw [hpc]
              exact hmem2

theorem stepIdx_link (st : St) (c : GitChange) (h : LinkWF st) :
    LinkWF (IndexR.stepIdx st c) := by
  unfold IndexR.stepIdx
  exact walkIdx_link c _ st [] h (slash_not_mem_splitOn c.file) (Or.inl rfl)

theorem foldIdx_link (changes : List GitChange) :
    LinkWF (changes.foldl IndexR.stepIdx []) := by
  have h : ∀ (l : List GitChange) (st : St), LinkWF st →
      LinkWF (l.foldl IndexR.stepIdx st) := by
    intro l
    induction l with
    | nil => intro st h; exact h
    | cons x xs ih => intro st h; exact ih (IndexR.stepIdx st x) (stepIdx_link st x h)
  refine h changes [] ?_
  intro p hp
  rw [alGet_nil] at hp
  cases hp

end LinkInv

section LinkInv3

theorem alGet_alUpdate_keep (m : St) (k : JStr) (g : EInfo → EInfo)
    (p : JStr) (hne : p ≠ k) :
    alGet (alUpdate m k g) p = alGet m p := by
  rw [alGet_alUpdate, if_neg hne]

theorem setChange_children (m : St) (k : JStr) (c : GitChange) (p : JStr)
    (pe : EInfo) (h : alGet m p = some pe) :
    ∃ pe2, alGet (alSetChange m k c) p = some pe2
      ∧ pe2.children = pe.children ∧ pe2.change.isSome = (p = k || pe.change.isSome) := by
  rw [alSetChange_eq_alUpdate]
  by_cases hp : p = k
  · subst hp
    rw [alGet_alUpdate, if_pos rfl, h]
    refine ⟨_, rfl, rfl, ?_⟩
    simp
  · rw [alGet_alUpdate, if_neg hp, h]
    refine ⟨pe, rfl, rfl, ?_⟩
    simp [hp]

theorem alPushChild_links (m : St) (k q : JStr) (pe : EInfo)
    (h : alGet m k = some pe) :
    alGet (alPushChild m k q) k
      = some { pe with children := pe.children ++ [q] } := by
  rw [alPushChild_eq_alUpdate, alGet_alUpdate, if_pos rfl, h]
  rfl

theorem walkP3_link (c : GitChange) :
    ∀ (parts : List JStr) (s : Part3.St3) (cur : JStr),
      (alGet s.entries []).isSome →
      (cur = [] ∨ (alGet s.entries cur).isSome) →
      (∀ part ∈ parts, '/' ∉ part ∧ part ≠ []) →
      LinkWF3 s.entries →
      LinkWF3 (Part3.walkP3 c s parts cur).entries := by
  intro parts
  induction parts with
  | nil =>
    intro s cur _ _ _ h
    exact h
  | cons part rest ih =>
    intro s cur h0 hcur hparts h
    obtain ⟨hpart, hpne⟩ := hparts part (List.mem_cons_self part rest)
    unfold Part3.walkP3
    dsimp only
    cases hg : alGet s.entries (if cur = [] then part else cur ++ '/' :: part) with
    | some v =>
      dsimp only
      by_cases hl : rest.isEmpty
      · rw [if_pos hl]
        obtain ⟨pe0, hpe0⟩ := Option.isSome_iff_exists.mp h0
        obtain ⟨pe0b, hpe0b, hch0, hcg0⟩ := setChange_children s.entries
          (if cur = [] then part else cur ++ '/' :: part) c [] pe0 hpe0
        obtain ⟨vb, hvb, hchv, hcgv⟩ := setChange_children s.entries
          (if cur = [] then part else cur ++ '/' :: part) c _ v hg
        refine ih _ _ ?_ ?_
          (fun x hx => hparts x (List.mem_cons_of_mem part hx)) ?_
        · rw [hpe0b]
          rfl
        · right
          rw [hvb]
          rfl
        · constructor
          · intro p hp hslash
            have hps : (alGet s.entries p).isSome := by
              rw [alSetChange_eq_alUpdate, alGet_isSome_alUpdate] at hp
              exact hp
            obtain ⟨pr, sseg, peP, hd, hs, hpeP, hmem⟩ := h.1 p hps hslash
            obtain ⟨peP2, hpeP2, hchP, hcgP⟩ := setChange_children s.entries
              (if cur = [] then part else cur ++ '/' :: part) c pr peP hpeP
            exact ⟨pr, sseg, peP2, hd, hs, hpeP2, by rw [hchP]; exact hmem⟩
          · intro p hp hslash hpn
            have hps : (alGet s.entries p).isSome := by
              rw [alSetChange_eq_alUpdate, alGet_isSome_alUpdate] at hp
              exact hp
            obtain ⟨peR, hpeR, hmem⟩ := h.2 p hps hslash hpn
            obtain ⟨peR2, hpeR2, hchR, hcgR⟩ := setChange_children s.entries
              (if cur = [] then part else cur ++ '/' :: part) c [] peR hpeR
            exact ⟨peR2, hpeR2, by rw [hchR]; exact hmem⟩
      · rw [if_neg hl]
        exact ih s _ h0 (Or.inr (by rw [hg]; rfl))
          (fun x hx => hparts x (List.mem_cons_of_mem part hx)) h
    | none =>
      dsimp only
      by_cases hprev : cur = []
      · rw [if_pos hprev] at hg ⊢
        obtain ⟨pe0, hpe0⟩ := Option.isSome_iff_exists.mp h0
        have hpe0a : alGet (s.entries ++ [(part, mkNode part rest.isEmpty c)]) []
            = some pe0 := alGet_append_of_some _ _ [] pe0 hpe0
        have hcura : alGet (s.entries ++ [(part, mkNode part rest.isEmpty c)]) cur
            = some pe0 := by
          rw [hprev]
          exact hpe0a
        unfold Part3.attachP3
        rw [hcura]
        dsimp only
        have hpush := alPushChild_links
          (s.entries ++ [(part, mkNode part rest.isEmpty c)]) cur part pe0 hcura
        have hpush0 : alGet (alPushChild (s.entries
            ++ [(part, mkNode part rest.isEmpty c)]) cur part) []
            = some { pe0 with children := pe0.children ++ [part] } := by
          rw [← hprev]
          exact hpush
        have hparta : alGet (s.entries ++ [(part, mkNode part rest.isEmpty c)])
            part = some (mkNode part rest.isEmpty c) := by
          rw [alGet_append, hg, alGet_cons, if_pos rfl]
        have hpartb : (alGet (alPushChild (s.entries
            ++ [(part, mkNode part rest.isEmpty c)]) cur part) part).isSome := by
          rw [alPushChild_eq_alUpdate, alGet_isSome_alUpdate, hparta]
          rfl
        refine ih _ _ ?_ (Or.inr hpartb)
          (fun x hx => hparts x (List.mem_cons_of_mem part hx)) ?_
        · rw [hpush0]
          rfl
        · constructor
          · intro p hp hslash
            rw [alPushChild_eq_alUpdate, alGet_isSome_alUpdate] at hp
            rcases alGet_append_singleton_isSome _ _ _ p hp with hps | hpc
            · obtain ⟨pr, sseg, peP, hd, hs, hpeP, hmem⟩ := h.1 p hps hslash
              obtain ⟨peP2, hpeP2, hmono⟩ := alGet_alUpdate_mono _ cur _
                (fun w => push_children_mono w part) pr peP
                (alGet_append_of_some _ _ pr peP hpeP)
              rw [← alPushChild_eq_alUpdate] at hpeP2
              exact ⟨pr, sseg, peP2, hd, hs, hpeP2, hmono _ hmem⟩
            · exfalso
              rw [hpc] at hslash
              exact hpart hslash
          · intro p hp hslash hpn
            rw [alPushChild_eq_alUpdate, alGet_isSome_alUpdate] at hp
            rcases alGet_append_singleton_isSome _ _ _ p hp with hps | hpc
            · obtain ⟨peR, hpeR, hmem⟩ := h.2 p hps hslash hpn
              obtain ⟨peR2, hpeR2, hmono⟩ := alGet_alUpdate_mono _ cur _
                (fun w => push_children_mono w part) [] peR
                (alGet_append_of_some _ _ [] peR hpeR)
              rw [← alPushChild_eq_alUpdate] at hpeR2
              exact ⟨peR2, hpeR2, hmono _ hmem⟩
            · refine ⟨{ pe0 with children := pe0.children ++ [part] }, hpush0, ?_⟩
              rw [hpc]
              exact List.mem_append_right _ (List.mem_singleton_self _)
      · rw [if_neg hprev] at hg ⊢
        have hcs : (alGet s.entries cur).isSome := hcur.resolve_left hprev
        obtain ⟨pe0, hpe0⟩ := Option.isSome_iff_exists.mp hcs
        have hcura : alGet (s.entries
            ++ [(cur ++ '/' :: part, mkNode part rest.isEmpty c)]) cur
            = some pe0 := alGet_append_of_some _ _ cur pe0 hpe0
        unfold Part3.attachP3
        rw [hcura]
        dsimp only
        have hpush := alPushChild_links (s.entries
          ++ [(cur ++ '/' :: part, mkNode part rest.isEmpty c)]) cur
          (cur ++ '/' :: part) pe0 hcura
        have hparta : alGet (s.entries
            ++ [(cur ++ '/' :: part, mkNode part rest.isEmpty c)])
            (cur ++ '/' :: part) = some (mkNode part rest.isEmpty c) := by
          rw [alGet_append, hg, alGet_cons, if_pos rfl]
        have hpartb : (alGet (alPushChild (s.entries
            ++ [(cur ++ '/' :: part, mkNode part rest.isEmpty c)]) cur
            (cur ++ '/' :: part)) (cur ++ '/' :: part)).isSome := by
          rw [alPushChild_eq_alUpdate, alGet_isSome_alUpdate, hparta]
          rfl
        have h0b : (alGet (alPushChild (s.entries
            ++ [(cur ++ '/' :: part, mkNode part rest.isEmpty c)]) cur
            (cur ++ '/' :: part)) []).isSome := by
          rw [alPushChild_eq_alUpdate, alGet_isSome_alUpdate]
          exact alGet_isSome_append _ _ [] h0
        refine ih _ _ h0b (Or.inr hpartb)
          (fun x hx => hparts x (List.mem_cons_of_mem part hx)) ?_
        constructor
        · intro p hp hslash
          rw [alPushChild_eq_alUpdate, alGet_isSome_alUpdate] at hp
          rcases alGet_append_singleton_isSome _ _ _ p hp with hps | hpc
          · obtain ⟨pr, sseg, peP, hd, hs, hpeP, hmem⟩ := h.1 p hps hslash
            obtain ⟨peP2, hpeP2, hmono⟩ := alGet_alUpdate_mono _ cur _
              (fun w => push_children_mono w (cur ++ '/' :: part)) pr peP
              (alGet_append_of_some _ _ pr peP hpeP)
            rw [← alPushChild_eq_alUpdate] at hpeP2
            exact ⟨pr, sseg, peP2, hd, hs, hpeP2, hmono _ hmem⟩
          · refine ⟨cur, part, { pe0 with children :=
              pe0.children ++ [cur ++ '/' :: part] }, hpc, hpart, hpush, ?_⟩
            rw [hpc]
            exact List.mem_append_right _ (List.mem_singleton_self _)
        · intro p hp hslash hpn
          rw [alPushChild_eq_alUpdate, alGet_isSome_alUpdate] at hp
          rcases alGet_append_singleton_isSome _ _ _ p hp with hps | hpc
          · obtain ⟨peR, hpeR, hmem⟩ := h.2 p hps hslash hpn
            obtain ⟨peR2, hpeR2, hmono⟩ := alGet_alUpdate_mono _ cur _
              (fun w => push_children_mono w (cur ++ '/' :: part)) [] peR
              (alGet_append_of_some _ _ [] peR hpeR)
            rw [← alPushChild_eq_alUpdate] at hpeR2
            exact ⟨peR2, hpeR2, hmono _ hmem⟩
          · exfalso
            rw [hpc] at hslash
            exact hslash (List.mem_append_right _ (List.mem_cons_self _ _))

theorem stepP3_link (s : Part3.St3) (c : GitChange)
    (h0 : (alGet s.entries []).isSome) (h : LinkWF3 s.entries) :
    LinkWF3 (Part3.stepP3 s c).entries := by
  unfold Part3.stepP3
  dsimp only
  split
  · exact h
  · apply walkP3_link c _ s [] h0 (Or.inl rfl) ?_ h
    intro x hx
    rcases List.mem_filter.mp hx with ⟨hm, hlen⟩
    refine ⟨slash_not_mem_splitOn _ x hm, ?_⟩
    intro he
    rw [he] at hlen
    simp at hlen

theorem foldP3_link (changes : List GitChange) :
    LinkWF3 ((changes.take 50).foldl Part3.stepP3 Part3.st3Init).entries := by
  have h : ∀ (l : List GitChange) (s : Part3.St3),
      (alGet s.entries []).isSome → s.rootArr = [] → LinkWF3 s.entries →
      LinkWF3 ((l.foldl Part3.stepP3 s).entries) := by
    intro l
    induction l with
    | nil => intro s _ _ h; exact h
    | cons x xs ih =>
      intro s h0 hra h
      obtain ⟨hra2, h02⟩ := stepP3_root s x h0
      exact ih (Part3.stepP3 s x) h02 (hra2.trans hra) (stepP3_link s x h0 h)
  apply h (changes.take 50) Part3.st3Init ?_ rfl ?_
  · rw [Part3.st3Init, alGet_cons, if_pos rfl]
    rfl
  · constructor
    · intro p hp hslash
      rw [Part3.st3Init, alGet_cons] at hp
      by_cases hq : ([] : JStr) = p
      · exfalso
        rw [← hq] at hslash
        cases hslash
      · rw [if_neg hq, alGet_nil] at hp
        cases hp
    · intro p hp hslash hpn
      rw [Part3.st3Init, alGet_cons] at hp
      by_cases hq : ([] : JStr) = p
      · exact absurd hq.symm hpn
      · rw [if_neg hq, alGet_nil] at hp
        cases hp

end LinkInv3

section WalkSpec

theorem chain_cur2_ne (part : JStr) (rest : List JStr) (cur : JStr)
    (hok : okStart (part :: rest) cur) (hrest : rest ≠ []) :
    (if cur = [] then part else cur ++ '/' :: part) ≠ [] := by
  rcases hok with hok | hok
  · rw [if_neg hok]
    intro he
    have := congrArg List.length he
    rw [List.length_append, List.length_cons] at this
    simp at this
  · by_cases hcur : cur = []
    · rw [if_pos hcur]
      exact hok part rest rfl hrest
    · rw [if_neg hcur]
      intro he
      have := congrArg List.length he
      rw [List.length_append, List.length_cons] at this
      simp at this

theorem okStart_rest (part : JStr) (rest : List JStr) (cur : JStr)
    (hok : okStart (part :: rest) cur) :
    okStart rest (if cur = [] then part else cur ++ '/' :: part) := by
  cases rest with
  | nil =>
    right
    intro h t heq _
    cases heq
  | cons a b =>
    exact Or.inl (chain_cur2_ne part (a :: b) cur hok (by intro h; cases h))

theorem lastSeg_cur2 (part : JStr) (cur : JStr) (hpart : '/' ∉ part) :
    lastSeg (if cur = [] then part else cur ++ '/' :: part) = part := by
  by_cases hcur : cur = []
  · rw [if_pos hcur]
    exact lastSeg_no_slash part hpart
  · rw [if_neg hcur]
    exact lastSeg_append cur part hpart

theorem alGet_alUpdate_fields (m : St) (k : JStr) (g : EInfo → EInfo)
    (hg : ∀ v, (g v).name = v.name ∧ (g v).isDirectory = v.isDirectory
      ∧ (g v).change = v.change)
    (p : JStr) (pe : EInfo) (h : alGet m p = some pe) :
    ∃ pe2, alGet (alUpdate m k g) p = some pe2
      ∧ pe2.name = pe.name ∧ pe2.isDirectory = pe.isDirectory
      ∧ pe2.change = pe.change := by
  by_cases hp : p = k
  · subst hp
    rw [alGet_alUpdate, if_pos rfl, h]
    exact ⟨g pe, rfl, (hg pe).1, (hg pe).2.1, (hg pe).2.2⟩
  · rw [alGet_alUpdate, if_neg hp, h]
    exact ⟨pe, rfl, rfl, rfl, rfl⟩

theorem connectIdx_fields (st1 : St) (cur cur2 p : JStr) (pe : EInfo)
    (h : alGet st1 p = some pe) :
    ∃ pe2, alGet (IndexR.connectIdx st1 cur cur2) p = some pe2
      ∧ pe2.name = pe.name ∧ pe2.isDirectory = pe.isDirectory
      ∧ pe2.change = pe.change := by
  unfold IndexR.connectIdx
  by_cases hprev : cur = []
  · rw [if_pos hprev]
    exact ⟨pe, h, rfl, rfl, rfl⟩
  · rw [if_neg hprev]
    cases hp : alGet st1 cur with
    | none => exact ⟨pe, h, rfl, rfl, rfl⟩
    | some pe0 =>
      show ∃ pe2, alGet (if cur2 ∈ pe0.children then st1
        else alPushChild st1 cur cur2) p = some pe2 ∧ _
      by_cases hin : cur2 ∈ pe0.children
      · rw [if_pos hin]
        exact ⟨pe, h, rfl, rfl, rfl⟩
      · rw [if_neg hin, alPushChild_eq_alUpdate]
        exact alGet_alUpdate_fields st1 cur
          (fun v => { v with children := v.children ++ [cur2] })
          (fun v => ⟨rfl, rfl, rfl⟩) p pe h

theorem walkIdx_spec (c : GitChange) :
    ∀ (parts : List JStr) (st : St) (cur : JStr),
      (∀ part ∈ parts, '/' ∉ part) → okStart parts cur →
      (cur = [] ∨ (alGet st cur).isSome) →
      ((∀ p, (alGet (IndexR.walkIdx c st parts cur) p).isSome
          ↔ ((alGet st p).isSome ∨ p ∈ cums parts cur))
        ∧ (∀ p e e2, alGet st p = some e
            → alGet (IndexR.walkIdx c st parts cur) p = some e2 →
            e2.name = e.name ∧ e2.isDirectory = e.isDirectory
              ∧ e2.change = e.change)
        ∧ (∀ p e2, alGet st p = none
            → alGet (IndexR.walkIdx c st parts cur) p = some e2 →
            e2.name = lastSeg p
            ∧ (p ∈ propCums parts cur → e2.isDirectory = true ∧ e2.change = none)
            ∧ (p = finCum parts cur ∧ parts ≠ [] →
                e2.isDirectory = false ∧ e2.change = some c))) := by
  intro parts
  induction parts with
  | nil =>
    intro st cur _ _ _
    refine ⟨?_, ?_, ?_⟩
    · intro p
      rw [cums]
      simp [IndexR.walkIdx]
    · intro p e e2 h1 h2
      rw [IndexR.walkIdx] at h2
      rw [h1] at h2
      rw [← Option.some.inj h2]
      exact ⟨rfl, rfl, rfl⟩
    · intro p e2 h1 h2
      rw [IndexR.walkIdx] at h2
      rw [h1] at h2
      cases h2
  | cons part rest ih =>
    intro st cur hparts hok hcur
    have hpart : '/' ∉ part := hparts part (List.mem_cons_self part rest)
    have hok2 := okStart_rest part rest cur hok
    unfold IndexR.walkIdx
    dsimp only
    cases hg : alGet st (if cur = [] then part else cur ++ '/' :: part) with
    | some v =>
      have hcur2 : (alGet (IndexR.connectIdx st cur (if cur = [] then part
          else cur ++ '/' :: part)) (if cur = [] then part
          else cur ++ '/' :: part)).isSome := by
        rw [connectIdx_isSome_iff, hg]
        rfl
      obtain ⟨hW1, hW2, hW3⟩ := ih (IndexR.connectIdx st cur _) _
        (fun x hx => hparts x (List.mem_cons_of_mem part hx)) hok2 (Or.inr hcur2)
      have hk2 : ∀ p, (alGet (IndexR.connectIdx st cur (if cur = [] then part
          else cur ++ '/' :: part)) p).isSome ↔ (alGet st p).isSome := by
        intro p
        rw [connectIdx_isSome_iff]
      refine ⟨?_, ?_, ?_⟩
      · intro p
        rw [hW1 p, hk2 p, cums]
        constructor
        · rintro (hp | hp)
          · exact Or.inl hp
          · exact Or.inr (List.mem_cons_of_mem _ hp)
        · rintro (hp | hp)
          · exact Or.inl hp
          · rcases List.mem_cons.mp hp with hp | hp
            · subst hp
              rw [hg]
              exact Or.inl rfl
            · exact Or.inr hp
      · intro p e e2 h1 h2
        obtain ⟨e1, he1, hn1, hd1, hc1⟩ := connectIdx_fields st cur _ p e h1
        obtain ⟨hn2, hd2, hc2⟩ := hW2 p e1 e2 he1 h2
        exact ⟨hn2.trans hn1, hd2.trans hd1, hc2.trans hc1⟩
      · intro p e2 h1 h2
        have hpne2 : p ≠ (if cur = [] then part else cur ++ '/' :: part) := by
          intro he
          rw [he, hg] at h1
          cases h1
        have h1b : alGet (IndexR.connectIdx st cur (if cur = [] then part
            else cur ++ '/' :: part)) p = none := by
          rw [← Option.not_isSome_iff_eq_none, hk2 p, Option.not_isSome_iff_eq_none]
          exact h1
        obtain ⟨hn3, hp3, hf3⟩ := hW3 p e2 h1b h2
        refine ⟨hn3, ?_, ?_⟩
        · intro hmem
          rw [propCums] at hmem
          cases rest with
          | nil => simp [List.isEmpty] at hmem
          | cons a b =>
            rw [if_neg (by intro h; simp [List.isEmpty] at h)] at hmem
            rcases List.mem_cons.mp hmem with hmem | hmem
            · exact absurd hmem hpne2
            · exact hp3 hmem
        · rintro ⟨hfin, -⟩
          rw [finCum] at hfin
          cases rest with
          | nil =>
            exfalso
            rw [finCum] at hfin
            exact hpne2 hfin
          | cons a b =>
            exact hf3 ⟨hfin, by intro h; cases h⟩
    | none =>
      have hsome1 : alGet (st ++ [((if cur = [] then part
          else cur ++ '/' :: part), mkNode part rest.isEmpty c)])
          (if cur = [] then part else cur ++ '/' :: part)
          = some (mkNode part rest.isEmpty c) := by
        rw [alGet_append, hg, alGet_cons, if_pos rfl]
      have hcur2 : (alGet (IndexR.connectIdx (st ++ [((if cur = [] then part
          else cur ++ '/' :: part), mkNode part rest.isEmpty c)]) cur
          (if cur = [] then part else cur ++ '/' :: part))
          (if cur = [] then part else cur ++ '/' :: part)).isSome := by
        rw [connectIdx_isSome_iff, hsome1]
        rfl
      obtain ⟨hW1, hW2, hW3⟩ := ih (IndexR.connectIdx _ cur _) _
        (fun x hx => hparts x (List.mem_cons_of_mem part hx)) hok2 (Or.inr hcur2)
      have hk2 : ∀ p, (alGet (IndexR.connectIdx (st ++ [((if cur = [] then part
          else cur ++ '/' :: part), mkNode part rest.isEmpty c)]) cur
          (if cur = [] then part else cur ++ '/' :: part)) p).isSome
          ↔ ((alGet st p).isSome
            ∨ p = (if cur = [] then part else cur ++ '/' :: part)) := by
        intro p
        rw [connectIdx_isSome_iff]
        constructor
        · intro hp
          exact alGet_append_singleton_isSome st _ _ p hp
        · rintro (hp | hp)
          · exact alGet_isSome_append st _ p hp
          · subst hp
            rw [hsome1]
            rfl
      have hnew2 : ∃ pe2, alGet (IndexR.connectIdx (st ++ [((if cur = [] then part
          else cur ++ '/' :: part), mkNode part rest.isEmpty c)]) cur
          (if cur = [] then part else cur ++ '/' :: part))
          (if cur = [] then part else cur ++ '/' :: part) = some pe2
          ∧ pe2.name = part ∧ pe2.isDirectory = !rest.isEmpty
          ∧ pe2.change = (if rest.isEmpty then some c else none) := by
        obtain ⟨pe2, hpe2, hn, hd, hc⟩ := connectIdx_fields _ cur _ _ _ hsome1
        exact ⟨pe2, hpe2, hn, hd, hc⟩
      refine ⟨?_, ?_, ?_⟩
      · intro p
        rw [hW1 p, hk2 p, cums]
        constructor
        · rintro ((hp | hp) | hp)
          · exact Or.inl hp
          · exact Or.inr (hp ▸ List.mem_cons_self _ _)
          · exact Or.inr (List.mem_cons_of_mem _ hp)
        · rintro (hp | hp)
          · exact Or.inl (Or.inl hp)
          · rcases List.mem_cons.mp hp with hp | hp
            · exact Or.inl (Or.inr hp)
            · exact Or.inr hp
      · intro p e e2 h1 h2
        have h1a := alGet_append_of_some st ((if cur = [] then part
          else cur ++ '/' :: part), mkNode part rest.isEmpty c) p e h1
        obtain ⟨e1, he1, hn1, hd1, hc1⟩ := connectIdx_fields _ cur _ p e h1a
        obtain ⟨hn2, hd2, hc2⟩ := hW2 p e1 e2 he1 h2
        exact ⟨hn2.trans hn1, hd2.trans hd1, hc2.trans hc1⟩
      · intro p e2 h1 h2
        by_cases hpc2 : p = (if cur = [] then part else cur ++ '/' :: part)
        · subst hpc2
          obtain ⟨pe2, hpe2, hn, hd, hc⟩ := hnew2
          obtain ⟨hn2, hd2, hc2⟩ := hW2 _ pe2 e2 hpe2 h2
          refine ⟨?_, ?_, ?_⟩
          · rw [hn2, hn]
            exact (lastSeg_cur2 part cur hpart).symm
          · intro hmem
            have hrest : rest ≠ [] := by
              intro he
              subst he
              rw [propCums] at hmem
              simp [List.isEmpty] at hmem
            have hre : rest.isEmpty = false := by
              cases rest with
              | nil => exact absurd rfl hrest
              | cons a b => rfl
            constructor
            · rw [hd2, hd, hre]
              rfl
            · rw [hc2, hc, hre]
              rfl
          · rintro ⟨hfin, -⟩
            rw [finCum] at hfin
            cases rest with
            | nil =>
              rw [finCum] at hfin
              constructor
              · rw [hd2, hd]
                rfl
              · rw [hc2, hc]
                rfl
            | cons a b =>
              exfalso
              have hc2ne := chain_cur2_ne part (a :: b) cur hok
                (by intro h; cases h)
              have hmemf : finCum (a :: b) (if cur = [] then part
                  else cur ++ '/' :: part) ∈ cums (a :: b)
                  (if cur = [] then part else cur ++ '/' :: part) :=
                finCum_mem _ _ (by intro h; cases h)
              rw [← hfin] at hmemf
              have := cums_len_gt' (a :: b) _ hc2ne _ hmemf
              omega
        · have h1b : alGet (IndexR.connectIdx (st ++ [((if cur = [] then part
              else cur ++ '/' :: part), mkNode part rest.isEmpty c)]) cur
              (if cur = [] then part else cur ++ '/' :: part)) p = none := by
            rw [← Option.not_isSome_iff_eq_none, hk2 p]
            rintro (hp | hp)
            · rw [h1] at hp
              cases hp
            · exact hpc2 hp
          obtain ⟨hn3, hp3, hf3⟩ := hW3 p e2 h1b h2
          refine ⟨hn3, ?_, ?_⟩
          · intro hmem
            rw [propCums] at hmem
            cases rest with
            | nil => simp [List.isEmpty] at hmem
            | cons a b =>
              rw [if_neg (by intro h; simp [List.isEmpty] at h)] at hmem
              rcases List.mem_cons.mp hmem with hmem | hmem
              · exact absurd hmem hpc2
              · exact hp3 hmem
          · rintro ⟨hfin, -⟩
            rw [finCum] at hfin
            cases rest with
            | nil =>
              exfalso
              rw [finCum] at hfin
              exact hpc2 hfin
            | cons a b =>
              exact hf3 ⟨hfin, by intro h; cases h⟩

end WalkSpec

section WalkSpec3

theorem cur2_ne_nil_of_part (part cur : JStr) (hpne : part ≠ []) :
    (if cur = [] then part else cur ++ '/' :: part) ≠ [] := by
  by_cases hcur : cur = []
  · rw [if_pos hcur]
    exact hpne
  · rw [if_neg hcur]
    intro he
    have := congrArg List.length he
    rw [List.length_append, List.length_cons] at this
    simp at this

theorem okStart_of_parts (parts : List JStr) (cur : JStr)
    (hparts : ∀ part ∈ parts, part ≠ []) : okStart parts cur := by
  right
  intro h t heq _
  exact hparts h (heq ▸ List.mem_cons_self h t)

theorem walkP3_spec (c : GitChange) :
    ∀ (parts : List JStr) (s : Part3.St3) (cur : JStr),
      (∀ part ∈ parts, '/' ∉ part ∧ part ≠ []) →
      (alGet s.entries []).isSome →
      (cur = [] ∨ (alGet s.entries cur).isSome) →
      ((∀ p, (alGet (Part3.walkP3 c s parts cur).entries p).isSome
          ↔ ((alGet s.entries p).isSome ∨ p ∈ cums parts cur))
        ∧ (∀ p e e2, alGet s.entries p = some e
            → alGet (Part3.walkP3 c s parts cur).entries p = some e2 →
            e2.name = e.name ∧ e2.isDirectory = e.isDirectory
              ∧ ((p = finCum parts cur ∧ parts ≠ []) → e2.change = some c)
              ∧ (¬ (p = finCum parts cur ∧ parts ≠ []) → e2.change = e.change))
        ∧ (∀ p e2, alGet s.entries p = none
            → alGet (Part3.walkP3 c s parts cur).entries p = some e2 →
            e2.name = lastSeg p
            ∧ (p ∈ propCums parts cur → e2.isDirectory = true ∧ e2.change = none)
            ∧ (p = finCum parts cur ∧ parts ≠ [] →
                e2.isDirectory = false ∧ e2.change = some c))) := by
  intro parts
  induction parts with
  | nil =>
    intro s cur _ _ _
    refine ⟨?_, ?_, ?_⟩
    · intro p
      rw [cums]
      simp [Part3.walkP3]
    · intro p e e2 h1 h2
      rw [Part3.walkP3] at h2
      rw [h1] at h2
      rw [← Option.some.inj h2]
      refine ⟨rfl, rfl, ?_, fun _ => rfl⟩
      rintro ⟨-, hne⟩
      exact absurd rfl hne
    · intro p e2 h1 h2
      rw [Part3.walkP3] at h2
      rw [h1] at h2
      cases h2
  | cons part rest ih =>
    intro s cur hparts h0 hcur
    obtain ⟨hpart, hpne⟩ := hparts part (List.mem_cons_self part rest)
    have hc2ne := cur2_ne_nil_of_part part cur hpne
    unfold Part3.walkP3
    dsimp only
    cases hg : alGet s.entries (if cur = [] then part else cur ++ '/' :: part) with
    | some v =>
      dsimp only
      by_cases hl : rest.isEmpty
      · rw [if_pos hl]
        have hrnil : rest = [] := by
          cases rest with
          | nil => rfl
          | cons a b => cases hl
        subst hrnil
        have hkeep := fun (p : JStr) (pe : EInfo)
            (h : alGet s.entries p = some pe) => setChange_children s.entries
          (if cur = [] then part else cur ++ '/' :: part) c p pe h
        refine ⟨?_, ?_, ?_⟩
        · intro p
          rw [Part3.walkP3]
          dsimp only
          rw [alSetChange_eq_alUpdate, alGet_isSome_alUpdate, cums, cums]
          constructor
          · intro hp
            exact Or.inl hp
          · rintro (hp | hp)
            · exact hp
            · rcases List.mem_cons.mp hp with hp | hp
              · subst hp
                rw [hg]
                rfl
              · cases hp
        · intro p e e2 h1 h2
          rw [Part3.walkP3] at h2
          dsimp only at h2
          rw [alSetChange_eq_alUpdate] at h2
          by_cases hp : p = (if cur = [] then part else cur ++ '/' :: part)
          · subst hp
            rw [alGet_alUpdate, if_pos rfl, h1] at h2
            have he2 : e2 = { e with change := some c } := (Option.some.inj h2).symm
            refine ⟨by rw [he2], by rw [he2], ?_, ?_⟩
            · intro _
              rw [he2]
            · intro hnot
              exfalso
              apply hnot
              rw [finCum, finCum]
              exact ⟨rfl, by intro h3; cases h3⟩
          · rw [alGet_alUpdate, if_neg hp, h1] at h2
            have he2 : e2 = e := (Option.some.inj h2).symm
            refine ⟨by rw [he2], by rw [he2], ?_, fun _ => by rw [he2]⟩
            rintro ⟨hfin, -⟩
            exfalso
            rw [finCum, finCum] at hfin
            exact hp hfin
        · intro p e2 h1 h2
          rw [Part3.walkP3] at h2
          dsimp only at h2
          rw [alSetChange_eq_alUpdate, alGet_alUpdate] at h2
          by_cases hp : p = (if cur = [] then part else cur ++ '/' :: part)
          · rw [if_pos hp] at h2
            rw [hp, hg] at h1
            cases h1
          · rw [if_neg hp, h1] at h2
            cases h2
      · rw [if_neg hl]
        have hrne : rest ≠ [] := by
          cases rest with
          | nil => exact absurd rfl hl
          | cons a b => intro h3; cases h3
        obtain ⟨hW1, hW2, hW3⟩ := ih s _
          (fun x hx => hparts x (List.mem_cons_of_mem part hx)) h0
          (Or.inr (by rw [hg]; rfl))
        refine ⟨?_, ?_, ?_⟩
        · intro p
          rw [hW1 p, cums]
          constructor
          · rintro (hp | hp)
            · exact Or.inl hp
            · exact Or.inr (List.mem_cons_of_mem _ hp)
          · rintro (hp | hp)
            · exact Or.inl hp
            · rcases List.mem_cons.mp hp with hp | hp
              · subst hp
                rw [hg]
                exact Or.inl rfl
              · exact Or.inr hp
        · intro p e e2 h1 h2
          obtain ⟨hn, hd, hcf, hcn⟩ := hW2 p e e2 h1 h2
          refine ⟨hn, hd, ?_, ?_⟩
          · rintro ⟨hfin, -⟩
            rw [finCum] at hfin
            exact hcf ⟨hfin, hrne⟩
          · intro hnot
            apply hcn
            rintro ⟨hfin, -⟩
            apply hnot
            rw [finCum]
            exact ⟨hfin, by intro h3; cases h3⟩
        · intro p e2 h1 h2
          have hpne2 : p ≠ (if cur = [] then part else cur ++ '/' :: part) := by
            intro he
            rw [he, hg] at h1
            cases h1
          obtain ⟨hn3, hp3, hf3⟩ := hW3 p e2 h1 h2
          refine ⟨hn3, ?_, ?_⟩
          · intro hmem
            rw [propCums] at hmem
            rw [if_neg (by
              cases rest with
              | nil => exact absurd rfl hrne
              | cons a b => intro h3; simp [List.isEmpty] at h3)] at hmem
            rcases List.mem_cons.mp hmem with hmem | hmem
            · exact absurd hmem hpne2
            · exact hp3 hmem
          · rintro ⟨hfin, -⟩
            rw [finCum] at hfin
            exact hf3 ⟨hfin, hrne⟩
    | none =>
      dsimp only
      have hcs : (alGet (s.entries ++ [((if cur = [] then part
          else cur ++ '/' :: part), mkNode part rest.isEmpty c)]) cur).isSome := by
        rcases hcur with hcur | hcur
        · rw [hcur]
          exact alGet_isSome_append _ _ [] h0
        · exact alGet_isSome_append _ _ cur hcur
      obtain ⟨pv, hpv⟩ := Option.isSome_iff_exists.mp hcs
      unfold Part3.attachP3
      rw [hpv]
      dsimp only
      have hpushK : ∀ p, (alGet (alPushChild (s.entries ++ [((if cur = [] then part
          else cur ++ '/' :: part), mkNode part rest.isEmpty c)]) cur
          (if cur = [] then part else cur ++ '/' :: part)) p).isSome
          ↔ ((alGet s.entries p).isSome
            ∨ p = (if cur = [] then part else cur ++ '/' :: part)) := by
        intro p
        rw [alPushChild_eq_alUpdate, alGet_isSome_alUpdate]
        constructor
        · intro hp
          exact alGet_append_singleton_isSome _ _ _ p hp
        · rintro (hp | hp)
          · exact alGet_isSome_append _ _ p hp
          · subst hp
            rw [alGet_append, hg, alGet_cons, if_pos rfl]
            rfl
      have hpushF : ∀ p pe, alGet (s.entries ++ [((if cur = [] then part
          else cur ++ '/' :: part), mkNode part rest.isEmpty c)]) p = some pe →
          ∃ pe2, alGet (alPushChild (s.entries ++ [((if cur = [] then part
            else cur ++ '/' :: part), mkNode part rest.isEmpty c)]) cur
            (if cur = [] then part else cur ++ '/' :: part)) p = some pe2
            ∧ pe2.name = pe.name ∧ pe2.isDirectory = pe.isDirectory
            ∧ pe2.change = pe.change := by
        intro p pe hpe
        rw [alPushChild_eq_alUpdate]
        exact alGet_alUpdate_fields _ cur
          (fun w => { w with children := w.children
            ++ [(if cur = [] then part else cur ++ '/' :: part)] })
          (fun w => ⟨rfl, rfl, rfl⟩) p pe hpe
      have hnewE : alGet (s.entries ++ [((if cur = [] then part
          else cur ++ '/' :: part), mkNode part rest.isEmpty c)])
          (if cur = [] then part else cur ++ '/' :: part)
          = some (mkNode part rest.isEmpty c) := by
        rw [alGet_append, hg, alGet_cons, if_pos rfl]
      have h0b : (alGet (alPushChild (s.entries ++ [((if cur = [] then part
          else cur ++ '/' :: part), mkNode part rest.isEmpty c)]) cur
          (if cur = [] then part else cur ++ '/' :: part)) []).isSome := by
        rw [alPushChild_eq_alUpdate, alGet_isSome_alUpdate]
        exact alGet_isSome_append _ _ [] h0
      have hc2b : (alGet (alPushChild (s.entries ++ [((if cur = [] then part
          else cur ++ '/' :: part), mkNode part rest.isEmpty c)]) cur
          (if cur = [] then part else cur ++ '/' :: part))
          (if cur = [] then part else cur ++ '/' :: part)).isSome := by
        rw [hpushK]
        exact Or.inr rfl
      obtain ⟨hW1, hW2, hW3⟩ := ih ⟨alPushChild (s.entries
          ++ [((if cur = [] then part else cur ++ '/' :: part),
            mkNode part rest.isEmpty c)]) cur
          (if cur = [] then part else cur ++ '/' :: part), s.rootArr⟩ _
        (fun x hx => hparts x (List.mem_cons_of_mem part hx)) h0b (Or.inr hc2b)
      refine ⟨?_, ?_, ?_⟩
      · intro p
        rw [hW1 p, cums]
        dsimp only
        rw [hpushK p]
        constructor
        · rintro ((hp | hp) | hp)
          · exact Or.inl hp
          · exact Or.inr (hp ▸ List.mem_cons_self _ _)
          · exact Or.inr (List.mem_cons_of_mem _ hp)
        · rintro (hp | hp)
          · exact Or.inl (Or.inl hp)
          · rcases List.mem_cons.mp hp with hp | hp
            · exact Or.inl (Or.inr hp)
            · exact Or.inr hp
      · intro p e e2 h1 h2
        have hpne2 : p ≠ (if cur = [] then part else cur ++ '/' :: part) := by
          intro he
          rw [he, hg] at h1
          cases h1
        obtain ⟨e1, he1, hn1, hd1, hc1⟩ := hpushF p e
          (alGet_append_of_some _ _ p e h1)
        obtain ⟨hn2, hd2, hcf2, hcn2⟩ := hW2 p e1 e2 he1 h2
        refine ⟨hn2.trans hn1, hd2.trans hd1, ?_, ?_⟩
        · rintro ⟨hfin, -⟩
          rw [finCum] at hfin
          cases rest with
          | nil =>
            exfalso
            rw [finCum] at hfin
            exact hpne2 hfin
          | cons a b =>
            exact hcf2 ⟨hfin, by intro h3; cases h3⟩
        · intro hnot
          have : e2.change = e1.change := by
            apply hcn2
            rintro ⟨hfin, hne⟩
            apply hnot
            rw [finCum]
            refine ⟨?_, by intro h3; cases h3⟩
            cases rest with
            | nil => exact absurd rfl hne
            | cons a b => exact hfin
          exact this.trans hc1
      · intro p e2 h1 h2
        by_cases hpc2 : p = (if cur = [] then part else cur ++ '/' :: part)
        · subst hpc2
          obtain ⟨pe1, hpe1, hn1, hd1, hc1⟩ := hpushF _ _ hnewE
          obtain ⟨hn2, hd2, hcf2, hcn2⟩ := hW2 _ pe1 e2 hpe1 h2
          have hchg : e2.change = pe1.change := by
            apply hcn2
            rintro ⟨hfin, hne⟩
            cases rest with
            | nil => exact absurd rfl hne
            | cons a b =>
              have hmemf : finCum (a :: b) (if cur = [] then part
                  else cur ++ '/' :: part) ∈ cums (a :: b)
                  (if cur = [] then part else cur ++ '/' :: part) :=
                finCum_mem _ _ (by intro h3; cases h3)
              rw [← hfin] at hmemf
              have := cums_len_gt' (a :: b) _ hc2ne _ hmemf
              omega
          refine ⟨?_, ?_, ?_⟩
          · rw [hn2, hn1]
            exact (lastSeg_cur2 part cur hpart).symm
          · intro hmem
            have hrest : rest ≠ [] := by
              intro he
              subst he
              rw [propCums] at hmem
              simp [List.isEmpty] at hmem
            have hre : rest.isEmpty = false := by
              cases rest with
              | nil => exact absurd rfl hrest
              | cons a b => rfl
            constructor
            · rw [hd2, hd1, hre]
              rfl
            · rw [hchg, hc1, hre]
              rfl
          · rintro ⟨hfin, -⟩
            rw [finCum] at hfin
            cases rest with
            | nil =>
              rw [finCum] at hfin
              constructor
              · rw [hd2, hd1]
                rfl
              · rw [hchg, hc1]
                rfl
            | cons a b =>
              exfalso
              have hmemf : finCum (a :: b) (if cur = [] then part
                  else cur ++ '/' :: part) ∈ cums (a :: b)
                  (if cur = [] then part else cur ++ '/' :: part) :=
                finCum_mem _ _ (by intro h3; cases h3)
              rw [← hfin] at hmemf
              have := cums_len_gt' (a :: b) _ hc2ne _ hmemf
              omega
        · have h1b : alGet (alPushChild (s.entries ++ [((if cur = [] then part
              else cur ++ '/' :: part), mkNode part rest.isEmpty c)]) cur
              (if cur = [] then part else cur ++ '/' :: part)) p = none := by
            rw [← Option.not_isSome_iff_eq_none, hpushK p]
            rintro (hp | hp)
            · rw [h1] at hp
              cases hp
            · exact hpc2 hp
          obtain ⟨hn3, hp3, hf3⟩ := hW3 p e2 h1b h2
          refine ⟨hn3, ?_, ?_⟩
          · intro hmem
            rw [propCums] at hmem
            cases rest with
            | nil => simp [List.isEmpty] at hmem
            | cons a b =>
              rw [if_neg (by intro h3; simp [List.isEmpty] at h3)] at hmem
              rcases List.mem_cons.mp hmem with hmem | hmem
              · exact absurd hmem hpc2
              · exact hp3 hmem
          · rintro ⟨hfin, -⟩
            rw [finCum] at hfin
            cases rest with
            | nil =>
              exfalso
              rw [finCum] at hfin
              exact hpc2 hfin
            | cons a b =>
              exact hf3 ⟨hfin, by intro h3; cases h3⟩

end WalkSpec3

section FoldInv

theorem stepIdx_inv (st : St) (r : GitChange) (done : List GitChange)
    (hI : IdxInvFull done st)
    (hhead : r.file.head? ≠ some '/')
    (hheadD : ∀ r2 ∈ done, r2.file.head? ≠ some '/')
    (hPF1 : ∀ r2 ∈ done, r.file ∉ propsOf r2.file) :
    IdxInvFull (done ++ [r]) (IndexR.stepIdx st r) := by
  obtain ⟨hI1, hI2⟩ := hI
  obtain ⟨hW1, hW2, hW3⟩ := walkIdx_spec r (r.file.splitOn '/') st []
    (slash_not_mem_splitOn r.file) (okStart_of_split r.file hhead) (Or.inl rfl)
  have hparts_ne : r.file.splitOn '/' ≠ [] := List.splitOnP_ne_nil _ r.file
  constructor
  · intro p
    rw [IndexR.stepIdx, hW1 p, hI1 p]
    constructor
    · rintro (⟨r2, hr2, hp⟩ | hp)
      · exact ⟨r2, List.mem_append_left _ hr2, hp⟩
      · exact ⟨r, List.mem_append_right _ (List.mem_singleton_self _), hp⟩
    · rintro ⟨r2, hr2, hp⟩
      rcases List.mem_append.mp hr2 with hr2 | hr2
      · exact Or.inl ⟨r2, hr2, hp⟩
      · rw [List.mem_singleton.mp hr2] at hp
        exact Or.inr hp
  · intro p e2 he2
    cases hold : alGet st p with
    | some e =>
      obtain ⟨hn, hd, hc⟩ := hW2 p e e2 hold he2
      obtain ⟨hin, hic, hidT, hidF, hifin⟩ := hI2 p e hold
      refine ⟨hn.trans hin, ?_, ?_, ?_, ?_⟩
      · intro hs
        rw [hc] at hs
        obtain ⟨r2, hr2, hp⟩ := hic hs
        exact ⟨r2, List.mem_append_left _ hr2, hp⟩
      · intro hs
        rw [hd] at hs
        obtain ⟨r2, hr2, hp⟩ := hidT hs
        exact ⟨r2, List.mem_append_left _ hr2, hp⟩
      · intro hs
        rw [hd] at hs
        obtain ⟨r2, hr2, hp⟩ := hidF hs
        exact ⟨r2, List.mem_append_left _ hr2, hp⟩
      · intro r2 hr2 hp
        rcases List.mem_append.mp hr2 with hr2 | hr2
        · obtain ⟨rc, hrc, hrcf, hrce⟩ := hifin r2 hr2 hp
          exact ⟨rc, List.mem_append_left _ hrc, hrcf, by rw [hc, hrce]⟩
        · have hr2e := List.mem_singleton.mp hr2
          rw [hr2e] at hp ⊢
          have hpk : (alGet st p).isSome := by rw [hold]; rfl
          obtain ⟨r0, hr0, hp0⟩ := (hI1 p).mp hpk
          unfold cumsOf at hp0
          have hparts0 : r0.file.splitOn '/' ≠ [] := List.splitOnP_ne_nil _ r0.file
          rw [cums_split _ _ hparts0] at hp0
          rcases List.mem_append.mp hp0 with hp0 | hp0
          · exfalso
            apply hPF1 r0 hr0
            unfold propsOf
            rw [← finOf_eq_self r.file hhead, ← hp]
            exact hp0
          · rw [List.mem_singleton] at hp0
            have hfe : r0.file = r.file := by
              have hq1 : p = r0.file := by
                rw [hp0]
                exact finOf_eq_self r0.file (hheadD r0 hr0)
              have hq2 : p = r.file := by
                rw [hp]
                exact finOf_eq_self r.file hhead
              rw [← hq1, ← hq2]
            obtain ⟨rc, hrc, hrcf, hrce⟩ := hifin r0 hr0 hp0
            exact ⟨rc, List.mem_append_left _ hrc, hrcf.trans hfe,
              by rw [hc, hrce]⟩
    | none =>
      obtain ⟨hn3, hp3, hf3⟩ := hW3 p e2 hold he2
      have hpk : (alGet (IndexR.stepIdx st r) p).isSome := by rw [he2]; rfl
      have hpc : p ∈ cumsOf r.file := by
        rw [IndexR.stepIdx] at hpk
        rcases (hW1 p).mp hpk with hp | hp
        · rw [hold] at hp
          cases hp
        · exact hp
      have hnotdone : ∀ r2 ∈ done, p ∉ cumsOf r2.file := by
        intro r2 hr2 hp2
        have : (alGet st p).isSome := (hI1 p).mpr ⟨r2, hr2, hp2⟩
        rw [hold] at this
        cases this
      unfold cumsOf at hpc
      rw [cums_split _ _ hparts_ne] at hpc
      rcases List.mem_append.mp hpc with hpp | hpf
      · obtain ⟨hdT, hcN⟩ := hp3 hpp
        refine ⟨hn3, ?_, ?_, ?_, ?_⟩
        · intro hs
          rw [hcN] at hs
          cases hs
        · intro _
          exact ⟨r, List.mem_append_right _ (List.mem_singleton_self _), hpp⟩
        · intro hs
          rw [hdT] at hs
          cases hs
        · intro r2 hr2 hp
          rcases List.mem_append.mp hr2 with hr2 | hr2
          · exfalso
            apply hnotdone r2 hr2
            rw [hp]
            exact cumsOf_mem_fin r2.file
          · exfalso
            have hr2e := List.mem_singleton.mp hr2
            rw [hr2e] at hp
            have hnp := fin_not_prop (r.file.splitOn '/') []
              (okStart_of_split r.file hhead)
            have hp2 : p = finCum (r.file.splitOn '/') [] := hp
            rw [← hp2] at hnp
            exact hnp hpp
      · rw [List.mem_singleton] at hpf
        obtain ⟨hdF, hcS⟩ := hf3 ⟨hpf, hparts_ne⟩
        refine ⟨hn3, ?_, ?_, ?_, ?_⟩
        · intro _
          exact ⟨r, List.mem_append_right _ (List.mem_singleton_self _), hpf⟩
        · intro hs
          rw [hdF] at hs
          cases hs
        · intro _
          exact ⟨r, List.mem_append_right _ (List.mem_singleton_self _), hpf⟩
        · intro r2 hr2 hp
          rcases List.mem_append.mp hr2 with hr2 | hr2
          · exfalso
            apply hnotdone r2 hr2
            rw [hp]
            exact cumsOf_mem_fin r2.file
          · exact ⟨r, List.mem_append_right _ (List.mem_singleton_self _),
              by rw [List.mem_singleton.mp hr2], hcS⟩

theorem foldIdx_inv (changes : List GitChange) (hPF : PrefixFree changes) :
    IdxInvFull changes (changes.foldl IndexR.stepIdx []) := by
  obtain ⟨hhead, hprop⟩ := hPF
  have hgen : ∀ (l acc : List GitChange) (st : St), changes = acc ++ l →
      IdxInvFull acc st → IdxInvFull (acc ++ l) (l.foldl IndexR.stepIdx st) := by
    intro l
    induction l with
    | nil =>
      intro acc st _ hI
      rw [List.append_nil]
      exact hI
    | cons x xs ih =>
      intro acc st hc hI
      have hx : x ∈ changes := by
        rw [hc]
        exact List.mem_append_right _ (List.mem_cons_self x xs)
      have hacc : ∀ r2 ∈ acc, r2 ∈ changes := by
        intro r2 hr2
        rw [hc]
        exact List.mem_append_left _ hr2
      have hstep := stepIdx_inv st x acc hI (hhead x hx)
        (fun r2 hr2 => hhead r2 (hacc r2 hr2))
        (fun r2 hr2 => hprop x hx r2 (hacc r2 hr2))
      have hc2 : changes = (acc ++ [x]) ++ xs := by
        rw [hc, List.append_assoc, List.singleton_append]
      have := ih (acc ++ [x]) (IndexR.stepIdx st x) hc2 hstep
      rw [List.append_assoc, List.singleton_append] at this
      exact this
  have hbase : IdxInvFull [] [] := by
    constructor
    · intro p
      rw [alGet_nil]
      simp
    · intro p e he
      rw [alGet_nil] at he
      cases he
  have := hgen changes [] [] rfl hbase
  rw [List.nil_append] at this
  exact this

theorem cums_ne_nil : ∀ (parts : List JStr) (cur : JStr),
    (∀ part ∈ parts, part ≠ []) → ∀ p ∈ cums parts cur, p ≠ [] := by
  intro parts
  induction parts with
  | nil => intro cur _ p hp; cases hp
  | cons part rest ih =>
    intro cur hne p hp
    rw [cums] at hp
    rcases List.mem_cons.mp hp with hp | hp
    · rw [hp]
      exact cur2_ne_nil_of_part part cur (hne part (List.mem_cons_self part rest))
    · exact ih _ (fun x hx => hne x (List.mem_cons_of_mem part hx)) p hp

theorem head_slash_split (f : JStr) (hh : f.head? = some '/') :
    [] ∈ f.splitOn '/' := by
  cases f with
  | nil => cases hh
  | cons x xs =>
    have hx : x = '/' := by
      rw [List.head?] at hh
      exact Option.some.inj hh
    rw [List.splitOn, List.splitOnP_cons, if_pos (by simp [hx])]
    exact List.mem_cons_self _ _

theorem head_ne_slash_of_clean (f : JStr) (h : [] ∉ f.splitOn '/') :
    f.head? ≠ some '/' :=
  fun hh => h (head_slash_split f hh)

theorem normSlash_id (f : JStr) (h : '\\' ∉ f) : Part3.normSlash f = f := by
  unfold Part3.normSlash
  have hg : ∀ x ∈ f, (if x = '\\' then '/' else x) = id x := by
    intro x hx
    by_cases he : x = '\\'
    · exact absurd (he ▸ hx) h
    · exact if_neg he
  rw [List.map_congr_left hg, List.map_id]

theorem filter_parts_id (f : JStr) (h : [] ∉ f.splitOn '/') :
    ((f.splitOn '/').filter fun part => part.length > 0) = f.splitOn '/' := by
  rw [List.filter_eq_self]
  intro x hx
  have hne : x ≠ [] := fun he => h (he ▸ hx)
  simpa [List.length_pos] using hne

theorem stepP3_inv (s : Part3.St3) (r : GitChange) (done : List GitChange)
    (hI : P3InvFull done s.entries)
    (hb : '\\' ∉ r.file) (hnebs : [] ∉ r.file.splitOn '/')
    (hcleanD : ∀ r2 ∈ done, [] ∉ r2.file.splitOn '/')
    (hPF1 : ∀ r2 ∈ done, r.file ∉ propsOf r2.file) :
    P3InvFull (done ++ [r]) (Part3.stepP3 s r).entries := by
  obtain ⟨hI1, hI2, hRE⟩ := hI
  have hhead : r.file.head? ≠ some '/' := head_ne_slash_of_clean r.file hnebs
  have h0 : (alGet s.entries []).isSome := (hI1 []).mpr (Or.inl rfl)
  have hparts_ne : r.file.splitOn '/' ≠ [] := List.splitOnP_ne_nil _ r.file
  have hps : Part3.stepP3 s r = Part3.walkP3 r s (r.file.splitOn '/') [] := by
    unfold Part3.stepP3
    dsimp only
    rw [normSlash_id r.file hb, filter_parts_id r.file hnebs, if_neg hparts_ne]
  rw [hps]
  obtain ⟨hW1, hW2, hW3⟩ := walkP3_spec r (r.file.splitOn '/') s []
    (fun x hx => ⟨slash_not_mem_splitOn r.file x hx, fun he => hnebs (he ▸ hx)⟩)
    h0 (Or.inl rfl)
  refine ⟨?_, ?_, ?_⟩
  · intro p
    rw [hW1 p, hI1 p]
    constructor
    · rintro ((hp | ⟨r2, hr2, hp⟩) | hp)
      · exact Or.inl hp
      · exact Or.inr ⟨r2, List.mem_append_left _ hr2, hp⟩
      · exact Or.inr ⟨r, List.mem_append_right _ (List.mem_singleton_self _), hp⟩
    · rintro (hp | ⟨r2, hr2, hp⟩)
      · exact Or.inl (Or.inl hp)
      · rcases List.mem_append.mp hr2 with hr2 | hr2
        · exact Or.inl (Or.inr ⟨r2, hr2, hp⟩)
        · rw [List.mem_singleton.mp hr2] at hp
          exact Or.inr hp
  · intro p e2 he2 hpn
    cases hold : alGet s.entries p with
    | some e =>
      obtain ⟨hn, hd, hcf, hcn⟩ := hW2 p e e2 hold he2
      obtain ⟨hin, hic, hidT, hidF, hifin⟩ := hI2 p e hold hpn
      refine ⟨hn.trans hin, ?_, ?_, ?_, ?_⟩
      · intro hs
        by_cases hfin : p = finCum (r.file.splitOn '/') []
        · exact ⟨r, List.mem_append_right _ (List.mem_singleton_self _), hfin⟩
        · have hce : e2.change = e.change := hcn (fun hcc => hfin hcc.1)
          rw [hce] at hs
          obtain ⟨r2, hr2, hp⟩ := hic hs
          exact ⟨r2, List.mem_append_left _ hr2, hp⟩
      · intro hs
        rw [hd] at hs
        obtain ⟨r2, hr2, hp⟩ := hidT hs
        exact ⟨r2, List.mem_append_left _ hr2, hp⟩
      · intro hs
        rw [hd] at hs
        obtain ⟨r2, hr2, hp⟩ := hidF hs
        exact ⟨r2, List.mem_append_left _ hr2, hp⟩
      · intro r2 hr2 hp
        rcases List.mem_append.mp hr2 with hr2 | hr2
        · by_cases hfin : p = finCum (r.file.splitOn '/') []
          · have hchg := hcf ⟨hfin, hparts_ne⟩
            have hq1 : p = r2.file := by
              rw [hp]
              exact finOf_eq_self r2.file
                (head_ne_slash_of_clean r2.file (hcleanD r2 hr2))
            have hq2 : p = r.file := by
              have hp2 : p = finOf r.file := hfin
              rw [hp2]
              exact finOf_eq_self r.file hhead
            exact ⟨r, List.mem_append_right _ (List.mem_singleton_self _),
              by rw [← hq2, hq1], hchg⟩
          · have hce : e2.change = e.change := hcn (fun hcc => hfin hcc.1)
            obtain ⟨rc, hrc, hrcf, hrce⟩ := hifin r2 hr2 hp
            exact ⟨rc, List.mem_append_left _ hrc, hrcf, by rw [hce, hrce]⟩
        · rw [List.mem_singleton.mp hr2] at hp
          have hfin : p = finCum (r.file.splitOn '/') [] := hp
          have hchg := hcf ⟨hfin, hparts_ne⟩
          exact ⟨r, List.mem_append_right _ (List.mem_singleton_self _),
            by rw [List.mem_singleton.mp hr2], hchg⟩
    | none =>
      obtain ⟨hn3, hp3, hf3⟩ := hW3 p e2 hold he2
      have hpk : (alGet (Part3.walkP3 r s (r.file.splitOn '/') []).entries
          p).isSome := by
        rw [he2]
        rfl
      have hpc : p ∈ cumsOf r.file := by
        rcases (hW1 p).mp hpk with hp | hp
        · rw [hold] at hp
          cases hp
        · exact hp
      have hnotdone : ∀ r2 ∈ done, p ∉ cumsOf r2.file := by
        intro r2 hr2 hp2
        have : (alGet s.entries p).isSome := (hI1 p).mpr (Or.inr ⟨r2, hr2, hp2⟩)
        rw [hold] at this
        cases this
      unfold cumsOf at hpc
      rw [cums_split _ _ hparts_ne] at hpc
      rcases List.mem_append.mp hpc with hpp | hpf
      · obtain ⟨hdT, hcN⟩ := hp3 hpp
        refine ⟨hn3, ?_, ?_, ?_, ?_⟩
        · intro hs
          rw [hcN] at hs
          cases hs
        · intro _
          exact ⟨r, List.mem_append_right _ (List.mem_singleton_self _), hpp⟩
        · intro hs
          rw [hdT] at hs
          cases hs
        · intro r2 hr2 hp
          rcases List.mem_append.mp hr2 with hr2 | hr2
          · exfalso
            apply hnotdone r2 hr2
            rw [hp]
            exact cumsOf_mem_fin r2.file
          · exfalso
            have hr2e := List.mem_singleton.mp hr2
            rw [hr2e] at hp
            have hnp := fin_not_prop (r.file.splitOn '/') []
              (okStart_of_split r.file hhead)
            have hp2 : p = finCum (r.file.splitOn '/') [] := hp
            rw [← hp2] at hnp
            exact hnp hpp
      · rw [List.mem_singleton] at hpf
        obtain ⟨hdF, hcS⟩ := hf3 ⟨hpf, hparts_ne⟩
        refine ⟨hn3, ?_, ?_, ?_, ?_⟩
        · intro _
          exact ⟨r, List.mem_append_right _ (List.mem_singleton_self _), hpf⟩
        · intro hs
          rw [hdF] at hs
          cases hs
        · intro _
          exact ⟨r, List.mem_append_right _ (List.mem_singleton_self _), hpf⟩
        · intro r2 hr2 hp
          rcases List.mem_append.mp hr2 with hr2 | hr2
          · exfalso
            apply hnotdone r2 hr2
            rw [hp]
            exact cumsOf_mem_fin r2.file
          · exact ⟨r, List.mem_append_right _ (List.mem_singleton_self _),
              by rw [List.mem_singleton.mp hr2], hcS⟩
  · intro pe hpe
    obtain ⟨pe0, hpe0⟩ := Option.isSome_iff_exists.mp h0
    obtain ⟨hn, hd, hcf, hcn⟩ := hW2 [] pe0 pe hpe0 hpe
    have hnfin : ¬ (([] : JStr) = finCum (r.file.splitOn '/') []
        ∧ r.file.splitOn '/' ≠ []) := by
      rintro ⟨hfin, -⟩
      have hfm := finCum_mem (r.file.splitOn '/') [] hparts_ne
      rw [← hfin] at hfm
      exact cums_ne_nil _ [] (fun x hx he => hnebs (he ▸ hx)) [] hfm rfl
    rw [hcn hnfin]
    exact hRE pe0 hpe0

theorem foldP3_inv (changes : List GitChange)
    (hcln : ∀ r2 ∈ changes, '\\' ∉ r2.file ∧ [] ∉ r2.file.splitOn '/')
    (hprop : ∀ r1 ∈ changes, ∀ r2 ∈ changes, r1.file ∉ propsOf r2.file) :
    P3InvFull changes ((changes.foldl Part3.stepP3 Part3.st3Init).entries) := by
  have hgen : ∀ (l acc : List GitChange) (s : Part3.St3), changes = acc ++ l →
      P3InvFull acc s.entries →
      P3InvFull (acc ++ l) ((l.foldl Part3.stepP3 s).entries) := by
    intro l
    induction l with
    | nil =>
      intro acc s _ hI
      rw [List.append_nil]
      exact hI
    | cons x xs ih =>
      intro acc s hc hI
      have hx : x ∈ changes := by
        rw [hc]
        exact List.mem_append_right _ (List.mem_cons_self x xs)
      have hacc : ∀ r2 ∈ acc, r2 ∈ changes := by
        intro r2 hr2
        rw [hc]
        exact List.mem_append_left _ hr2
      have hstep := stepP3_inv s x acc hI (hcln x hx).1 (hcln x hx).2
        (fun r2 hr2 => (hcln r2 (hacc r2 hr2)).2)
        (fun r2 hr2 => hprop x hx r2 (hacc r2 hr2))
      have hc2 : changes = (acc ++ [x]) ++ xs := by
        rw [hc, List.append_assoc, List.singleton_append]
      have := ih (acc ++ [x]) (Part3.stepP3 s x) hc2 hstep
      rw [List.append_assoc, List.singleton_append] at this
      exact this
  have hbase : P3InvFull [] Part3.st3Init.entries := by
    refine ⟨?_, ?_, ?_⟩
    · intro p
      rw [Part3.st3Init]
      dsimp only
      rw [alGet_cons]
      by_cases hq : ([] : JStr) = p
      · rw [if_pos hq]
        simp [hq.symm]
      · rw [if_neg hq, alGet_nil]
        simp
        intro he
        exact absurd he.symm hq
    · intro p e he hpn
      rw [Part3.st3Init] at he
      dsimp only at he
      rw [alGet_cons] at he
      by_cases hq : ([] : JStr) = p
      · exact absurd hq.symm hpn
      · rw [if_neg hq, alGet_nil] at he
        cases he
    · intro pe hpe
      rw [Part3.st3Init] at hpe
      dsimp only at hpe
      rw [alGet_cons, if_pos rfl] at hpe
      rw [← Option.some.inj hpe]
  have := hgen changes [] Part3.st3Init rfl hbase
  rw [List.nil_append] at this
  exact this

end FoldInv



section CountLemmas

theorem pathsN_head (st : St) (f : Nat) (q : JStr) (v : EInfo) :
    q ∈ pathsN (matNode st f q v) := by
  cases f with
  | zero => simp [matNode, pathsN]
  | succ f => simp [matNode, pathsN]

theorem mem_pathsL_filterMap_of (st : St) (f : Nat) (l : List JStr) (q : JStr)
    (vq : EInfo) (y : JStr) (hq : q ∈ l) (hvq : alGet st q = some vq)
    (hy : y ∈ pathsN (matNode st f q vq)) :
    y ∈ pathsL (l.filterMap fun q2 => (alGet st q2).map (matNode st f q2)) := by
  induction l with
  | nil => cases hq
  | cons a t ih =>
    rw [List.filterMap_cons]
    rcases List.mem_cons.mp hq with hq | hq
    · subst hq
      rw [hvq]
      simp only [Option.map_some']
      rw [pathsL]
      exact List.mem_append_left _ hy
    · cases ha : alGet st a with
      | none =>
        simp only [Option.map_none']
        exact ih hq
      | some va =>
        simp only [Option.map_some']
        rw [pathsL]
        exact List.mem_append_right _ (ih hq)

theorem matNode_paths_keys (st : St) (hWF : StWF st) :
    ∀ f p e, alGet st p = some e → ∀ x ∈ pathsN (matNode st f p e),
      (alGet st x).isSome := by
  intro f
  induction f with
  | zero =>
    intro p e he x hx
    simp only [matNode, pathsN, pathsL, List.mem_singleton] at hx
    rw [hx, he]
    rfl
  | succ f ih =>
    intro p e he x hx
    simp only [matNode, pathsN] at hx
    rcases List.mem_cons.mp hx with hx | hx
    · rw [hx, he]
      rfl
    · obtain ⟨q, hq, v, hv, hxq⟩ := mem_pathsL_filterMap st f e.children x hx
      exact ih q v hv x hxq

theorem matNode_paths_closed (st : St) (hWF : StWF st) :
    ∀ f p e, alGet st p = some e → maxKeyLen st + 2 ≤ f + p.length →
      ∀ x ex qc, x ∈ pathsN (matNode st f p e) → alGet st x = some ex →
        qc ∈ ex.children → qc ∈ pathsN (matNode st f p e) := by
  intro f
  induction f with
  | zero =>
    intro p e he hf
    have := maxKeyLen_ge st p (by rw [he]; rfl)
    omega
  | succ f ih =>
    intro p e he hf x ex qc hx hex hqc
    have hnd := hWF.1
    simp only [matNode, pathsN] at hx ⊢
    rcases List.mem_cons.mp hx with hx | hx
    · subst hx
      have hee : ex = e := by
        rw [he] at hex
        exact (Option.some.inj hex).symm
      subst hee
      have hcq := (hWF.2 (x, ex) (alGet_mem st x ex he)).2 qc hqc
      obtain ⟨vq, hvq⟩ := Option.isSome_iff_exists.mp hcq.1
      exact List.mem_cons_of_mem _ (mem_pathsL_filterMap_of st f ex.children
        qc vq qc hqc hvq (pathsN_head st f qc vq))
    · obtain ⟨q, hq, v, hv, hxq⟩ := mem_pathsL_filterMap st f e.children x hx
      have hce := (hWF.2 (p, e) (alGet_mem st p e he)).2 q hq
      have hlen : p.length < q.length := hce.2.len_lt
      have hqc2 := ih q v hv (by omega) x ex qc hxq hex hqc
      exact List.mem_cons_of_mem _
        (mem_pathsL_filterMap_of st f e.children q v qc hq hv hqc2)

theorem cntN_countP (st : St) (hWF : StWF st) :
    ∀ f p e, alGet st p = some e → maxKeyLen st + 2 ≤ f + p.length →
      cntN (matNode st f p e) = (pathsN (matNode st f p e)).countP (pxB st) := by
  intro f
  induction f with
  | zero =>
    intro p e he hf
    have := maxKeyLen_ge st p (by rw [he]; rfl)
    omega
  | succ f ih =>
    intro p e he hf
    have hcl := (hWF.2 (p, e) (alGet_mem st p e he)).2
    have hlvl : ∀ l : List JStr, (∀ q ∈ l, q ∈ e.children) →
        cntL (l.filterMap fun q => (alGet st q).map (matNode st f q))
          = (pathsL (l.filterMap fun q =>
              (alGet st q).map (matNode st f q))).countP (pxB st) := by
      intro l
      induction l with
      | nil => intro _; rfl
      | cons q qs ihl =>
        intro hsub
        have hq := hcl q (hsub q (List.mem_cons_self q qs))
        obtain ⟨vq, hvq⟩ := Option.isSome_iff_exists.mp hq.1
        rw [List.filterMap_cons, hvq]
        simp only [Option.map_some']
        rw [cntL, pathsL, List.countP_append]
        rw [ihl (fun x hx => hsub x (List.mem_cons_of_mem q hx))]
        have hlen : p.length < q.length := hq.2.len_lt
        rw [ih q vq hvq (by omega)]
    cases hch : e.children with
    | nil =>
      have hpx : pxB st p = e.change.isSome := by
        unfold pxB
        rw [he]
        dsimp only
        rw [hch]
        rfl
      simp only [matNode, hch, List.filterMap_nil]
      rw [pathsN]
      show (if e.change.isSome then 1 else 0) = _
      rw [pathsL, List.countP_cons, List.countP_nil, hpx]
      cases e.change.isSome <;> rfl
    | cons q0 qs0 =>
      have hq0 := hcl q0 (hch ▸ List.mem_cons_self q0 qs0)
      obtain ⟨v0, hv0⟩ := Option.isSome_iff_exists.mp hq0.1
      have hpx : pxB st p = false := by
        unfold pxB
        rw [he]
        dsimp only
        rw [hch]
        rfl
      have hmat : e.children.filterMap (fun q =>
          (alGet st q).map (matNode st f q))
          = matNode st f q0 v0 :: qs0.filterMap (fun q =>
              (alGet st q).map (matNode st f q)) := by
        rw [hch, List.filterMap_cons, hv0]
        rfl
      simp only [matNode]
      rw [hmat]
      simp only [cntN, pathsN]
      rw [List.countP_cons, hpx]
      have hres := hlvl e.children (fun x hx => hx)
      rw [hmat] at hres
      rw [hres]
      simp

end CountLemmas

section ForestKeys

theorem cntL_filterMap_countP (st : St) (hWF : StWF st) (f : Nat)
    (l : List JStr)
    (hf : ∀ q ∈ l, (alGet st q).isSome ∧ maxKeyLen st + 2 ≤ f + q.length) :
    cntL (l.filterMap fun q => (alGet st q).map (matNode st f q))
      = (pathsL (l.filterMap fun q =>
          (alGet st q).map (matNode st f q))).countP (pxB st) := by
  induction l with
  | nil => rfl
  | cons q qs ih =>
    obtain ⟨hq, hql⟩ := hf q (List.mem_cons_self q qs)
    obtain ⟨vq, hvq⟩ := Option.isSome_iff_exists.mp hq
    rw [List.filterMap_cons, hvq]
    simp only [Option.map_some']
    rw [cntL, pathsL, List.countP_append]
    rw [ih (fun x hx => hf x (List.mem_cons_of_mem q hx))]
    rw [cntN_countP st hWF f q vq hvq hql]

theorem mem_rootsIdx_of_noslash (st : St) (x : JStr)
    (hx : (alGet st x).isSome) (hsl : '/' ∉ x) : x ∈ IndexR.rootsIdx st := by
  unfold IndexR.rootsIdx
  apply List.mem_filter.mpr
  obtain ⟨v, hv⟩ := Option.isSome_iff_exists.mp hx
  refine ⟨List.mem_map.mpr ⟨(x, v), alGet_mem st x v hv, rfl⟩, ?_⟩
  rw [parentPathOf_no_slash x hsl]
  rfl

theorem forest_paths_perm_keys_idx (st : St) (hI : IdxWF st) (hL : LinkWF st) :
    (pathsL ((IndexR.rootsIdx st).filterMap fun p =>
      (alGet st p).map (matNode st (fuelOf st) p))).Perm (st.map Prod.fst) := by
  have hWF := hI.1
  rw [List.perm_ext_iff_of_nodup (idx_forest_nodup st hI (fuelOf st)) hWF.1]
  intro x
  constructor
  · intro hx
    obtain ⟨r, hr, v, hv, hxr⟩ := mem_pathsL_filterMap st (fuelOf st)
      (IndexR.rootsIdx st) x hx
    have hs := matNode_paths_keys st hWF (fuelOf st) r v hv x hxr
    obtain ⟨vx, hvx⟩ := Option.isSome_iff_exists.mp hs
    exact List.mem_map.mpr ⟨(x, vx), alGet_mem st x vx hvx, rfl⟩
  · intro hx
    have hs : (alGet st x).isSome := by
      obtain ⟨e, hem, hfe⟩ := List.mem_map.mp hx
      have := alGet_isSome_of_mem st e hem
      rw [hfe] at this
      exact this
    clear hx
    have hroot : ∀ y : JStr, (alGet st y).isSome → '/' ∉ y →
        y ∈ pathsL ((IndexR.rootsIdx st).filterMap fun p =>
          (alGet st p).map (matNode st (fuelOf st) p)) := by
      intro y hy hsl
      obtain ⟨vy, hvy⟩ := Option.isSome_iff_exists.mp hy
      exact mem_pathsL_filterMap_of st (fuelOf st) _ y vy y
        (mem_rootsIdx_of_noslash st y hy hsl) hvy
        (pathsN_head st (fuelOf st) y vy)
    have hmain : ∀ n : Nat, ∀ y : JStr, y.length ≤ n → (alGet st y).isSome →
        y ∈ pathsL ((IndexR.rootsIdx st).filterMap fun p =>
          (alGet st p).map (matNode st (fuelOf st) p)) := by
      intro n
      induction n with
      | zero =>
        intro y hlen hy
        have hynil : y = [] := by
          rw [Nat.le_zero] at hlen
          exact List.length_eq_zero.mp hlen
        exact hroot y hy (by rw [hynil]; simp)
      | succ n ihn =>
        intro y hlen hy
        by_cases hsl : '/' ∈ y
        · obtain ⟨pr, sseg, pe, hd, hsf, hprne, hpe, hmem⟩ := hL y hy hsl
          have hprlen : pr.length < y.length := by
            rw [hd, List.length_append, List.length_cons]
            omega
          have hpr := ihn pr (by omega) (by rw [hpe]; rfl)
          obtain ⟨r0, hr0, v0, hv0, hprr⟩ := mem_pathsL_filterMap st (fuelOf st)
            (IndexR.rootsIdx st) pr hpr
          have hcl := matNode_paths_closed st hWF (fuelOf st) r0 v0 hv0
            (by unfold fuelOf; omega) pr pe y hprr hpe hmem
          exact mem_pathsL_filterMap_of st (fuelOf st) _ r0 v0 y hr0 hv0 hcl
        · exact hroot y hy hsl
    exact hmain x.length x (le_refl _) hs

theorem p3_forest_nodup (st : St) (hWF : StWF st) (e0 : EInfo)
    (he0 : alGet st [] = some e0) (f : Nat) :
    (pathsL (e0.children.filterMap fun p =>
      (alGet st p).map (matNode st f p))).Nodup := by
  have hcl := hWF.2 ([], e0) (alGet_mem _ [] e0 he0)
  apply pathsL_filterMap_nodup _ _ e0.children isExtOf
  · exact matNode_paths_nodup _ hWF _
  · intro q hq v hv x hx
    exact matNode_paths_ext _ hWF _ q v hv (hcl.2 q hq).2.ne_nil x hx
  · exact hcl.1
  · intro q1 hq1 q2 hq2 hne x h1 h2
    exact ChildExt_ext_disjoint (hcl.2 q1 hq1).2 (hcl.2 q2 hq2).2 hne h1 h2

theorem forest_paths_perm_keys_p3 (st : St) (hWF : StWF st) (hL : LinkWF3 st)
    (e0 : EInfo) (he0 : alGet st [] = some e0) :
    (pathsL (e0.children.filterMap fun p =>
      (alGet st p).map (matNode st (fuelOf st) p))).Perm
      ((st.map Prod.fst).filter (fun k => !k.isEmpty)) := by
  rw [List.perm_ext_iff_of_nodup (p3_forest_nodup st hWF e0 he0 (fuelOf st))
    (List.Nodup.filter _ hWF.1)]
  have hcl := hWF.2 ([], e0) (alGet_mem _ [] e0 he0)
  intro x
  constructor
  · intro hx
    obtain ⟨r, hr, v, hv, hxr⟩ := mem_pathsL_filterMap st (fuelOf st)
      e0.children x hx
    have hs := matNode_paths_keys st hWF (fuelOf st) r v hv x hxr
    obtain ⟨vx, hvx⟩ := Option.isSome_iff_exists.mp hs
    apply List.mem_filter.mpr
    refine ⟨List.mem_map.mpr ⟨(x, vx), alGet_mem st x vx hvx, rfl⟩, ?_⟩
    have hrne : r ≠ [] := (hcl.2 r hr).2.ne_nil
    have hlen := matNode_paths_len st hWF (fuelOf st) r v hv x hxr
    have hxne : x ≠ [] := by
      intro he
      rw [he] at hlen
      simp only [List.length_nil, Nat.le_zero] at hlen
      exact hrne (List.length_eq_zero.mp hlen)
    simpa using hxne
  · intro hx
    obtain ⟨hxk, hxne0⟩ := List.mem_filter.mp hx
    have hs : (alGet st x).isSome := by
      obtain ⟨e, hem, hfe⟩ := List.mem_map.mp hxk
      have := alGet_isSome_of_mem st e hem
      rw [hfe] at this
      exact this
    have hxne : x ≠ [] := by simpa using hxne0
    clear hx hxk
    have hroot : ∀ y : JStr, (alGet st y).isSome → y ∈ e0.children →
        y ∈ pathsL (e0.children.filterMap fun p =>
          (alGet st p).map (matNode st (fuelOf st) p)) := by
      intro y hy hyc
      obtain ⟨vy, hvy⟩ := Option.isSome_iff_exists.mp hy
      exact mem_pathsL_filterMap_of st (fuelOf st) _ y vy y hyc hvy
        (pathsN_head st (fuelOf st) y vy)
    have hmain : ∀ n : Nat, ∀ y : JStr, y.length ≤ n → (alGet st y).isSome →
        y ≠ [] →
        y ∈ pathsL (e0.children.filterMap fun p =>
          (alGet st p).map (matNode st (fuelOf st) p)) := by
      intro n
      induction n with
      | zero =>
        intro y hlen hy hyne
        exact absurd (List.length_eq_zero.mp (Nat.le_zero.mp hlen)) hyne
      | succ n ihn =>
        intro y hlen hy hyne
        by_cases hsl : '/' ∈ y
        · obtain ⟨pr, sseg, pe, hd, hsf, hpe, hmem⟩ := hL.1 y hy hsl
          by_cases hprnil : pr = []
          · subst hprnil
            rw [he0] at hpe
            rw [← Option.some.inj hpe] at hmem
            exact hroot y hy hmem
          · have hprlen : pr.length < y.length := by
              rw [hd, List.length_append, List.length_cons]
              omega
            have hpr := ihn pr (by omega) (by rw [hpe]; rfl) hprnil
            obtain ⟨r0, hr0, v0, hv0, hprr⟩ := mem_pathsL_filterMap st
              (fuelOf st) e0.children pr hpr
            have hclo := matNode_paths_closed st hWF (fuelOf st) r0 v0 hv0
              (by unfold fuelOf; omega) pr pe y hprr hpe hmem
            exact mem_pathsL_filterMap_of st (fuelOf st) _ r0 v0 y hr0 hv0 hclo
        · obtain ⟨pe, hpe, hmem⟩ := hL.2 y hy hsl hyne
          rw [he0] at hpe
          rw [← Option.some.inj hpe] at hmem
          exact hroot y hy hmem
    exact hmain x.length x (le_refl _) hs hxne

end ForestKeys

section CountFinal

theorem children_nil_aux (st : St) (hWF : StWF st) (changes : List GitChange)
    (hkeys : ∀ q, (alGet st q).isSome → q ≠ [] →
      ∃ r ∈ changes, q ∈ cumsOf r.file)
    (x : JStr) (e : EInfo) (he : alGet st x = some e) (hxne : x ≠ [])
    (r : GitChange) (hr : r ∈ changes) (hxf : x = r.file)
    (hprop : ∀ r2 ∈ changes, r.file ∉ propsOf r2.file) :
    e.children = [] := by
  cases hch : e.children with
  | nil => rfl
  | cons qc qs =>
    exfalso
    have hcq := (hWF.2 (x, e) (alGet_mem st x e he)).2 qc
      (hch ▸ List.mem_cons_self qc qs)
    have hqne : qc ≠ [] := hcq.2.ne_nil
    obtain ⟨sseg, hsf, hd⟩ := hcq.2
    rcases hd with ⟨hxnil, -, -⟩ | ⟨-, hqc⟩
    · exact hxne hxnil
    · obtain ⟨r2, hr2, hq2⟩ := hkeys qc hcq.1 hqne
      unfold cumsOf at hq2
      rcases cums_parent (r2.file.splitOn '/') []
          (slash_not_mem_splitOn r2.file) qc hq2 x sseg hsf hqc with hx0 | hxp
      · exact hxne hx0
      · exact hprop r2 hr2 (hxf ▸ hxp)

theorem px_true_aux (st : St) (x : JStr) (e : EInfo) (he : alGet st x = some e)
    (hch : e.children = []) (hcs : e.change.isSome = true) :
    pxB st x = true := by
  unfold pxB
  rw [he]
  dsimp only
  rw [hch, hcs]
  rfl

theorem filter_px_perm_dedup_idx (st : St) (changes : List GitChange)
    (hWF : StWF st)
    (hI3 : ∀ e ∈ st, e.1 = [] → e.2.children = [])
    (hI1 : ∀ p, (alGet st p).isSome ↔ ∃ r ∈ changes, p ∈ cumsOf r.file)
    (hcs : ∀ p e, alGet st p = some e → e.change.isSome →
      ∃ r ∈ changes, p = finOf r.file)
    (hfin : ∀ p e, alGet st p = some e → ∀ r ∈ changes, p = finOf r.file →
      ∃ rc ∈ changes, rc.file = r.file ∧ e.change = some rc)
    (hhead : ∀ r ∈ changes, r.file.head? ≠ some '/')
    (hprop : ∀ r1 ∈ changes, ∀ r2 ∈ changes, r1.file ∉ propsOf r2.file) :
    ((st.map Prod.fst).filter (pxB st)).Perm
      ((changes.map GitChange.file).dedup) := by
  rw [List.perm_ext_iff_of_nodup (List.Nodup.filter _ hWF.1)
    (List.nodup_dedup _)]
  intro x
  rw [List.mem_dedup, List.mem_filter]
  constructor
  · rintro ⟨hxk, hpx⟩
    unfold pxB at hpx
    cases he : alGet st x with
    | none => rw [he] at hpx; cases hpx
    | some e =>
      rw [he] at hpx
      dsimp only at hpx
      rw [Bool.and_eq_true] at hpx
      obtain ⟨r, hr, hxf⟩ := hcs x e he hpx.2
      rw [finOf_eq_self r.file (hhead r hr)] at hxf
      exact List.mem_map.mpr ⟨r, hr, hxf.symm⟩
  · intro hx
    obtain ⟨r, hr, hxf⟩ := List.mem_map.mp hx
    have hxkey : (alGet st x).isSome := by
      apply (hI1 x).mpr
      refine ⟨r, hr, ?_⟩
      rw [← hxf]
      have hm := cumsOf_mem_fin r.file
      rw [finOf_eq_self r.file (hhead r hr)] at hm
      exact hm
    obtain ⟨e, he⟩ := Option.isSome_iff_exists.mp hxkey
    have hchn : e.children = [] := by
      by_cases hxne : x = []
      · exact hI3 (x, e) (alGet_mem st x e he) hxne
      · exact children_nil_aux st hWF changes
          (fun q hq _ => (hI1 q).mp hq) x e he hxne r hr hxf.symm
          (fun r2 hr2 => hprop r hr r2 hr2)
    have hxfin : x = finOf r.file := by
      rw [finOf_eq_self r.file (hhead r hr)]
      exact hxf.symm
    obtain ⟨rc, hrc, hrcf, hrce⟩ := hfin x e he r hr hxfin
    refine ⟨List.mem_map.mpr ⟨(x, e), alGet_mem st x e he, rfl⟩, ?_⟩
    exact px_true_aux st x e he hchn (by rw [hrce]; rfl)

theorem filter_px_perm_dedup_p3 (st : St) (changes : List GitChange)
    (hWF : StWF st)
    (hI1 : ∀ p, (alGet st p).isSome
      ↔ (p = [] ∨ ∃ r ∈ changes, p ∈ cumsOf r.file))
    (hcs : ∀ p e, alGet st p = some e → p ≠ [] → e.change.isSome →
      ∃ r ∈ changes, p = finOf r.file)
    (hfin : ∀ p e, alGet st p = some e → p ≠ [] → ∀ r ∈ changes,
      p = finOf r.file → ∃ rc ∈ changes, rc.file = r.file ∧ e.change = some rc)
    (hclean : ∀ r ∈ changes, [] ∉ r.file.splitOn '/')
    (hprop : ∀ r1 ∈ changes, ∀ r2 ∈ changes, r1.file ∉ propsOf r2.file) :
    (((st.map Prod.fst).filter (fun k => !k.isEmpty)).filter (pxB st)).Perm
      ((changes.map GitChange.file).dedup) := by
  have hhead : ∀ r ∈ changes, r.file.head? ≠ some '/' :=
    fun r hr => head_ne_slash_of_clean r.file (hclean r hr)
  rw [List.perm_ext_iff_of_nodup
    (List.Nodup.filter _ (List.Nodup.filter _ hWF.1)) (List.nodup_dedup _)]
  intro x
  rw [List.mem_dedup, List.mem_filter, List.mem_filter]
  constructor
  · rintro ⟨⟨hxk, hxne0⟩, hpx⟩
    have hxne : x ≠ [] := by simpa using hxne0
    unfold pxB at hpx
    cases he : alGet st x with
    | none => rw [he] at hpx; cases hpx
    | some e =>
      rw [he] at hpx
      dsimp only at hpx
      rw [Bool.and_eq_true] at hpx
      obtain ⟨r, hr, hxf⟩ := hcs x e he hxne hpx.2
      rw [finOf_eq_self r.file (hhead r hr)] at hxf
      exact List.mem_map.mpr ⟨r, hr, hxf.symm⟩
  · intro hx
    obtain ⟨r, hr, hxf⟩ := List.mem_map.mp hx
    have hfne : r.file ≠ [] := by
      intro he
      apply hclean r hr
      rw [he]
      rw [List.splitOn, List.splitOnP_nil]
      exact List.mem_singleton_self _
    have hxne : x ≠ [] := by
      rw [← hxf]
      exact hfne
    have hxkey : (alGet st x).isSome := by
      apply (hI1 x).mpr
      refine Or.inr ⟨r, hr, ?_⟩
      rw [← hxf]
      have hm := cumsOf_mem_fin r.file
      rw [finOf_eq_self r.file (hhead r hr)] at hm
      exact hm
    obtain ⟨e, he⟩ := Option.isSome_iff_exists.mp hxkey
    have hchn : e.children = [] := by
      refine children_nil_aux st hWF changes ?_ x e he hxne r hr hxf.symm
        (fun r2 hr2 => hprop r hr r2 hr2)
      intro q hq hqne
      rcases (hI1 q).mp hq with hq0 | hq0
      · exact absurd hq0 hqne
      · exact hq0
    have hxfin : x = finOf r.file := by
      rw [finOf_eq_self r.file (hhead r hr)]
      exact hxf.symm
    obtain ⟨rc, hrc, hrcf, hrce⟩ := hfin x e he hxne r hr hxfin
    refine ⟨⟨List.mem_map.mpr ⟨(x, e), alGet_mem st x e he, rfl⟩, ?_⟩, ?_⟩
    · simpa using hxne
    · exact px_true_aux st x e he hchn (by rw [hrce]; rfl)

end CountFinal


theorem idx_count (changes : List GitChange) (hPF : PrefixFree changes) :
    cntL (IndexR.buildFileTree changes)
      = ((changes.map GitChange.file).dedup).length := by
  obtain ⟨hhead, hprop⟩ := hPF
  have hIWF := foldIdx_IWF changes
  have hWF := hIWF.1
  have hL := foldIdx_link changes
  obtain ⟨hI1, hI2⟩ := foldIdx_inv changes ⟨hhead, hprop⟩
  have hcond : ∀ q ∈ IndexR.rootsIdx (changes.foldl IndexR.stepIdx []),
      (alGet (changes.foldl IndexR.stepIdx []) q).isSome
        ∧ maxKeyLen (changes.foldl IndexR.stepIdx []) + 2
          ≤ fuelOf (changes.foldl IndexR.stepIdx []) + q.length := by
    intro q hq
    refine ⟨(rootsIdx_mem _ hIWF q hq).2, ?_⟩
    unfold fuelOf
    omega
  simp only [IndexR.buildFileTree]
  rw [cntL_sortTreeF]
  rw [cntL_filterMap_countP _ hWF (fuelOf _) (IndexR.rootsIdx _) hcond]
  rw [List.Perm.countP_eq (pxB _) (forest_paths_perm_keys_idx _ hIWF hL)]
  rw [List.countP_eq_length_filter]
  exact (filter_px_perm_dedup_idx _ changes hWF hIWF.2.2 hI1
    (fun p e he hs => (hI2 p e he).2.1 hs)
    (fun p e he => (hI2 p e he).2.2.2.2)
    hhead hprop).length_eq

theorem p3_count (changes : List GitChange) (hPF : PrefixFree changes)
    (hP3 : P3Clean changes) :
    cntL (Part3.buildFileTree changes)
      = ((changes.map GitChange.file).dedup).length := by
  obtain ⟨hhead, hprop⟩ := hPF
  obtain ⟨hlen50, hcln⟩ := hP3
  have htake : changes.take 50 = changes := List.take_of_length_le hlen50
  have hWF0 := foldP3_WF changes
  rw [htake] at hWF0
  have hL := foldP3_link changes
  rw [htake] at hL
  have hroot := foldP3_root changes
  rw [htake] at hroot
  obtain ⟨hI1, hI2, hRE⟩ := foldP3_inv changes
    (fun r hr => hcln r hr) (fun r1 h1 r2 h2 => hprop r1 h1 r2 h2)
  obtain ⟨e0, he0⟩ := Option.isSome_iff_exists.mp hroot.2
  have hcl := hWF0.2 ([], e0) (alGet_mem _ [] e0 he0)
  have e1 : cntL (Part3.buildFileTree changes)
      = cntL (e0.children.filterMap fun p =>
          (alGet (changes.foldl Part3.stepP3 Part3.st3Init).entries p).map
            (matNode (changes.foldl Part3.stepP3 Part3.st3Init).entries
              (fuelOf (changes.foldl Part3.stepP3 Part3.st3Init).entries) p)) := by
    simp only [Part3.buildFileTree]
    rw [htake, if_neg (fun h => h hroot.1), he0]
    exact cntL_sortTreeF _ _
  have hcond : ∀ q ∈ e0.children,
      (alGet (changes.foldl Part3.stepP3 Part3.st3Init).entries q).isSome
        ∧ maxKeyLen (changes.foldl Part3.stepP3 Part3.st3Init).entries + 2
          ≤ fuelOf (changes.foldl Part3.stepP3 Part3.st3Init).entries
            + q.length := by
    intro q hq
    refine ⟨(hcl.2 q hq).1, ?_⟩
    unfold fuelOf
    omega
  rw [e1]
  rw [cntL_filterMap_countP _ hWF0 _ e0.children hcond]
  rw [List.Perm.countP_eq (pxB _) (forest_paths_perm_keys_p3 _ hWF0 hL e0 he0)]
  rw [List.countP_eq_length_filter]
  exact (filter_px_perm_dedup_p3 _ changes hWF0 hI1
    (fun p e he hpn hs => (hI2 p e he hpn).2.1 hs)
    (fun p e he hpn => (hI2 p e he hpn).2.2.2.2)
    (fun r hr => (hcln r hr).2) hprop).length_eq

section PermEngine

theorem matNode_fields (st : St) (f : Nat) (p : JStr) (e : EInfo) :
    (matNode st f p e).name = e.name
      ∧ (matNode st f p e).isDirectory = e.isDirectory := by
  cases f <;> exact ⟨rfl, rfl⟩

theorem nodeLeB_congr (a a' b b' : FNode) (hna : a.name = a'.name)
    (hda : a.isDirectory = a'.isDirectory) (hnb : b.name = b'.name)
    (hdb : b.isDirectory = b'.isDirectory) : nodeLeB a b = nodeLeB a' b' := by
  unfold nodeLeB
  rw [hna, hda, hnb, hdb]

theorem gmat_name (st : St) (f : Nat) (q : JStr) :
    (gmat st f q).name = (gmat st 0 q).name := by
  unfold gmat
  cases h : alGet st q
  · rfl
  · rw [(matNode_fields st f q _).1, (matNode_fields st 0 q _).1]

theorem gmat_isDir (st : St) (f : Nat) (q : JStr) :
    (gmat st f q).isDirectory = (gmat st 0 q).isDirectory := by
  unfold gmat
  cases h : alGet st q
  · rfl
  · rw [(matNode_fields st f q _).2, (matNode_fields st 0 q _).2]

theorem keyLe_iff_gmat (st : St) (f : Nat) (a b : JStr) :
    keyLe st a b ↔ nodeLe (gmat st f a) (gmat st f b) := by
  unfold keyLe nodeLe
  rw [nodeLeB_congr (gmat st f a) (gmat st 0 a) (gmat st f b) (gmat st 0 b)
    (gmat_name st f a) (gmat_isDir st f a) (gmat_name st f b) (gmat_isDir st f b)]

theorem keyLe_total_pull (st : St) : ∀ a b, keyLe st a b ∨ keyLe st b a := by
  intro a b
  unfold keyLe
  exact nodeLe_total _ _

theorem keyLe_trans_pull (st : St) :
    ∀ a b c, keyLe st a b → keyLe st b c → keyLe st a c := by
  intro a b c h1 h2
  unfold keyLe at h1 h2 ⊢
  exact nodeLe_trans _ _ _ h1 h2

theorem keyLe_congr_states (st1 st2 : St) (hEq : StEq st1 st2) (a b : JStr)
    (ha : (alGet st1 a).isSome) (hb : (alGet st1 b).isSome) :
    keyLe st2 a b ↔ keyLe st1 a b := by
  obtain ⟨ea1, hea1⟩ := Option.isSome_iff_exists.mp ha
  obtain ⟨eb1, heb1⟩ := Option.isSome_iff_exists.mp hb
  obtain ⟨ea2, hea2⟩ := Option.isSome_iff_exists.mp ((hEq.1 a).mp ha)
  obtain ⟨eb2, heb2⟩ := Option.isSome_iff_exists.mp ((hEq.1 b).mp hb)
  obtain ⟨hna, hda, hca, hcha⟩ := hEq.2 a ea1 ea2 hea1 hea2
  obtain ⟨hnb, hdb, hcb, hchb⟩ := hEq.2 b eb1 eb2 heb1 heb2
  have hg1 : gmat st1 0 a = matNode st1 0 a ea1 := by unfold gmat; rw [hea1]
  have hg2 : gmat st2 0 a = matNode st2 0 a ea2 := by unfold gmat; rw [hea2]
  have hg3 : gmat st1 0 b = matNode st1 0 b eb1 := by unfold gmat; rw [heb1]
  have hg4 : gmat st2 0 b = matNode st2 0 b eb2 := by unfold gmat; rw [heb2]
  unfold keyLe nodeLe
  rw [hg1, hg2, hg3, hg4]
  rw [nodeLeB_congr (matNode st2 0 a ea2) (matNode st1 0 a ea1)
    (matNode st2 0 b eb2) (matNode st1 0 b eb1)
    (by rw [(matNode_fields st2 0 a ea2).1, (matNode_fields st1 0 a ea1).1]
        exact hna.symm)
    (by rw [(matNode_fields st2 0 a ea2).2, (matNode_fields st1 0 a ea1).2]
        exact hda.symm)
    (by rw [(matNode_fields st2 0 b eb2).1, (matNode_fields st1 0 b eb1).1]
        exact hnb.symm)
    (by rw [(matNode_fields st2 0 b eb2).2, (matNode_fields st1 0 b eb1).2]
        exact hdb.symm)]

theorem filterMap_mats_eq_map (st : St) (f : Nat) :
    ∀ (ps : List JStr), (∀ q ∈ ps, (alGet st q).isSome) →
      (ps.filterMap fun q => (alGet st q).map (matNode st f q))
        = ps.map (gmat st f) := by
  intro ps
  induction ps with
  | nil => intro _; rfl
  | cons q t ih =>
    intro h
    obtain ⟨e, he⟩ := Option.isSome_iff_exists.mp (h q (List.mem_cons_self q t))
    rw [List.filterMap_cons, List.map_cons]
    rw [he, Option.map_some']
    dsimp only
    rw [ih (fun x hx => h x (List.mem_cons_of_mem q hx))]
    have hg : gmat st f q = matNode st f q e := by unfold gmat; rw [he]
    rw [hg]

theorem childExt_seg_inj (p q1 q2 : JStr) (h1 : ChildExt p q1)
    (h2 : ChildExt p q2) (hseg : lastSeg q1 = lastSeg q2) : q1 = q2 := by
  rcases h1 with ⟨s1, hs1, ⟨hp1, hne1, hq1⟩ | ⟨hp1, hq1⟩⟩
  · rcases h2 with ⟨s2, hs2, ⟨hp2, hne2, hq2⟩ | ⟨hp2, hq2⟩⟩
    · rw [hq1, hq2] at hseg ⊢
      rw [lastSeg_no_slash s1 hs1, lastSeg_no_slash s2 hs2] at hseg
      exact hseg
    · exact absurd hp1 hp2
  · rcases h2 with ⟨s2, hs2, ⟨hp2, hne2, hq2⟩ | ⟨hp2, hq2⟩⟩
    · exact absurd hp2 hp1
    · rw [hq1, hq2] at hseg ⊢
      rw [lastSeg_append p s1 hs1, lastSeg_append p s2 hs2] at hseg
      rw [hseg]

theorem children_mem_iff_idx (st : St) (hWF : StWF st) (hL : LinkWF st)
    (hroot0 : ∀ e ∈ st, e.1 = [] → e.2.children = [])
    (p : JStr) (e : EInfo) (he : alGet st p = some e) (q : JStr) :
    q ∈ e.children ↔
      ((alGet st q).isSome ∧ p ≠ [] ∧ ∃ s, '/' ∉ s ∧ q = p ++ '/' :: s) := by
  have hmem := alGet_mem st p e he
  constructor
  · intro hq
    obtain ⟨hsome, hce⟩ := (hWF.2 (p, e) hmem).2 q hq
    rcases hce with ⟨s, hs, ⟨hp0, hsne, hqs⟩ | ⟨hpne, hqs⟩⟩
    · have hcz : e.children = [] := hroot0 (p, e) hmem hp0
      rw [hcz] at hq
      cases hq
    · exact ⟨hsome, hpne, s, hs, hqs⟩
  · rintro ⟨hsome, hpne, s, hs, hqs⟩
    have hsl : '/' ∈ q := by
      rw [hqs]
      exact List.mem_append_right _ (List.mem_cons_self _ _)
    obtain ⟨pr, s2, pe, hdec, hs2, hprne, hpe, hqch⟩ := hL q hsome hsl
    have hpp : pr = p := by
      have ha := parentPathOf_append pr s2 hs2
      have hb := parentPathOf_append p s hs
      rw [← hdec] at ha
      rw [← hqs] at hb
      rw [← ha, ← hb]
    rw [hpp] at hpe
    rw [Option.some.inj (he.symm.trans hpe)]
    exact hqch

theorem children_mem_iff_p3 (st : St) (hWF : StWF st) (hL : LinkWF3 st)
    (p : JStr) (e : EInfo) (he : alGet st p = some e) (q : JStr) :
    q ∈ e.children ↔ ((alGet st q).isSome ∧
      ((p = [] ∧ q ≠ [] ∧ '/' ∉ q)
        ∨ (p ≠ [] ∧ ∃ s, '/' ∉ s ∧ q = p ++ '/' :: s))) := by
  have hmem := alGet_mem st p e he
  constructor
  · intro hq
    obtain ⟨hsome, hce⟩ := (hWF.2 (p, e) hmem).2 q hq
    refine ⟨hsome, ?_⟩
    rcases hce with ⟨s, hs, ⟨hp0, hsne, hqs⟩ | ⟨hpne, hqs⟩⟩
    · refine Or.inl ⟨hp0, ?_, ?_⟩
      · rw [hqs]; exact hsne
      · rw [hqs]; exact hs
    · exact Or.inr ⟨hpne, s, hs, hqs⟩
  · rintro ⟨hsome, ⟨hp0, hqne, hqsl⟩ | ⟨hpne, s, hs, hqs⟩⟩
    · obtain ⟨pe, hpe, hqch⟩ := hL.2 q hsome hqsl hqne
      rw [hp0] at he
      rw [Option.some.inj (he.symm.trans hpe)]
      exact hqch
    · have hsl : '/' ∈ q := by
        rw [hqs]
        exact List.mem_append_right _ (List.mem_cons_self _ _)
      obtain ⟨pr, s2, pe, hdec, hs2, hpe, hqch⟩ := hL.1 q hsome hsl
      have hpp : pr = p := by
        have ha := parentPathOf_append pr s2 hs2
        have hb := parentPathOf_append p s hs
        rw [← hdec] at ha
        rw [← hqs] at hb
        rw [← ha, ← hb]
      rw [hpp] at hpe
      rw [Option.some.inj (he.symm.trans hpe)]
      exact hqch

theorem foldr_max_le (l : List Nat) (b : Nat) (h : ∀ x ∈ l, x ≤ b) :
    l.foldr max 0 ≤ b := by
  induction l with
  | nil => exact Nat.zero_le b
  | cons x t ih =>
    rw [List.foldr_cons]
    exact max_le (h x (List.mem_cons_self x t))
      (ih fun y hy => h y (List.mem_cons_of_mem x hy))

theorem maxKeyLen_mono (st1 st2 : St)
    (h : ∀ p, (alGet st1 p).isSome → (alGet st2 p).isSome) :
    maxKeyLen st1 ≤ maxKeyLen st2 := by
  have h2 : ∀ x ∈ st1.map (fun e => e.1.length), x ≤ maxKeyLen st2 := by
    intro x hx
    obtain ⟨e, hem, hex⟩ := List.mem_map.mp hx
    have hsome := alGet_isSome_of_mem st1 e hem
    rw [← hex]
    exact maxKeyLen_ge st2 e.1 (h e.1 hsome)
  calc maxKeyLen st1 = (st1.map (fun e => e.1.length)).foldr max 0 := rfl
    _ ≤ maxKeyLen st2 := foldr_max_le _ _ h2

theorem maxKeyLen_congr (st1 st2 : St)
    (h : ∀ p, (alGet st1 p).isSome ↔ (alGet st2 p).isSome) :
    maxKeyLen st1 = maxKeyLen st2 :=
  Nat.le_antisymm (maxKeyLen_mono st1 st2 fun p hp => (h p).mp hp)
    (maxKeyLen_mono st2 st1 fun p hp => (h p).mpr hp)

theorem sortMat_eq (st1 st2 : St) (hWF1 : StWF st1) (hWF2 : StWF st2)
    (hEq : StEq st1 st2)
    (hnm1 : ∀ p e, alGet st1 p = some e → e.name = lastSeg p) :
    ∀ (f : Nat) (ps1 ps2 : List JStr), ps1.Nodup → ps2.Nodup →
      (∀ q, q ∈ ps1 ↔ q ∈ ps2) →
      (∀ q ∈ ps1, (alGet st1 q).isSome) →
      (∀ q1 ∈ ps1, ∀ q2 ∈ ps1, lastSeg q1 = lastSeg q2 → q1 = q2) →
      (∀ q ∈ ps1, maxKeyLen st1 + 2 ≤ f + q.length) →
      sortTreeF f (ps1.filterMap fun q => (alGet st1 q).map (matNode st1 f q))
        = sortTreeF f
            (ps2.filterMap fun q => (alGet st2 q).map (matNode st2 f q)) := by
  intro f
  induction f with
  | zero =>
    intro ps1 ps2 _ _ hmem hsome _ hfuel
    have hps1 : ps1 = [] := by
      cases hq : ps1 with
      | nil => rfl
      | cons q t =>
        have h1 := hfuel q (by rw [hq]; exact List.mem_cons_self q t)
        have h2 := maxKeyLen_ge st1 q
          (hsome q (by rw [hq]; exact List.mem_cons_self q t))
        omega
    have hps2 : ps2 = [] := by
      apply List.eq_nil_iff_forall_not_mem.mpr
      intro q hq
      have hq1 := (hmem q).mpr hq
      rw [hps1] at hq1
      cases hq1
    rw [hps1, hps2]
    rfl
  | succ f ih =>
    intro ps1 ps2 hnd1 hnd2 hmem hsome1 hsib hfuel
    have hsome2 : ∀ q ∈ ps2, (alGet st2 q).isSome :=
      fun q hq => (hEq.1 q).mp (hsome1 q ((hmem q).mpr hq))
    rw [filterMap_mats_eq_map st1 (f + 1) ps1 hsome1,
        filterMap_mats_eq_map st2 (f + 1) ps2 hsome2,
        sortTreeF_succ, sortTreeF_succ,
        ← List.map_insertionSort (keyLe st1) nodeLe (gmat st1 (f + 1)) ps1
          (fun a _ b _ => keyLe_iff_gmat st1 (f + 1) a b),
        ← List.map_insertionSort (keyLe st2) nodeLe (gmat st2 (f + 1)) ps2
          (fun a _ b _ => keyLe_iff_gmat st2 (f + 1) a b),
        List.map_map, List.map_map]
    have hperm : ps1.Perm ps2 := (List.perm_ext_iff_of_nodup hnd1 hnd2).mpr hmem
    have hname : ∀ q ∈ ps1, (gmat st1 0 q).name = lastSeg q := by
      intro q hq
      obtain ⟨e, he⟩ := Option.isSome_iff_exists.mp (hsome1 q hq)
      have hg : gmat st1 0 q = matNode st1 0 q e := by unfold gmat; rw [he]
      rw [hg, (matNode_fields st1 0 q e).1]
      exact hnm1 q e he
    have hLL : ps1.insertionSort (keyLe st1) = ps2.insertionSort (keyLe st2) := by
      have hs1 : List.Pairwise (keyLe st1) (ps1.insertionSort (keyLe st1)) :=
        @List.sorted_insertionSort JStr (keyLe st1) _ ⟨keyLe_total_pull st1⟩
          ⟨keyLe_trans_pull st1⟩ ps1
      have hs2 : List.Pairwise (keyLe st2) (ps2.insertionSort (keyLe st2)) :=
        @List.sorted_insertionSort JStr (keyLe st2) _ ⟨keyLe_total_pull st2⟩
          ⟨keyLe_trans_pull st2⟩ ps2
      have hs2' : List.Pairwise (keyLe st1) (ps2.insertionSort (keyLe st2)) := by
        apply List.Pairwise.imp_of_mem ?_ hs2
        intro a b ha hb hab
        have ha1 : a ∈ ps1 :=
          (hmem a).mpr ((List.perm_insertionSort (keyLe st2) ps2).subset ha)
        have hb1 : b ∈ ps1 :=
          (hmem b).mpr ((List.perm_insertionSort (keyLe st2) ps2).subset hb)
        exact (keyLe_congr_states st1 st2 hEq a b (hsome1 a ha1)
          (hsome1 b hb1)).mp hab
      have hanti : ∀ a ∈ ps1.insertionSort (keyLe st1),
          ∀ b ∈ ps1.insertionSort (keyLe st1),
          keyLe st1 a b → keyLe st1 b a → a = b := by
        intro a ha b hb h1 h2
        have ha1 : a ∈ ps1 := (List.perm_insertionSort (keyLe st1) ps1).subset ha
        have hb1 : b ∈ ps1 := (List.perm_insertionSort (keyLe st1) ps1).subset hb
        have hn := nodeLe_antisymm_names (gmat st1 0 a) (gmat st1 0 b) h1 h2
        rw [hname a ha1, hname b hb1] at hn
        exact hsib a ha1 b hb1 hn
      exact perm_sorted_unique (keyLe st1) _ _
        (((List.perm_insertionSort (keyLe st1) ps1).trans hperm).trans
          (List.perm_insertionSort (keyLe st2) ps2).symm)
        hs1 hs2' hanti
    rw [hLL]
    apply List.map_congr_left
    intro q hq
    have hq2 : q ∈ ps2 := (List.perm_insertionSort (keyLe st2) ps2).subset hq
    have hq1 : q ∈ ps1 := (hmem q).mpr hq2
    obtain ⟨e1, he1⟩ := Option.isSome_iff_exists.mp (hsome1 q hq1)
    obtain ⟨e2, he2⟩ := Option.isSome_iff_exists.mp ((hEq.1 q).mp (hsome1 q hq1))
    obtain ⟨hnme, hdir, hchg, hchm⟩ := hEq.2 q e1 e2 he1 he2
    have hcw1 := hWF1.2 (q, e1) (alGet_mem st1 q e1 he1)
    have hcw2 := hWF2.2 (q, e2) (alGet_mem st2 q e2 he2)
    have hnd1c : e1.children.Nodup := hcw1.1
    have hnd2c : e2.children.Nodup := hcw2.1
    have hsome1c : ∀ x ∈ e1.children, (alGet st1 x).isSome :=
      fun x hx => (hcw1.2 x hx).1
    have hsibc : ∀ x ∈ e1.children, ∀ y ∈ e1.children,
        lastSeg x = lastSeg y → x = y :=
      fun x hx y hy hseg =>
        childExt_seg_inj q x y (hcw1.2 x hx).2 (hcw1.2 y hy).2 hseg
    have hfuelc : ∀ x ∈ e1.children, maxKeyLen st1 + 2 ≤ f + x.length := by
      intro x hx
      have hlt : q.length < x.length := ChildExt.len_lt (hcw1.2 x hx).2
      have hfq := hfuel q hq1
      omega
    have hch : sortTreeF f
        (e1.children.filterMap fun q2 => (alGet st1 q2).map (matNode st1 f q2))
        = sortTreeF f
          (e2.children.filterMap fun q2 =>
            (alGet st2 q2).map (matNode st2 f q2)) :=
      ih e1.children e2.children hnd1c hnd2c hchm hsome1c hsibc hfuelc
    have hg1 : gmat st1 (f + 1) q = FNode.mk e1.name q e1.isDirectory e1.change
        (e1.children.filterMap fun q2 =>
          (alGet st1 q2).map (matNode st1 f q2)) := by
      unfold gmat
      rw [he1]
      rfl
    have hg2 : gmat st2 (f + 1) q = FNode.mk e2.name q e2.isDirectory e2.change
        (e2.children.filterMap fun q2 =>
          (alGet st2 q2).map (matNode st2 f q2)) := by
      unfold gmat
      rw [he2]
      rfl
    simp only [Function.comp_apply]
    rw [hg1, hg2]
    dsimp only
    rw [hnme, hdir, hchg, hch]

end PermEngine

section PermStates

theorem fin_prop_excl (c : List GitChange)
    (hh : ∀ r ∈ c, r.file.head? ≠ some '/')
    (hpr : ∀ r1 ∈ c, ∀ r2 ∈ c, r1.file ∉ propsOf r2.file)
    (p : JStr) (r1 : GitChange) (h1 : r1 ∈ c) (hf : p = finOf r1.file)
    (r2 : GitChange) (h2 : r2 ∈ c) (hprop : p ∈ propsOf r2.file) : False := by
  rw [hf, finOf_eq_self r1.file (hh r1 h1)] at hprop
  exact hpr r1 h1 r2 h2 hprop

theorem foldP3_rootFields (changes : List GitChange) :
    ∀ e, alGet ((changes.foldl Part3.stepP3 Part3.st3Init).entries) [] = some e →
      e.name = [] ∧ e.isDirectory = true := by
  have h : ∀ (l : List GitChange) (s : Part3.St3),
      (alGet s.entries []).isSome →
      (∀ e, alGet s.entries [] = some e → e.name = [] ∧ e.isDirectory = true) →
      ∀ e, alGet (l.foldl Part3.stepP3 s).entries [] = some e →
        e.name = [] ∧ e.isDirectory = true := by
    intro l
    induction l with
    | nil => intro s _ hP e he; exact hP e he
    | cons c t ih =>
      intro s h0 hP e he
      refine ih (Part3.stepP3 s c) (stepP3_root s c h0).2 ?_ e he
      intro e1 he1
      unfold Part3.stepP3 at he1
      dsimp only at he1
      by_cases hps : ((Part3.normSlash c.file).splitOn '/').filter
          (fun part => part.length > 0) = []
      · rw [if_pos hps] at he1
        exact hP e1 he1
      · have hcl : ∀ part ∈ ((Part3.normSlash c.file).splitOn '/').filter
            (fun part => part.length > 0), '/' ∉ part ∧ part ≠ [] := by
          intro part hpart
          obtain ⟨hmem, hlen⟩ := List.mem_filter.mp hpart
          refine ⟨slash_not_mem_splitOn _ part hmem, ?_⟩
          intro hnil
          rw [hnil] at hlen
          simp at hlen
        rw [if_neg hps] at he1
        obtain ⟨e0, he0⟩ := Option.isSome_iff_exists.mp h0
        obtain ⟨hW1, hW2, hW3⟩ := walkP3_spec c
          (((Part3.normSlash c.file).splitOn '/').filter
            (fun part => part.length > 0)) s [] hcl h0 (Or.inl rfl)
        obtain ⟨hn, hd, hcf, hcn⟩ := hW2 [] e0 e1 he0 he1
        obtain ⟨hn0, hd0⟩ := hP e0 he0
        exact ⟨hn.trans hn0, hd.trans hd0⟩
  refine h changes Part3.st3Init (by rfl) ?_
  intro e he
  have h1 : alGet Part3.st3Init.entries [] = some ⟨[], true, none, []⟩ := by rfl
  rw [h1] at he
  rw [← Option.some.inj he]
  exact ⟨rfl, rfl⟩

theorem idx_StEq (c1 c2 : List GitChange) (hp : c1.Perm c2)
    (hPF : PrefixFree c1) (hFU : FileUnique c1) :
    StEq (c1.foldl IndexR.stepIdx []) (c2.foldl IndexR.stepIdx []) := by
  obtain ⟨hh, hpr⟩ := hPF
  have hPF2 : PrefixFree c2 :=
    ⟨fun r hr => hh r (hp.mem_iff.mpr hr),
     fun r1 h1 r2 h2 => hpr r1 (hp.mem_iff.mpr h1) r2 (hp.mem_iff.mpr h2)⟩
  obtain ⟨hI1a, hI2a⟩ := foldIdx_inv c1 ⟨hh, hpr⟩
  obtain ⟨hI1b, hI2b⟩ := foldIdx_inv c2 hPF2
  have hIWF1 := foldIdx_IWF c1
  have hIWF2 := foldIdx_IWF c2
  have hL1 := foldIdx_link c1
  have hL2 := foldIdx_link c2
  have hkeys : ∀ x, (alGet (c1.foldl IndexR.stepIdx []) x).isSome
      ↔ (alGet (c2.foldl IndexR.stepIdx []) x).isSome := by
    intro x
    rw [hI1a x, hI1b x]
    constructor
    · rintro ⟨r, hr, hc⟩; exact ⟨r, hp.mem_iff.mp hr, hc⟩
    · rintro ⟨r, hr, hc⟩; exact ⟨r, hp.mem_iff.mpr hr, hc⟩
  refine ⟨hkeys, ?_⟩
  intro p e1 e2 he1 he2
  obtain ⟨hn1, hc1, hdT1, hdF1, hfin1⟩ := hI2a p e1 he1
  obtain ⟨hn2, hc2, hdT2, hdF2, hfin2⟩ := hI2b p e2 he2
  refine ⟨hn1.trans hn2.symm, ?_, ?_, ?_⟩
  · cases hd1 : e1.isDirectory <;> cases hd2 : e2.isDirectory
    · rfl
    · obtain ⟨r1, hr1, hf1⟩ := hdF1 hd1
      obtain ⟨r2, hr2, hp2⟩ := hdT2 hd2
      exact (fin_prop_excl c1 hh hpr p r1 hr1 hf1 r2 (hp.mem_iff.mpr hr2) hp2).elim
    · obtain ⟨r2, hr2, hp2⟩ := hdT1 hd1
      obtain ⟨r1, hr1, hf1⟩ := hdF2 hd2
      exact (fin_prop_excl c1 hh hpr p r1 (hp.mem_iff.mpr hr1) hf1 r2 hr2 hp2).elim
    · rfl
  · by_cases hex : ∃ r ∈ c1, p = finOf r.file
    · obtain ⟨r, hr, hpf⟩ := hex
      obtain ⟨ra, hra, hraf, hrae⟩ := hfin1 r hr hpf
      obtain ⟨rb, hrb, hrbf, hrbe⟩ := hfin2 r (hp.mem_iff.mp hr) hpf
      have hab : ra = rb := hFU ra hra rb (hp.mem_iff.mpr hrb) (hraf.trans hrbf.symm)
      rw [hrae, hrbe, hab]
    · have h1n : e1.change = none := by
        cases hch : e1.change with
        | none => rfl
        | some cc => exact absurd (hc1 (by rw [hch]; rfl)) hex
      have h2n : e2.change = none := by
        cases hch : e2.change with
        | none => rfl
        | some cc =>
          obtain ⟨r, hr, hf⟩ := hc2 (by rw [hch]; rfl)
          exact absurd ⟨r, hp.mem_iff.mpr hr, hf⟩ hex
      rw [h1n, h2n]
  · intro x
    rw [children_mem_iff_idx _ hIWF1.1 hL1 hIWF1.2.2 p e1 he1 x,
        children_mem_iff_idx _ hIWF2.1 hL2 hIWF2.2.2 p e2 he2 x]
    constructor
    · rintro ⟨hs, hrest⟩; exact ⟨(hkeys x).mp hs, hrest⟩
    · rintro ⟨hs, hrest⟩; exact ⟨(hkeys x).mpr hs, hrest⟩

theorem p3_StEq (c1 c2 : List GitChange) (hp : c1.Perm c2)
    (hPF : PrefixFree c1) (hFU : FileUnique c1) (hP3 : P3Clean c1) :
    StEq ((c1.foldl Part3.stepP3 Part3.st3Init).entries)
      ((c2.foldl Part3.stepP3 Part3.st3Init).entries) := by
  obtain ⟨hh0, hpr⟩ := hPF
  obtain ⟨hlen, hcln⟩ := hP3
  have hcln2 : ∀ r ∈ c2, '\\' ∉ r.file ∧ [] ∉ r.file.splitOn '/' :=
    fun r hr => hcln r (hp.mem_iff.mpr hr)
  have hpr2 : ∀ r1 ∈ c2, ∀ r2 ∈ c2, r1.file ∉ propsOf r2.file :=
    fun r1 h1 r2 h2 => hpr r1 (hp.mem_iff.mpr h1) r2 (hp.mem_iff.mpr h2)
  obtain ⟨hI1a, hI2a, hREa⟩ := foldP3_inv c1 hcln hpr
  obtain ⟨hI1b, hI2b, hREb⟩ := foldP3_inv c2 hcln2 hpr2
  have htake1 : c1.take 50 = c1 := List.take_of_length_le hlen
  have htake2 : c2.take 50 = c2 :=
    List.take_of_length_le (by rw [← hp.length_eq]; exact hlen)
  have hWF1 := foldP3_WF c1
  rw [htake1] at hWF1
  have hWF2 := foldP3_WF c2
  rw [htake2] at hWF2
  have hL1 := foldP3_link c1
  rw [htake1] at hL1
  have hL2 := foldP3_link c2
  rw [htake2] at hL2
  have hkeys : ∀ x, (alGet ((c1.foldl Part3.stepP3 Part3.st3Init).entries) x).isSome
      ↔ (alGet ((c2.foldl Part3.stepP3 Part3.st3Init).entries) x).isSome := by
    intro x
    rw [hI1a x, hI1b x]
    constructor
    · rintro (hx | ⟨r, hr, hc⟩)
      · exact Or.inl hx
      · exact Or.inr ⟨r, hp.mem_iff.mp hr, hc⟩
    · rintro (hx | ⟨r, hr, hc⟩)
      · exact Or.inl hx
      · exact Or.inr ⟨r, hp.mem_iff.mpr hr, hc⟩
  refine ⟨hkeys, ?_⟩
  intro p e1 e2 he1 he2
  have hchiff : ∀ x, x ∈ e1.children ↔ x ∈ e2.children := by
    intro x
    rw [children_mem_iff_p3 _ hWF1 hL1 p e1 he1 x,
        children_mem_iff_p3 _ hWF2 hL2 p e2 he2 x]
    constructor
    · rintro ⟨hs, hrest⟩; exact ⟨(hkeys x).mp hs, hrest⟩
    · rintro ⟨hs, hrest⟩; exact ⟨(hkeys x).mpr hs, hrest⟩
  by_cases hp0 : p = []
  · rw [hp0] at he1 he2
    obtain ⟨hn1, hd1⟩ := foldP3_rootFields c1 e1 he1
    obtain ⟨hn2, hd2⟩ := foldP3_rootFields c2 e2 he2
    exact ⟨hn1.trans hn2.symm, hd1.trans hd2.symm,
      (hREa e1 he1).trans (hREb e2 he2).symm, hchiff⟩
  · obtain ⟨hn1, hc1, hdT1, hdF1, hfin1⟩ := hI2a p e1 he1 hp0
    obtain ⟨hn2, hc2, hdT2, hdF2, hfin2⟩ := hI2b p e2 he2 hp0
    have hh : ∀ r ∈ c1, r.file.head? ≠ some '/' :=
      fun r hr => head_ne_slash_of_clean r.file (hcln r hr).2
    refine ⟨hn1.trans hn2.symm, ?_, ?_, hchiff⟩
    · cases hd1 : e1.isDirectory <;> cases hd2 : e2.isDirectory
      · rfl
      · obtain ⟨r1, hr1, hf1⟩ := hdF1 hd1
        obtain ⟨r2, hr2, hp2⟩ := hdT2 hd2
        exact (fin_prop_excl c1 hh hpr p r1 hr1 hf1 r2
          (hp.mem_iff.mpr hr2) hp2).elim
      · obtain ⟨r2, hr2, hp2⟩ := hdT1 hd1
        obtain ⟨r1, hr1, hf1⟩ := hdF2 hd2
        exact (fin_prop_excl c1 hh hpr p r1 (hp.mem_iff.mpr hr1) hf1 r2
          hr2 hp2).elim
      · rfl
    · by_cases hex : ∃ r ∈ c1, p = finOf r.file
      · obtain ⟨r, hr, hpf⟩ := hex
        obtain ⟨ra, hra, hraf, hrae⟩ := hfin1 r hr hpf
        obtain ⟨rb, hrb, hrbf, hrbe⟩ := hfin2 r (hp.mem_iff.mp hr) hpf
        have hab : ra = rb :=
          hFU ra hra rb (hp.mem_iff.mpr hrb) (hraf.trans hrbf.symm)
        rw [hrae, hrbe, hab]
      · have h1n : e1.change = none := by
          cases hch : e1.change with
          | none => rfl
          | some cc => exact absurd (hc1 (by rw [hch]; rfl)) hex
        have h2n : e2.change = none := by
          cases hch : e2.change with
          | none => rfl
          | some cc =>
            obtain ⟨r, hr, hf⟩ := hc2 (by rw [hch]; rfl)
            exact absurd ⟨r, hp.mem_iff.mpr hr, hf⟩ hex
        rw [h1n, h2n]

theorem idx_perm_eq (c1 c2 : List GitChange) (hp : c1.Perm c2)
    (hPF : PrefixFree c1) (hFU : FileUnique c1) :
    IndexR.buildFileTree c1 = IndexR.buildFileTree c2 := by
  have hEq := idx_StEq c1 c2 hp hPF hFU
  have hIWF1 := foldIdx_IWF c1
  have hIWF2 := foldIdx_IWF c2
  have hnm1 : ∀ p e, alGet (c1.foldl IndexR.stepIdx []) p = some e →
      e.name = lastSeg p :=
    fun p e he => ((foldIdx_inv c1 hPF).2 p e he).1
  have hmk : maxKeyLen (c2.foldl IndexR.stepIdx [])
      = maxKeyLen (c1.foldl IndexR.stepIdx []) :=
    maxKeyLen_congr _ _ (fun p => (hEq.1 p).symm)
  have hfu : fuelOf (c2.foldl IndexR.stepIdx [])
      = fuelOf (c1.foldl IndexR.stepIdx []) := by
    unfold fuelOf
    rw [hmk]
  have hmemroots : ∀ q, q ∈ IndexR.rootsIdx (c1.foldl IndexR.stepIdx [])
      ↔ q ∈ IndexR.rootsIdx (c2.foldl IndexR.stepIdx []) := by
    intro q
    constructor
    · intro hq
      obtain ⟨hnsl, hsome⟩ := rootsIdx_mem _ hIWF1 q hq
      exact mem_rootsIdx_of_noslash _ q ((hEq.1 q).mp hsome) hnsl
    · intro hq
      obtain ⟨hnsl, hsome⟩ := rootsIdx_mem _ hIWF2 q hq
      exact mem_rootsIdx_of_noslash _ q ((hEq.1 q).mpr hsome) hnsl
  simp only [IndexR.buildFileTree]
  rw [hfu]
  refine sortMat_eq _ _ hIWF1.1 hIWF2.1 hEq hnm1 _ _ _
    (rootsIdx_nodup _ hIWF1.1) (rootsIdx_nodup _ hIWF2.1) hmemroots
    (fun q hq => (rootsIdx_mem _ hIWF1 q hq).2) ?_ ?_
  · intro q1 h1 q2 h2 hseg
    have hs1 := (rootsIdx_mem _ hIWF1 q1 h1).1
    have hs2 := (rootsIdx_mem _ hIWF1 q2 h2).1
    rw [lastSeg_no_slash q1 hs1, lastSeg_no_slash q2 hs2] at hseg
    exact hseg
  · intro q hq
    unfold fuelOf
    omega

theorem p3_perm_eq (c1 c2 : List GitChange) (hp : c1.Perm c2)
    (hPF : PrefixFree c1) (hFU : FileUnique c1) (hP3 : P3Clean c1) :
    Part3.buildFileTree c1 = Part3.buildFileTree c2 := by
  have hEq := p3_StEq c1 c2 hp hPF hFU hP3
  have htake1 : c1.take 50 = c1 := List.take_of_length_le hP3.1
  have htake2 : c2.take 50 = c2 :=
    List.take_of_length_le (by rw [← hp.length_eq]; exact hP3.1)
  have hWF1 := foldP3_WF c1
  rw [htake1] at hWF1
  have hWF2 := foldP3_WF c2
  rw [htake2] at hWF2
  have hroot1 := foldP3_root c1
  rw [htake1] at hroot1
  have hroot2 := foldP3_root c2
  rw [htake2] at hroot2
  have hnm1 : ∀ p e, alGet ((c1.foldl Part3.stepP3 Part3.st3Init).entries) p
      = some e → e.name = lastSeg p := by
    intro p e he
    by_cases hp0 : p = []
    · rw [hp0] at he ⊢
      exact (foldP3_rootFields c1 e he).1
    · exact ((foldP3_inv c1 hP3.2 hPF.2).2.1 p e he hp0).1
  obtain ⟨e01, he01⟩ := Option.isSome_iff_exists.mp hroot1.2
  obtain ⟨e02, he02⟩ := Option.isSome_iff_exists.mp hroot2.2
  have hmk : maxKeyLen ((c2.foldl Part3.stepP3 Part3.st3Init).entries)
      = maxKeyLen ((c1.foldl Part3.stepP3 Part3.st3Init).entries) :=
    maxKeyLen_congr _ _ (fun p => (hEq.1 p).symm)
  have hfu : fuelOf ((c2.foldl Part3.stepP3 Part3.st3Init).entries)
      = fuelOf ((c1.foldl Part3.stepP3 Part3.st3Init).entries) := by
    unfold fuelOf
    rw [hmk]
  have hcl1 := hWF1.2 ([], e01) (alGet_mem _ [] e01 he01)
  have hcl2 := hWF2.2 ([], e02) (alGet_mem _ [] e02 he02)
  simp only [Part3.buildFileTree]
  rw [htake1, htake2, if_neg (fun h => h hroot1.1), if_neg (fun h => h hroot2.1),
    he01, he02, hfu]
  refine sortMat_eq _ _ hWF1 hWF2 hEq hnm1 _ e01.children e02.children
    hcl1.1 hcl2.1 (hEq.2 [] e01 e02 he01 he02).2.2.2
    (fun q hq => (hcl1.2 q hq).1) ?_ ?_
  · intro q1 h1 q2 h2 hseg
    exact childExt_seg_inj [] q1 q2 (hcl1.2 q1 h1).2 (hcl1.2 q2 h2).2 hseg
  · intro q hq
    unfold fuelOf
    omega

end PermStates

/-- C1 counterexample: for input records whose files are `a` and `a/b`, the
node for `a` gains the child `a/b` and so is not a leaf; both variants return
a forest with exactly 1 leaf node carrying a `change`, while the input has 2
distinct `file` values. -/
theorem claimC1_counterexample :
    cntL (IndexR.buildFileTree [mkc "a", mkc "a/b"]) = 1
    ∧ cntL (Part3.buildFileTree [mkc "a", mkc "a/b"]) = 1
    ∧ (([mkc "a", mkc "a/b"].map GitChange.file).dedup).length = 2 := by
  exact ⟨by decide, by decide, by decide⟩

/-- C1 (amended): for inputs in which no `file` value starts with `/` and no
`file` value equals a proper directory prefix of another (its own included),
the number of leaf nodes carrying a `change` in the forest returned by the
`_index.tsx` buildFileTree equals the number of distinct `file` values in the
input; the same holds for the part_003 buildFileTree provided additionally
the input has at most 50 records (it slices to 50), no `file` contains a
backslash (they are rewritten to `/`), and no `file` has an empty
`/`-separated segment. -/
theorem claimC1_leaf_count (changes : List GitChange) :
    (PrefixFree changes →
      cntL (IndexR.buildFileTree changes)
        = ((changes.map GitChange.file).dedup).length)
    ∧ (PrefixFree changes → P3Clean changes →
      cntL (Part3.buildFileTree changes)
        = ((changes.map GitChange.file).dedup).length) :=
  ⟨idx_count changes, p3_count changes⟩

theorem claimC1_witness :
    cntL (IndexR.buildFileTree [mkc "a", mkc "b/c"]) = 2
    ∧ cntL (Part3.buildFileTree [mkc "a", mkc "b/c"]) = 2 := by
  have h := claimC1_leaf_count [mkc "a", mkc "b/c"]
  have hPF : PrefixFree [mkc "a", mkc "b/c"] := by unfold PrefixFree; decide
  have hP3 : P3Clean [mkc "a", mkc "b/c"] := by unfold P3Clean; decide
  have hd : (([mkc "a", mkc "b/c"].map GitChange.file).dedup).length = 2 := by
    decide
  exact ⟨(h.1 hPF).trans hd, (h.2 hPF hP3).trans hd⟩

set_option maxRecDepth 16384 in
/-- C2 counterexample: permuting the input records can change the returned
forest.  For the permuted pair `a`, `a/b` the node at path `a` is a
change-carrying file when `a` comes first but a directory when `a/b` comes
first, in both variants; for two records with the same file `a`, the
`_index.tsx` variant keeps the change of whichever record comes first and
the part_003 variant keeps the change of whichever comes last; and for
part_003 a backslash file `a\\b` collides with `a/b` after separator
normalisation, and with more than 50 records the slice to the first 50
drops a different record set depending on the order. -/
theorem claimC2_counterexample :
    List.Perm [mkc "a", mkc "a/b"] [mkc "a/b", mkc "a"]
    ∧ (IndexR.buildFileTree [mkc "a", mkc "a/b"]).map FNode.isDirectory = [false]
    ∧ (IndexR.buildFileTree [mkc "a/b", mkc "a"]).map FNode.isDirectory = [true]
    ∧ (Part3.buildFileTree [mkc "a", mkc "a/b"]).map FNode.isDirectory = [false]
    ∧ (Part3.buildFileTree [mkc "a/b", mkc "a"]).map FNode.isDirectory = [true]
    ∧ (IndexR.buildFileTree [mkc "a", mka "a"]).map FNode.change
        = [some (mkc "a")]
    ∧ (IndexR.buildFileTree [mka "a", mkc "a"]).map FNode.change
        = [some (mka "a")]
    ∧ (Part3.buildFileTree [mkc "a", mka "a"]).map FNode.change
        = [some (mka "a")]
    ∧ (Part3.buildFileTree [mka "a", mkc "a"]).map FNode.change
        = [some (mkc "a")]
    ∧ ((Part3.buildFileTree [mkc "a\\b", mka "a/b"]).map
          fun n => n.children.map FNode.change) = [[some (mka "a/b")]]
    ∧ ((Part3.buildFileTree [mka "a/b", mkc "a\\b"]).map
          fun n => n.children.map FNode.change) = [[some (mkc "a\\b")]]
    ∧ (Part3.buildFileTree (List.replicate 50 (mkc "a") ++ [mkc "b"])).map
        FNode.name = [['a']]
    ∧ (Part3.buildFileTree ([mkc "b"] ++ List.replicate 50 (mkc "a"))).map
        FNode.name = [['a'], ['b']] := by
  exact ⟨List.Perm.swap _ _ _, by decide, by decide, by decide, by decide,
    by decide, by decide, by decide, by decide, by decide, by decide,
    by decide, by decide⟩

/-- C2 (amended): buildFileTree is order-independent on inputs in which no
file value starts with `/`, no file value equals a proper directory prefix
of another file value, and no two distinct records share a file value; for
the part_003 variant additionally the input must have at most 50 records,
no backslashes in file values, and no empty `/`-separated segment.  Under
these conditions any permutation of the records produces a deep-equal
forest in the respective variant. -/
theorem claimC2_order_independence (c1 c2 : List GitChange)
    (hp : c1.Perm c2) :
    (PrefixFree c1 → FileUnique c1 →
      IndexR.buildFileTree c1 = IndexR.buildFileTree c2)
    ∧ (PrefixFree c1 → FileUnique c1 → P3Clean c1 →
      Part3.buildFileTree c1 = Part3.buildFileTree c2) :=
  ⟨fun hPF hFU => idx_perm_eq c1 c2 hp hPF hFU,
   fun hPF hFU hP3 => p3_perm_eq c1 c2 hp hPF hFU hP3⟩

theorem claimC2_witness :
    IndexR.buildFileTree [mkc "a", mkc "b/c"]
        = IndexR.buildFileTree [mkc "b/c", mkc "a"]
    ∧ Part3.buildFileTree [mkc "a", mkc "b/c"]
        = Part3.buildFileTree [mkc "b/c", mkc "a"] := by
  have h := claimC2_order_independence [mkc "a", mkc "b/c"]
    [mkc "b/c", mkc "a"] (List.Perm.swap _ _ _)
  have hPF : PrefixFree [mkc "a", mkc "b/c"] := by unfold PrefixFree; decide
  have hFU : FileUnique [mkc "a", mkc "b/c"] := by unfold FileUnique; decide
  have hP3 : P3Clean [mkc "a", mkc "b/c"] := by unfold P3Clean; decide
  exact ⟨h.1 hPF hFU, h.2 hPF hFU hP3⟩
